import Mathlib

/-!
Verification development for the Anchor and Mark Consistency Engine of the
da-live editor: the comment-thread anchoring subsystem (comment-utils helpers
and the ProseMirror comment plugin).

The document model is a shallow embedding of a flat ProseMirror document as a
list of position tokens: every token occupies exactly one document position,
so a document position is simply an index into the list.  A block node
(paragraph) contributes an opening and a closing boundary token and its inline
content lies between them; one character of a text node is one token carrying
the list of comment-thread ids of the marks on it (adjacent characters with
the same mark list form one text node, which is how ProseMirror normalises
text nodes); an atomic image node is one token carrying its optional
commentThreadId attribute and its alt text.  The comment store (a Y.Map of
comment records keyed by comment id) is embedded as a list of records in
insertion order.
-/

namespace DaLive

/-- Identifier of a comment thread. -/
abbrev ThreadId := String

/-- One position token of the flattened document. -/
inductive Tok where
  | openB : Tok
  | closeB : Tok
  | chr : Char → List ThreadId → Tok
  | img : Option ThreadId → List Char → Tok
deriving DecidableEq, Repr

/-- A document is the list of its position tokens; a position is an index. -/
abbrev Doc := List Tok

/-- Character payload of a token, if it is a text character. -/
def chrChar? : Tok → Option Char
  | Tok.chr c _ => some c
  | _ => none

/-- Mark list of a token, if it is a text character. -/
def chrMarks? : Tok → Option (List ThreadId)
  | Tok.chr _ ms => some ms
  | _ => none

/-- Whether a token is a block-opening boundary. -/
def Tok.isOpenB : Tok → Bool
  | Tok.openB => true
  | _ => false

/-- Whether a token carries an annotation for the given thread, either as a
text mark or as an image commentThreadId attribute. -/
def Tok.hasTid (t : Tok) (tid : ThreadId) : Bool :=
  match t with
  | Tok.chr _ ms => ms.contains tid
  | Tok.img a _ => a == some tid
  | _ => false

/-- Whether a token carries no comment annotation at all. -/
def Tok.noComment : Tok → Bool
  | Tok.chr _ ms => ms.isEmpty
  | Tok.img a _ => a.isNone
  | _ => true

/-- Flattened text of the document (doc.textContent): the characters of all
text tokens in order; boundary and image tokens contribute nothing. -/
def docText (d : Doc) : List Char :=
  d.filterMap chrChar?

/-- Text covered by the position range from a (inclusive) to b (exclusive):
doc.textBetween(a, b) with empty block separator and empty leaf text. -/
def charsBetween (d : Doc) (a b : Nat) : List Char :=
  ((d.drop a).take (b - a)).filterMap chrChar?

/-- JavaScript String.prototype.slice with non-negative clamped indices. -/
def jsSlice (l : List Char) (a b : Nat) : List Char :=
  (l.take b).drop a

/-- Last n characters of a list, as JavaScript slice with a negative start. -/
def lastN (l : List Char) (n : Nat) : List Char :=
  l.drop (l.length - n)

/-- JavaScript String.prototype.includes: the needle occurs as a contiguous
substring of the haystack. -/
def jsIncludes (hay nd : List Char) : Bool :=
  (List.range (hay.length + 1)).any (fun i => jsSlice hay i (i + nd.length) == nd)

/-- Number of block nodes whose position is strictly before p, which is the
blockIndex computed by walking doc.descendants counting isBlock nodes with
pos less than p (block nodes of this flat model are the openB tokens). -/
def blockIndexBefore (d : Doc) (p : Nat) : Nat :=
  ((d.take p).filter Tok.isOpenB).length

/-- Position of the last block node strictly before p, or 0 when there is
none (the currentBlockPos accumulator of getPositionContext). -/
def lastOpenBefore (d : Doc) (p : Nat) : Nat :=
  (((List.range p).filter (fun i => d.get? i == some Tok.openB)).getLast?).getD 0

/-- Insert an id into an insertion-ordered set represented as a list. -/
def insertTid (acc : List ThreadId) (tid : ThreadId) : List ThreadId :=
  if tid ∈ acc then acc else acc ++ [tid]

/-- Thread ids with a live mark in the document: getThreadIdsWithMarks walks
every node and collects comment-mark thread ids of text nodes and the
commentThreadId attribute of image nodes, as a set in first-seen order. -/
def tidsWithMarks (d : Doc) : List ThreadId :=
  d.foldl
    (fun acc t =>
      match t with
      | Tok.chr _ ms => ms.foldl insertTid acc
      | Tok.img (some tid) _ => insertTid acc tid
      | _ => acc)
    []

/-- Whether the document carries a comment text mark for the thread. -/
def hasTextMark (d : Doc) (tid : ThreadId) : Bool :=
  d.any (fun t =>
    match t with
    | Tok.chr _ ms => ms.contains tid
    | _ => false)

/-- A text node of the document: a maximal run of consecutive characters
carrying the same mark list, together with its start position. -/
structure TextRun where
  start : Nat
  text : List Char
  marks : List ThreadId
deriving DecidableEq, Repr

/-- A node visited by doc.descendants that matters to the engine: a text node
or an atomic image node with its position. -/
inductive Item where
  | text : TextRun → Item
  | image : Nat → Option ThreadId → List Char → Item
deriving DecidableEq, Repr

/-- Length of the run of characters with mark list ms at the head of the
token list. -/
def runLen (ms : List ThreadId) : List Tok → Nat
  | Tok.chr _ ms2 :: ts => if ms2 = ms then runLen ms ts + 1 else 0
  | _ => 0

/-- Whether position i starts a text node: it holds a character and the
previous position does not hold a character with the same mark list. -/
def isRunStart (d : Doc) (i : Nat) (ms : List ThreadId) : Bool :=
  if i = 0 then true
  else
    match d.get? (i - 1) with
    | some (Tok.chr _ ms2) => !(ms2 == ms)
    | _ => true

/-- Characters of the text node starting at position i with mark list ms. -/
def runTextAt (d : Doc) (i : Nat) (ms : List ThreadId) : List Char :=
  ((d.drop i).take (1 + runLen ms (d.drop (i + 1)))).filterMap chrChar?

/-- Document-order list of the nodes doc.descendants visits that matter to
the engine: text nodes (maximal runs of consecutive characters with the same
mark list, which is how ProseMirror normalises adjacent text) and atomic
image nodes, each with its position. -/
def items (d : Doc) : List Item :=
  (List.range d.length).filterMap (fun i =>
    match d.get? i with
    | some (Tok.img a alt) => some (Item.image i a alt)
    | some (Tok.chr _ ms) =>
        if isRunStart d i ms then some (Item.text ⟨i, runTextAt d i ms, ms⟩)
        else none
    | _ => none)

/-- A position range in the document. -/
structure Span where
  fromPos : Nat
  toPos : Nat
deriving DecidableEq, Repr

/-- Position context fingerprint captured next to a selection.  blockIndex
and offsetInBlock are optional: a context object may omit them, which the
scoring step checks for. -/
structure Ctx where
  textBefore : List Char
  textAfter : List Char
  blockIndex : Option Nat
  offsetInBlock : Option Nat
deriving DecidableEq, Repr

/-- Embedding of getPositionContext (comment-utils): block index and offset
of the containing block, plus up to 30 flattened-text characters before and
after the range.  Note the source slices the flattened text at document
positions, exactly as written there. -/
def getPositionContext (d : Doc) (a b : Nat) : Ctx :=
  let blockIndex := blockIndexBefore d a
  let currentBlockPos := lastOpenBefore d a
  let offsetInBlock := if currentBlockPos ≠ 0 then a - currentBlockPos else 0
  let docT := docText d
  let textBefore := jsSlice docT (a - 30) a
  let textAfter := jsSlice docT b (min docT.length (b + 30))
  ⟨lastN textBefore 30, textAfter.take 30, some blockIndex, some offsetInBlock⟩

/-- All offsets at which s occurs as a substring of t, in ascending order;
this is the set of hits the indexOf loop of findBestMatchPosition collects
inside one text node, overlapping hits included because the loop resumes the
search one character after the previous hit. -/
def occOffsets (t s : List Char) : List Nat :=
  (List.range (t.length + 1 - s.length)).filter
    (fun i => jsSlice t i (i + s.length) == s)

/-- All matches of the target text collected by findBestMatchPosition: every
in-node occurrence, nodes in document order, offsets ascending per node. -/
def matchesOf (d : Doc) (s : List Char) : List Span :=
  (items d).foldr
    (fun it acc =>
      match it with
      | Item.text r =>
          ((occOffsets r.text s).map
            (fun i => Span.mk (r.start + i) (r.start + i + s.length))) ++ acc
      | _ => acc)
    []

/-- Score of one match against a stored position context, exactly as the
scoring block of findBestMatchPosition computes it: plus 50 for an exact
preceding-window match, else plus 20 when the window contains the last 10
characters of textBefore; the same for the following window and textAfter;
plus 30 for an equal containing-block index, plus 15 within two blocks.
Empty textBefore or textAfter is falsy in the source and scores nothing. -/
def scoreMatch (d : Doc) (ctx : Ctx) (m : Span) : Int :=
  let docT := docText d
  let sBefore : Int :=
    if ctx.textBefore ≠ [] then
      let actualBefore := jsSlice docT (m.fromPos - ctx.textBefore.length) m.fromPos
      if actualBefore = ctx.textBefore then 50
      else if jsIncludes actualBefore (lastN ctx.textBefore 10) then 20
      else 0
    else 0
  let sAfter : Int :=
    if ctx.textAfter ≠ [] then
      let actualAfter := jsSlice docT m.toPos (m.toPos + ctx.textAfter.length)
      if actualAfter = ctx.textAfter then 50
      else if jsIncludes actualAfter (ctx.textAfter.take 10) then 20
      else 0
    else 0
  let sBlock : Int :=
    match ctx.blockIndex with
    | some bi =>
        let cur := blockIndexBefore d m.fromPos
        let diff := max cur bi - min cur bi
        if diff = 0 then 30 else if diff ≤ 2 then 15 else 0
    | none => 0
  sBefore + sAfter + sBlock

/-- Selection loop of findBestMatchPosition: best starts at the first match
with bestScore minus one, and only a strictly greater score replaces it. -/
def bestLoop (d : Doc) (ctx : Ctx) : List Span → Span → Int → Span
  | [], best, _ => best
  | m :: ms, best, bestScore =>
      let sc := scoreMatch d ctx m
      if sc > bestScore then bestLoop d ctx ms m sc
      else bestLoop d ctx ms best bestScore

/-- Embedding of findBestMatchPosition (comment-utils): null for an empty
target, null when no node contains the target, the unique match when there is
exactly one, the first match when no context is supplied, and otherwise the
best-scoring match with ties kept by the first match encountered. -/
def findBestMatchPosition (d : Doc) (s : List Char) (ctx : Option Ctx) : Option Span :=
  if s = [] then none
  else
    match matchesOf d s with
    | [] => none
    | [m] => some m
    | m :: ms =>
        match ctx with
        | none => some m
        | some c => some (bestLoop d c (m :: ms) m (-1))

/-- A comment record of the store, as kept in the Y.Map keyed by its id.
Replies carry a parentId; the root comment of a thread carries none and is
the sole carrier of anchor state. -/
structure Comment where
  id : String
  threadId : ThreadId
  parentId : Option String
  createdAt : Nat
  resolved : Bool
  orphaned : Bool
  orphanedAt : Option Nat
  selectedText : List Char
  positionContext : Option Ctx
  isImage : Bool
deriving DecidableEq, Repr

/-- The comment store: the records of the Y.Map in insertion order, keyed by
their id field. -/
abbrev CMap := List Comment

/-- Map.set on the store: replace the record with the given key in place, or
append a new one. -/
def mapSet (m : CMap) (key : String) (c : Comment) : CMap :=
  if m.any (fun x => x.id == key) then m.map (fun x => if x.id == key then c else x)
  else m ++ [c]

/-- Records groupCommentsByThread keeps: a record must exist and carry a
truthy threadId. -/
def validComments (m : CMap) : List Comment :=
  m.filter (fun c => c.threadId ≠ "")

/-- Thread ids present in the store, in first-seen order, as the key set of
the map groupCommentsByThread builds. -/
def threadIdsOf (m : CMap) : List ThreadId :=
  (validComments m).foldl (fun acc c => insertTid acc c.threadId) []

/-- Stable ascending insertion by createdAt, modelling the stable JavaScript
sort with the comparator on createdAt. -/
def insertByCreated : List Comment → Comment → List Comment
  | [], x => [x]
  | y :: ys, x =>
      if y.createdAt ≤ x.createdAt then y :: insertByCreated ys x
      else x :: y :: ys

/-- Stable sort of a comment list by createdAt. -/
def sortByCreated (l : List Comment) : List Comment :=
  l.foldl insertByCreated []

/-- The comments of one thread, sorted by createdAt, as one value of the map
groupCommentsByThread returns. -/
def threadComments (m : CMap) (tid : ThreadId) : List Comment :=
  sortByCreated ((validComments m).filter (fun c => c.threadId == tid))

/-- Embedding of groupCommentsByThread: thread ids in first-seen order, each
with its sorted comment list. -/
def threadsOf (m : CMap) : List (ThreadId × List Comment) :=
  (threadIdsOf m).map (fun tid => (tid, threadComments m tid))

/-- Root comment of a thread list: the first record with a null parentId. -/
def rootOf (cs : List Comment) : Option Comment :=
  cs.find? (fun c => c.parentId = none)

/-- Embedding of findRootCommentEntry: forEach over the store keeping the
last record of the thread with a null parentId. -/
def findRootCommentEntry (m : CMap) (tid : ThreadId) : Option Comment :=
  m.foldl
    (fun acc c => if c.threadId == tid ∧ c.parentId = none then some c else acc)
    none

/-- Embedding of restoreOrphanedComments: every thread whose root is
orphaned and whose id has a live mark again has the orphaned state cleared
on all its root records. -/
def restorePass (tids : List ThreadId) (ths : List (ThreadId × List Comment))
    (m : CMap) : CMap :=
  let restoredIds :=
    (ths.filter (fun p =>
      ((rootOf p.2).elim false (fun r => r.orphaned)) ∧ tids.contains p.1)).map
      (fun p => p.1)
  if restoredIds = [] then m
  else
    m.map (fun c =>
      if restoredIds.contains c.threadId ∧ c.parentId = none then
        { c with orphaned := false, orphanedAt := none }
      else c)

/-- Embedding of markOrphanedComments: every thread with no live mark whose
root is neither resolved nor already orphaned is marked orphaned now on all
its root records, and the batch of newly orphaned ids is emitted. -/
def orphanPass (now : Nat) (tids : List ThreadId)
    (ths : List (ThreadId × List Comment)) (m : CMap) : CMap × List ThreadId :=
  let newlyOrphanedIds :=
    (ths.filter (fun p =>
      ¬ tids.contains p.1
        ∧ ¬ ((rootOf p.2).elim false (fun r => r.resolved))
        ∧ ¬ ((rootOf p.2).elim false (fun r => r.orphaned)))).map (fun p => p.1)
  if newlyOrphanedIds = [] then (m, [])
  else
    (m.map (fun c =>
      if newlyOrphanedIds.contains c.threadId ∧ c.parentId = none then
        { c with orphaned := true, orphanedAt := some now }
      else c),
     newlyOrphanedIds)

/-- A range of a live comment mark or annotated image, as findCommentMarkRange
returns it. -/
structure MarkRange where
  fromPos : Nat
  toPos : Nat
  isImage : Bool
deriving DecidableEq, Repr

/-- Whether a text node carries the comment mark for the thread. -/
def runHasTid (r : TextRun) (tid : ThreadId) : Bool :=
  r.marks.contains tid

/-- Backwards walk over the nodes before the first hit while they are text
nodes carrying the mark, extending the start of the range: the sibling walk
of findCommentMarkRange, modelled on the document-order node list. -/
def leftExtend (tid : ThreadId) : List Item → Nat → Nat
  | Item.text r :: rest, start =>
      if runHasTid r tid then leftExtend tid rest r.start else start
  | _, start => start

/-- Forward scan of findCommentMarkRange over the rest of the document: the
end of the last text node carrying the mark, or the default. -/
def lastMarkedEnd (tid : ThreadId) (its : List Item) (dflt : Nat) : Nat :=
  its.foldl
    (fun acc it =>
      match it with
      | Item.text r => if runHasTid r tid then r.start + r.text.length else acc
      | _ => acc)
    dflt

/-- Scan of findCommentMarkRange: first node that is an annotated image or a
marked text node decides the result; seen keeps the already visited nodes in
reverse for the backwards sibling walk. -/
def fcmrScan (tid : ThreadId) : List Item → List Item → Option MarkRange
  | _, [] => none
  | seen, it :: rest =>
      match it with
      | Item.image p a _ =>
          if a == some tid then some ⟨p, p + 1, true⟩
          else fcmrScan tid (it :: seen) rest
      | Item.text r =>
          if runHasTid r tid then
            some ⟨leftExtend tid seen r.start,
                  lastMarkedEnd tid (it :: rest) (r.start + r.text.length),
                  false⟩
          else fcmrScan tid (it :: seen) rest

/-- Embedding of findCommentMarkRange: the position range of the comment mark
or annotated image for a thread, or none. -/
def findCommentMarkRange (d : Doc) (tid : ThreadId) : Option MarkRange :=
  fcmrScan tid [] (items d)

/-- Whether a node carries the thread's annotation: the hit condition of the
findCommentMarkRange scan. -/
def itemHasTid (tid : ThreadId) : Item → Bool
  | Item.text r => runHasTid r tid
  | Item.image _ a _ => a == some tid

/-- Whether a character is whitespace in the sense of the source's regular
expression class of whitespace plus the non-breaking space. -/
def wsChar (c : Char) : Bool :=
  c.isWhitespace || c == '\u00A0'

/-- Embedding of isOnlyWhitespace: empty text is falsy and counts as only
whitespace. -/
def isOnlyWhitespace (l : List Char) : Bool :=
  l.all wsChar

/-- Mark.addToSet for a comment mark: add the thread id if not present.  The
model lets comment marks of distinct threads coexist on one character. -/
def addTid (tid : ThreadId) (ms : List ThreadId) : List ThreadId :=
  if tid ∈ ms then ms else ms ++ [tid]

/-- Map over tokens with their document positions, counting from i. -/
def mapIdxTok (f : Nat → Tok → Tok) : Doc → Nat → Doc
  | [], _ => []
  | t :: ts, i => f i t :: mapIdxTok f ts (i + 1)

/-- Embedding of tr.addMark(a, b, comment(tid)): every character whose
position lies in the range gains the mark; other tokens are untouched. -/
def addMark (d : Doc) (a b : Nat) (tid : ThreadId) : Doc :=
  mapIdxTok
    (fun i t =>
      if a ≤ i ∧ i < b then
        match t with
        | Tok.chr c ms => Tok.chr c (addTid tid ms)
        | t2 => t2
      else t)
    d 0

/-- Whether tr.addMark(a, b, comment(tid)) produces zero steps: every
character in the range already carries the mark (or the range has none). -/
def addMarkNoop (d : Doc) (a b : Nat) (tid : ThreadId) : Bool :=
  ((d.drop a).take (b - a)).all (fun t =>
    match t with
    | Tok.chr _ ms => ms.contains tid
    | _ => true)

/-- Number of image nodes with position in the range. -/
def countImagesInRange (d : Doc) (a b : Nat) : Nat :=
  ((d.drop a).take (b - a)).countP (fun t =>
    match t with
    | Tok.img _ _ => true
    | _ => false)

/-- Embedding of setNodeMarkup setting the commentThreadId attribute of every
image node with position in the range (the per-cell image walk). -/
def setImageTidsInRange (d : Doc) (a b : Nat) (tid : ThreadId) : Doc :=
  mapIdxTok
    (fun i t =>
      if a ≤ i ∧ i < b then
        match t with
        | Tok.img _ alt => Tok.img (some tid) alt
        | t2 => t2
      else t)
    d 0

/-- An editor selection: a text selection with its two positions, a node
selection on an image, or a table cell selection carrying the selected cell
positions with node sizes and the selection's own from and to. -/
inductive Sel where
  | text : Nat → Nat → Sel
  | image : Nat → Sel
  | cell : List (Nat × Nat) → Nat → Nat → Sel
deriving DecidableEq, Repr

/-- Whether the selection is a node selection on an image. -/
def Sel.isImageSel : Sel → Bool
  | Sel.image _ => true
  | _ => false

/-- The from and to of a selection. -/
def Sel.fromTo : Sel → Nat × Nat
  | Sel.text a b => (a, b)
  | Sel.image p => (p, p + 1)
  | Sel.cell _ a b => (a, b)

/-- The pending comment range of the plugin state. -/
structure PendingRange where
  fromPos : Nat
  toPos : Nat
  isImage : Bool
deriving DecidableEq, Repr

/-- Options of the plugin applyCommentMark. -/
structure ApplyOpts where
  selectedText : List Char
  positionContext : Option Ctx
  isImage : Bool
deriving DecidableEq, Repr

/-- Embedding of applyCommentToImage of the earlier plugin: set the
commentThreadId attribute of the image under a node selection.  The result is
the dispatched document, or none when the call returns false. -/
def applyCommentToImageMain (d : Doc) (sel : Sel) (tid : ThreadId) : Option Doc :=
  match sel with
  | Sel.image p =>
      match d.get? p with
      | some (Tok.img _ alt) => some (d.set p (Tok.img (some tid) alt))
      | _ => none
  | _ => none

/-- Embedding of applyCommentMark of the earlier plugin (the selection-based
Mark Store apply): image selections go to the image path; otherwise a
degenerate or whitespace-only selection fails, and a valid one gets the mark
over the selection.  The result is the dispatched document, or none when the
call returns false. -/
def applyCommentMarkMain (d : Doc) (sel : Sel) (tid : ThreadId) : Option Doc :=
  if sel.isImageSel then applyCommentToImageMain d sel tid
  else
    let ab := sel.fromTo
    if ab.1 = ab.2 then none
    else if isOnlyWhitespace (charsBetween d ab.1 ab.2) then none
    else some (addMark d ab.1 ab.2 tid)

/-- Embedding of applyCommentToImage of the current plugin: the pending image
range is preferred, with fallback to the image node selection. -/
def applyCommentToImage (d : Doc) (pending : Option PendingRange) (sel : Sel)
    (tid : ThreadId) : Option Doc :=
  let viaPending : Option Doc :=
    match pending with
    | some pr =>
        if pr.isImage then
          match d.get? pr.fromPos with
          | some (Tok.img _ alt) => some (d.set pr.fromPos (Tok.img (some tid) alt))
          | _ => none
        else none
    | none => none
  match viaPending with
  | some d2 => some d2
  | none =>
      match sel with
      | Sel.image p =>
          match d.get? p with
          | some (Tok.img _ alt) => some (d.set p (Tok.img (some tid) alt))
          | _ => none
      | _ => none

/-- Embedding of applyCommentMark of the current plugin: image option or
image selection goes to the image path; a cell selection marks every cell and
annotates its images; a call with selectedText marks the range found by
findBestMatchPosition; otherwise the current text selection is marked after
the degenerate and whitespace checks.  A transaction with zero steps returns
false.  The result is the dispatched document, or none when the call returns
false. -/
def applyCommentMarkOpt (d : Doc) (sel : Sel) (pending : Option PendingRange)
    (tid : ThreadId) (opts : ApplyOpts) : Option Doc :=
  if opts.isImage || sel.isImageSel then applyCommentToImage d pending sel tid
  else
    match sel with
    | Sel.cell cells _ _ =>
        let d2 := cells.foldl
          (fun acc pc =>
            let cs := pc.1 + 1
            let ce := pc.1 + pc.2 - 1
            let acc2 := if cs < ce then addMark acc cs ce tid else acc
            setImageTidsInRange acc2 cs ce tid)
          d
        let anyStep := cells.any (fun pc =>
          let cs := pc.1 + 1
          let ce := pc.1 + pc.2 - 1
          (decide (cs < ce) && !(addMarkNoop d cs ce tid))
            || decide (0 < countImagesInRange d cs ce))
        if anyStep then some d2 else none
    | sel2 =>
        if opts.selectedText ≠ [] then
          match findBestMatchPosition d opts.selectedText opts.positionContext with
          | none => none
          | some mt =>
              if addMarkNoop d mt.fromPos mt.toPos tid then none
              else some (addMark d mt.fromPos mt.toPos tid)
        else
          let ab := sel2.fromTo
          if ab.1 = ab.2 then none
          else if isOnlyWhitespace (charsBetween d ab.1 ab.2) then none
          else
            if addMarkNoop d ab.1 ab.2 tid then none
            else some (addMark d ab.1 ab.2 tid)

/-- Embedding of the valid-thread set of maintainCommentMarks: the thread id
of every record of the store with a truthy threadId. -/
def validThreadIds (m : CMap) : List ThreadId :=
  m.foldl
    (fun acc c => if c.threadId ≠ "" then insertTid acc c.threadId else acc)
    []

/-- Ghost removal of maintainCommentMarks: the corrective transaction removes
from every text node each comment mark whose thread id is falsy or unknown to
the store. -/
def ghostStrip (valid : List ThreadId) (d : Doc) : Doc :=
  d.map (fun t =>
    match t with
    | Tok.chr c ms => Tok.chr c (ms.filter (fun tid => valid.contains tid))
    | t2 => t2)

/-- Comment-mark thread ids of the text node at a document position. -/
def marksAtChr (d : Doc) (i : Nat) : Option (List ThreadId) :=
  match d.get? i with
  | some (Tok.chr _ ms) => some ms
  | _ => none

/-- One probe of the propagation step of maintainCommentMarks: the first
comment mark of the text node at the position, kept only when its thread id
is truthy and known to the store. -/
def probeMark (valid : List ThreadId) (d : Doc) (i : Nat) : Option ThreadId :=
  match marksAtChr d i with
  | some ms =>
      match ms.head? with
      | some tid => if tid ≠ "" ∧ valid.contains tid then some tid else none
      | none => none
  | none => none

/-- First defined of two optional marks, as the sequential if-not-yet-found
probing of the source. -/
def firstSome (a b : Option ThreadId) : Option ThreadId :=
  match a with
  | some t => some t
  | none => b

/-- Mark chosen by the propagation step of maintainCommentMarks for one
inserted range: the pre-edit character before the range, else the pre-edit
character after it, else the marks at the resolved start position. -/
def pickMark (valid : List ThreadId) (oldDoc : Doc) (oldStart oldEnd : Nat) :
    Option ThreadId :=
  let probe1 := if 0 < oldStart then probeMark valid oldDoc (oldStart - 1) else none
  let probe2 :=
    firstSome probe1
      (if oldEnd < oldDoc.length then probeMark valid oldDoc oldEnd else none)
  firstSome probe2 (if 0 < oldStart then probeMark valid oldDoc (oldStart - 1) else none)

/-- Propagation step of maintainCommentMarks: each inserted range of the
transaction mapping whose neighbouring pre-edit character carried a known
mark gets that mark extended over it. -/
def propagateMarks (valid : List ThreadId) (oldDoc : Doc)
    (ranges : List (Nat × Nat × Nat × Nat)) (d : Doc) : Doc :=
  ranges.foldl
    (fun acc q =>
      let oldStart := q.1
      let oldEnd := q.2.1
      let newStart := q.2.2.1
      let newEnd := q.2.2.2
      if newStart < newEnd then
        match pickMark valid oldDoc oldStart oldEnd with
        | some tid => addMark acc newStart newEnd tid
        | none => acc
      else acc)
    d

/-- Embedding of maintainCommentMarks on a document-changing transaction: the
document after the corrective transaction.  Ghost marks are stripped from the
post-edit document; for a paste transaction the propagation step is skipped,
otherwise every inserted range of the transaction mapping may inherit the
known mark of an adjacent pre-edit character. -/
def maintainCommentMarks (m : CMap) (isPaste : Bool) (oldDoc newDoc : Doc)
    (ranges : List (Nat × Nat × Nat × Nat)) : Doc :=
  let valid := validThreadIds m
  let stripped := ghostStrip valid newDoc
  if isPaste then stripped
  else propagateMarks valid oldDoc ranges stripped

/-- Embedding of stripCommentMarksFromFragment: every text node of a pasted
slice loses its comment marks and every image loses its commentThreadId
attribute, recursively through the fragment. -/
def stripCommentMarksFromFragment (f : List Tok) : List Tok :=
  f.map (fun t =>
    match t with
    | Tok.chr c _ => Tok.chr c []
    | Tok.img _ alt => Tok.img none alt
    | t2 => t2)

/-- Embedding of recoverMissingMarks: for every thread with no live mark
whose root is present, not resolved, and has a usable selectedText, the best
match found against the current document gets the mark re-applied; matches
are computed against the pre-recovery document, as the source computes every
match against the state the transaction started from. -/
def recoverMissingMarks (d : Doc) (m : CMap) : Doc :=
  let tids := tidsWithMarks d
  let ths := threadsOf m
  ths.foldl
    (fun acc p =>
      if tids.contains p.1 then acc
      else
        match rootOf p.2 with
        | none => acc
        | some root =>
            if root.resolved then acc
            else if isOnlyWhitespace root.selectedText then acc
            else
              match findBestMatchPosition d root.selectedText root.positionContext with
              | none => acc
              | some mt => addMark acc mt.fromPos mt.toPos p.1)
    d

/-- Label used for image comments with no alt text. -/
def imageLabel : List Char :=
  '[' :: 'I' :: 'm' :: 'a' :: 'g' :: 'e' :: ']' :: []

/-- Position one past the matching close boundary of the block opening at
position p: the end of that block node. -/
def blockEndAfter (d : Doc) (p : Nat) : Nat :=
  match (List.range d.length).find? (fun i => p < i ∧ d.get? i = some Tok.closeB) with
  | some i => i + 1
  | none => d.length

/-- Text covered by a position range with a newline block separator, as
doc.textBetween(a, b, newline) used by the selected-text refresh: every block
node overlapping the range after the first contributes a separator. -/
def charsBetweenSep (d : Doc) (a b : Nat) : List Char :=
  ((List.range d.length).foldl
    (fun st i =>
      match d.get? i with
      | some Tok.openB =>
          if i < b ∧ a < blockEndAfter d i then
            if st.2 then (st.1, false) else (st.1 ++ ['\n'], false)
          else st
      | some (Tok.chr c _) => if a ≤ i ∧ i < b then (st.1 ++ [c], st.2) else st
      | _ => st)
    (([] : List Char), true)).1

/-- Embedding of updateCommentSelectedText: for every thread with a live
mark, the live text (and for text marks a fresh position context) replaces
the stored selectedText of the last root record when it drifted. -/
def refreshPass (d : Doc) (tids : List ThreadId) (m : CMap) : CMap :=
  tids.foldl
    (fun acc tid =>
      match findCommentMarkRange d tid with
      | none => acc
      | some r =>
          let currentText : List Char :=
            if r.isImage then
              match d.get? r.fromPos with
              | some (Tok.img _ alt) => if alt ≠ [] then alt else imageLabel
              | _ => imageLabel
            else charsBetweenSep d r.fromPos r.toPos
          let currentContext : Option Ctx :=
            if r.isImage then none else some (getPositionContext d r.fromPos r.toPos)
          match findRootCommentEntry acc tid with
          | none => acc
          | some e =>
              if e.selectedText ≠ currentText then
                mapSet acc e.id
                  { e with
                    selectedText := currentText,
                    positionContext :=
                      match currentContext with
                      | some c => some c
                      | none => e.positionContext }
              else acc)
    m

/-- One Anchor Lifecycle Controller pass as buildDecorations runs it: the
live-mark ids and thread grouping are computed once, then restoration, orphan
detection, and the selected-text refresh run in order; the result is the
updated store and the batch of newly orphaned thread ids. -/
def lifecyclePass (now : Nat) (d : Doc) (m : CMap) : CMap × List ThreadId :=
  let tids := tidsWithMarks d
  let ths := threadsOf m
  let m1 := restorePass tids ths m
  let om := orphanPass now tids ths m1
  let m3 := refreshPass d tids om.1
  (m3, om.2)

/-- Token-level occurrence of a text inside one text node: the consecutive
positions starting at p spell the text and share one mark list, so the whole
occurrence lies in a single text node of the document. -/
def occursTokAt (d : Doc) (p : Nat) (s : List Char) : Prop :=
  s ≠ [] ∧ ∃ ms, ∀ j, (h : j < s.length) → d.get? (p + j) = some (Tok.chr (s.get ⟨j, h⟩) ms)

/-- Spec-side enumeration for the refinement check of the match collection:
the specification asks for non-overlapping leftmost-first occurrences per
node, so after a hit the scan resumes past the matched text rather than one
character later.  This definition follows the specification words and exists
only to be compared with matchesOf. -/
def nonOverlapOffsets (t s : List Char) (fuel : Nat) (i : Nat) : List Nat :=
  match fuel with
  | 0 => []
  | fuel2 + 1 =>
      match (occOffsets (t.drop i) s).head? with
      | some j => (i + j) :: nonOverlapOffsets t s fuel2 (i + j + s.length)
      | none => []

/-- Spec-side match list: non-overlapping leftmost-first occurrences per
node, in document order. -/
def nonOverlapMatchesSpec (d : Doc) (s : List Char) : List Span :=
  (items d).foldr
    (fun it acc =>
      match it with
      | Item.text r =>
          ((nonOverlapOffsets r.text s (r.text.length + 1) 0).map
            (fun i => Span.mk (r.start + i) (r.start + i + s.length))) ++ acc
      | _ => acc)
    []

/-- The scenario document of the specification: one paragraph whose text is
the sentence pair about the quick fox. -/
def scenarioDoc : Doc :=
  Tok.openB ::
    (("The quick fox jumps. The quick fox runs.".toList).map
      (fun c => Tok.chr c [])) ++ [Tok.closeB]

/-- The context the specification scenario supplies. -/
def scenarioCtx : Ctx :=
  ⟨"The ".toList, " jumps".toList, none, none⟩

/-- Agreement of two comment records on every field except selectedText and
positionContext: the selected-text refresh rewrites only those two fields, so
records related this way group, sort, root, restore and orphan identically. -/
def sameAnchor (c c2 : Comment) : Prop :=
  c2.id = c.id ∧ c2.threadId = c.threadId ∧ c2.parentId = c.parentId
    ∧ c2.createdAt = c.createdAt ∧ c2.resolved = c.resolved
    ∧ c2.orphaned = c.orphaned ∧ c2.orphanedAt = c.orphanedAt
    ∧ c2.isImage = c.isImage

/-- The thread ids restoreOrphanedComments restores: the restoredIds list of
the pass, named for the pass lemmas. -/
def restoredIdsOf (tids : List ThreadId)
    (ths : List (ThreadId × List Comment)) : List ThreadId :=
  (ths.filter (fun p =>
    ((rootOf p.2).elim false (fun r => r.orphaned)) ∧ tids.contains p.1)).map
    (fun p => p.1)

/-- The thread ids markOrphanedComments newly orphans: the newlyOrphanedIds
list of the pass, named for the pass lemmas. -/
def orphanIdsOf (tids : List ThreadId)
    (ths : List (ThreadId × List Comment)) : List ThreadId :=
  (ths.filter (fun p =>
    ¬ tids.contains p.1
      ∧ ¬ ((rootOf p.2).elim false (fun r => r.resolved))
      ∧ ¬ ((rootOf p.2).elim false (fun r => r.orphaned)))).map (fun p => p.1)

/-- Per-record update of the restoration pass. -/
def restoreFn (ids : List ThreadId) (c : Comment) : Comment :=
  if ids.contains c.threadId ∧ c.parentId = none then
    { c with orphaned := false, orphanedAt := none }
  else c

/-- Per-record update of the orphan pass. -/
def orphanFn (now : Nat) (ids : List ThreadId) (c : Comment) : Comment :=
  if ids.contains c.threadId ∧ c.parentId = none then
    { c with orphaned := true, orphanedAt := some now }
  else c

/-- Live text the selected-text refresh computes for a mark range. -/
def currentTextOf (d : Doc) (r : MarkRange) : List Char :=
  if r.isImage then
    match d.get? r.fromPos with
    | some (Tok.img _ alt) => if alt ≠ [] then alt else imageLabel
    | _ => imageLabel
  else charsBetweenSep d r.fromPos r.toPos

/-- One step of the selected-text refresh fold, as refreshPass runs it for
one thread id. -/
def refreshStep (d : Doc) (acc : CMap) (tid : ThreadId) : CMap :=
  match findCommentMarkRange d tid with
  | none => acc
  | some r =>
      let currentText : List Char :=
        if r.isImage then
          match d.get? r.fromPos with
          | some (Tok.img _ alt) => if alt ≠ [] then alt else imageLabel
          | _ => imageLabel
        else charsBetweenSep d r.fromPos r.toPos
      let currentContext : Option Ctx :=
        if r.isImage then none else some (getPositionContext d r.fromPos r.toPos)
      match findRootCommentEntry acc tid with
      | none => acc
      | some e =>
          if e.selectedText ≠ currentText then
            mapSet acc e.id
              { e with
                selectedText := currentText,
                positionContext :=
                  match currentContext with
                  | some c => some c
                  | none => e.positionContext }
          else acc

/-- The root record as the refresh step rewrites it: live text stored, and
for text ranges a fresh position context. -/
def refreshedRec (d : Doc) (r : MarkRange) (e : Comment) : Comment :=
  { e with
    selectedText := currentTextOf d r,
    positionContext :=
      if r.isImage then e.positionContext
      else some (getPositionContext d r.fromPos r.toPos) }

/-- Whether the refresh step for a thread leaves a store untouched: no live
range, no root entry, or the stored text already equals the live text. -/
def refreshNoop (d : Doc) (n : CMap) (tid : ThreadId) : Prop :=
  match findCommentMarkRange d tid with
  | none => True
  | some r =>
      match findRootCommentEntry n tid with
      | none => True
      | some e => e.selectedText = currentTextOf d r

/-- A store holding a single reply record whose thread has no root comment. -/
def rootlessStore : CMap :=
  [{ id := "c2", threadId := "t", parentId := some "c1", createdAt := 5,
     resolved := false, orphaned := false, orphanedAt := none,
     selectedText := ['x'], positionContext := none, isImage := false }]

/-- Maximum score over a list of matches, seeded by a starting score. -/
def foldMaxScore (d : Doc) (c : Ctx) (l : List Span) (sc : Int) : Int :=
  l.foldl (fun acc m => max acc (scoreMatch d c m)) sc

/-- A sample unresolved root comment for witness statements. -/
def sampleRoot : Comment :=
  ⟨"c1", "t", none, 0, false, false, none, ['h', 'i'], none, false⟩

/-- A sample resolved root comment for witness statements. -/
def sampleResolvedRoot : Comment :=
  ⟨"r1", "s", none, 0, true, false, none, ['y', 'o'], none, false⟩

/-- A sample two-thread store for witness statements. -/
def sampleStore : CMap :=
  [sampleRoot, sampleResolvedRoot]

/-- Start position of a node. -/
def itemStart : Item → Nat
  | Item.text r => r.start
  | Item.image p _ _ => p

/-- End position of a node. -/
def itemEnd : Item → Nat
  | Item.text r => r.start + r.text.length
  | Item.image p _ _ => p + 1

/-- Canonical run start of a character position: walk back while the
previous position holds a character with the same mark list. -/
def runStartIdx (d : Doc) : Nat → Nat
  | 0 => 0
  | i + 1 =>
      match d.get? (i + 1), d.get? i with
      | some (Tok.chr _ ms), some (Tok.chr _ ms2) =>
          if ms2 = ms then runStartIdx d i else i + 1
      | _, _ => i + 1

/-- A store holding a single root record of one thread. -/
def rootedStore : CMap :=
  [{ id := "c1", threadId := "t", parentId := none, createdAt := 1,
     resolved := false, orphaned := false, orphanedAt := none,
     selectedText := [], positionContext := none, isImage := false }]

end DaLive

namespace DaLive

/-! Lemmas about the selection loop of findBestMatchPosition. -/

/-- Every match score is nonnegative: all scoring contributions are. -/
theorem scoreMatch_nonneg (d : Doc) (c : Ctx) (m : Span) :
    0 ≤ scoreMatch d c m := by
  unfold scoreMatch
  rcases c.blockIndex with _ | bi <;> simp only <;> split_ifs <;> omega

/-- The seed is bounded by the folded maximum. -/
theorem le_foldMaxScore (d : Doc) (c : Ctx) :
    ∀ (l : List Span) (sc : Int), sc ≤ foldMaxScore d c l sc := by
  intro l
  induction l with
  | nil => intro sc; exact le_refl _
  | cons m ms ih =>
      intro sc
      have h := ih (max sc (scoreMatch d c m))
      simp only [foldMaxScore, List.foldl_cons] at h ⊢
      omega

/-- Folding from an equal-or-smaller seed gives an equal-or-smaller max. -/
theorem foldMaxScore_mono (d : Doc) (c : Ctx) :
    ∀ (l : List Span) (sc1 sc2 : Int), sc1 ≤ sc2 →
      foldMaxScore d c l sc1 ≤ foldMaxScore d c l sc2 := by
  intro l
  induction l with
  | nil => intro sc1 sc2 h; exact h
  | cons m ms ih =>
      intro sc1 sc2 h
      simp only [foldMaxScore, List.foldl_cons] at ih ⊢
      exact ih _ _ (by omega)

/-- The selection loop keeps the first match attaining the maximum score: the
running best is replaced only by a strictly greater score. -/
theorem bestLoop_eq_first_argmax (d : Doc) (c : Ctx) :
    ∀ (l : List Span) (best : Span),
      ((best :: l).find?
          (fun x => scoreMatch d c x == foldMaxScore d c l (scoreMatch d c best)))
        = some (bestLoop d c l best (scoreMatch d c best)) := by
  intro l
  induction l with
  | nil =>
      intro best
      simp [bestLoop, foldMaxScore, List.find?]
  | cons m ms ih =>
      intro best
      have hseed : foldMaxScore d c (m :: ms) (scoreMatch d c best)
          = foldMaxScore d c ms (max (scoreMatch d c best) (scoreMatch d c m)) := by
        simp [foldMaxScore]
      by_cases h : scoreMatch d c m > scoreMatch d c best
      · have hmax : foldMaxScore d c (m :: ms) (scoreMatch d c best)
            = foldMaxScore d c ms (scoreMatch d c m) := by
          rw [hseed]; congr 1; omega
        have hbestlt : scoreMatch d c best < foldMaxScore d c ms (scoreMatch d c m) :=
          lt_of_lt_of_le h (le_foldMaxScore d c ms _)
        have hpredfalse :
            (scoreMatch d c best == foldMaxScore d c (m :: ms) (scoreMatch d c best))
              = false := by
          rw [hmax]
          exact beq_eq_false_iff_ne.mpr (by omega)
        have hloop : bestLoop d c (m :: ms) best (scoreMatch d c best)
            = bestLoop d c ms m (scoreMatch d c m) := by
          simp only [bestLoop, if_pos h]
        rw [hloop]
        simp only [List.find?_cons, hpredfalse]
        rw [hmax]
        exact ih m
      · have hmax : foldMaxScore d c (m :: ms) (scoreMatch d c best)
            = foldMaxScore d c ms (scoreMatch d c best) := by
          rw [hseed]; congr 1; omega
        have hloop : bestLoop d c (m :: ms) best (scoreMatch d c best)
            = bestLoop d c ms best (scoreMatch d c best) := by
          simp only [bestLoop, if_neg h]
        rw [hloop, hmax]
        have ihb := ih best
        cases hb : (scoreMatch d c best == foldMaxScore d c ms (scoreMatch d c best)) with
        | true =>
            simp only [List.find?_cons, hb] at ihb ⊢
            exact ihb
        | false =>
            have hbestlt :
                scoreMatch d c best < foldMaxScore d c ms (scoreMatch d c best) := by
              have h1 := le_foldMaxScore d c ms (scoreMatch d c best)
              have h2 := beq_eq_false_iff_ne.mp hb
              omega
            have hmfalse :
                (scoreMatch d c m == foldMaxScore d c ms (scoreMatch d c best)) = false :=
              beq_eq_false_iff_ne.mpr (by omega)
            simp only [List.find?_cons, hb, hmfalse] at ihb ⊢
            exact ihb

/-- Claim C3, counterexample: in the scenario document the supplied context
textBefore "The " and textAfter " jumps" gives the first occurrence of
"quick fox" the score 0, not 100 as the claim states, because the scoring
step slices the flattened text at document positions, which are offset by
the enclosing block's opening token. -/
theorem findBestMatch_scenario_score_cex :
    matchesOf scenarioDoc ("quick fox".toList) = [⟨5, 14⟩, ⟨26, 35⟩]
      ∧ scoreMatch scenarioDoc scenarioCtx ⟨5, 14⟩ ≠ 100
      ∧ scoreMatch scenarioDoc scenarioCtx ⟨5, 14⟩ = 0 := by
  refine ⟨by decide, by decide, by decide⟩

/-- Claim C3 (amended): with a context supplied, every occurrence is scored
by the source's formula (50 exact-window else 20 containment for the
preceding and following text, 30 equal block index else 15 within two), the
maximum-score occurrence is returned, and ties keep the first occurrence
because only strictly greater scores replace the running best; the scoring
windows are slices of the flattened text taken at document positions, so in
the specification's scenario both occurrences of "quick fox" score 0 under
the supplied context and the first occurrence is returned as the tie
winner. -/
theorem findBestMatch_scoring_tiebreak :
    (∀ (d : Doc) (s : List Char) (c : Ctx) (m : Span) (ms : List Span),
        s ≠ [] → matchesOf d s = m :: ms →
        findBestMatchPosition d s (some c)
          = (m :: ms).find?
              (fun x => scoreMatch d c x == foldMaxScore d c ms (scoreMatch d c m)))
      ∧ findBestMatchPosition scenarioDoc ("quick fox".toList) (some scenarioCtx)
          = some ⟨5, 14⟩
      ∧ scoreMatch scenarioDoc scenarioCtx ⟨5, 14⟩ = 0
      ∧ scoreMatch scenarioDoc scenarioCtx ⟨26, 35⟩ = 0
      ∧ matchesOf scenarioDoc ("quick fox".toList) = [⟨5, 14⟩, ⟨26, 35⟩] := by
  refine ⟨?_, by decide, by decide, by decide, by decide⟩
  intro d s c m ms hs hmat
  unfold findBestMatchPosition
  rw [if_neg hs, hmat]
  cases ms with
  | nil =>
      simp only [List.find?_cons]
      have : (scoreMatch d c m == foldMaxScore d c [] (scoreMatch d c m)) = true := by
        simp [foldMaxScore]
      simp [this]
  | cons m2 rest =>
      have hstep : bestLoop d c (m :: m2 :: rest) m (-1)
          = bestLoop d c (m2 :: rest) m (scoreMatch d c m) := by
        have hpos : scoreMatch d c m > -1 := by
          have := scoreMatch_nonneg d c m
          omega
        simp only [bestLoop, if_pos hpos]
      simp only [hstep]
      exact (bestLoop_eq_first_argmax d c (m2 :: rest) m).symm

/-- Claim C3, witness: the general scoring statement applied to the scenario
document with its two occurrences. -/
theorem findBestMatch_scoring_tiebreak_witness :
    findBestMatchPosition scenarioDoc ("quick fox".toList) (some scenarioCtx)
      = ([⟨5, 14⟩, ⟨26, 35⟩] : List Span).find?
          (fun x => scoreMatch scenarioDoc scenarioCtx x
            == foldMaxScore scenarioDoc scenarioCtx [⟨26, 35⟩]
                 (scoreMatch scenarioDoc scenarioCtx ⟨5, 14⟩)) :=
  findBestMatch_scoring_tiebreak.1 scenarioDoc ("quick fox".toList) scenarioCtx
    ⟨5, 14⟩ [⟨26, 35⟩] (by decide) (by decide)

/-- Claim C6, counterexample: the options-based applyCommentMark returns
false on a valid, non-degenerate, non-whitespace text selection whose span
already fully carries the same thread's mark, because the transaction then
has zero steps. -/
theorem applyMark_noop_cex :
    applyCommentMarkOpt [Tok.openB, Tok.chr 'h' ["t"], Tok.chr 'i' ["t"], Tok.closeB]
        (Sel.text 1 3) none "t" ⟨[], none, false⟩ = none
      ∧ (1 : Nat) ≠ 3
      ∧ isOnlyWhitespace
          (charsBetween [Tok.openB, Tok.chr 'h' ["t"], Tok.chr 'i' ["t"], Tok.closeB] 1 3)
          = false := by
  refine ⟨by decide, by decide, by decide⟩

/-- Claim C6 (amended): on a text selection, both variants of applyCommentMark
return false and change nothing when the span is degenerate or covers only
whitespace (non-breaking spaces included), and otherwise apply the mark over
the selection and return true — except that the options-based variant also
returns false, applying nothing, when the span is already fully marked with
the same thread id, since the transaction then has no steps. -/
theorem applyMark_guards :
    ∀ (d : Doc) (a b : Nat) (tid : ThreadId),
      (applyCommentMarkMain d (Sel.text a b) tid
        = if a = b then none
          else if isOnlyWhitespace (charsBetween d a b) then none
          else some (addMark d a b tid))
      ∧ (applyCommentMarkOpt d (Sel.text a b) none tid ⟨[], none, false⟩
        = if a = b then none
          else if isOnlyWhitespace (charsBetween d a b) then none
          else if addMarkNoop d a b tid then none
          else some (addMark d a b tid)) := by
  intro d a b tid
  constructor
  · rfl
  · rfl

/-- Claim C10, counterexample: with options.isImage false and a non-empty
options.selectedText, a live image node selection preempts the text-matching
path: the image gets the commentThreadId attribute and no text mark at the
best-match range is applied. -/
theorem applyMark_selectedText_image_preempt_cex :
    applyCommentMarkOpt
        [Tok.openB, Tok.chr 'a' [], Tok.chr 'b' [], Tok.closeB, Tok.img none []]
        (Sel.image 4) none "t" ⟨['a', 'b'], none, false⟩
      = some [Tok.openB, Tok.chr 'a' [], Tok.chr 'b' [], Tok.closeB, Tok.img (some "t") []]
      ∧ findBestMatchPosition
          [Tok.openB, Tok.chr 'a' [], Tok.chr 'b' [], Tok.closeB, Tok.img none []]
          ['a', 'b'] none = some ⟨1, 3⟩
      ∧ hasTextMark
          [Tok.openB, Tok.chr 'a' [], Tok.chr 'b' [], Tok.closeB, Tok.img (some "t") []]
          "t" = false := by
  refine ⟨by decide, by decide, by decide⟩

/-- Claim C10 (amended): when options.isImage is false, options.selectedText
is non-empty, and the current selection is a plain text selection (not an
image node selection and not a cell selection), applyCommentMark marks the
range found by findBestMatchPosition — independent of the selection's own
coordinates and without the degenerate-span or whitespace checks — and
returns false, applying nothing, exactly when findBestMatchPosition returns
null or the transaction has no steps. -/
theorem applyMark_selectedText_path :
    ∀ (d : Doc) (a b a2 b2 : Nat) (pending : Option PendingRange) (tid : ThreadId)
      (st : List Char) (ctx : Option Ctx), st ≠ [] →
      (applyCommentMarkOpt d (Sel.text a b) pending tid ⟨st, ctx, false⟩
        = match findBestMatchPosition d st ctx with
          | none => none
          | some mt =>
              if addMarkNoop d mt.fromPos mt.toPos tid then none
              else some (addMark d mt.fromPos mt.toPos tid))
      ∧ applyCommentMarkOpt d (Sel.text a b) pending tid ⟨st, ctx, false⟩
        = applyCommentMarkOpt d (Sel.text a2 b2) pending tid ⟨st, ctx, false⟩ := by
  intro d a b a2 b2 pending tid st ctx hst
  constructor
  · show (if st ≠ [] then _ else _) = _
    rw [if_pos hst]
  · show (if st ≠ [] then _ else _) = (if st ≠ [] then _ else _)
    rw [if_pos hst, if_pos hst]

/-- Claim C10, witness: the selected-text path applied to a concrete
document, with the selection coordinates visibly irrelevant. -/
theorem applyMark_selectedText_path_witness :
    (applyCommentMarkOpt [Tok.openB, Tok.chr 'a' [], Tok.chr 'b' [], Tok.closeB]
        (Sel.text 0 0) none "t" ⟨['a', 'b'], none, false⟩
      = match findBestMatchPosition [Tok.openB, Tok.chr 'a' [], Tok.chr 'b' [], Tok.closeB]
            ['a', 'b'] none with
        | none => none
        | some mt =>
            if addMarkNoop [Tok.openB, Tok.chr 'a' [], Tok.chr 'b' [], Tok.closeB]
                mt.fromPos mt.toPos "t" then none
            else some (addMark [Tok.openB, Tok.chr 'a' [], Tok.chr 'b' [], Tok.closeB]
                mt.fromPos mt.toPos "t"))
      ∧ applyCommentMarkOpt [Tok.openB, Tok.chr 'a' [], Tok.chr 'b' [], Tok.closeB]
          (Sel.text 0 0) none "t" ⟨['a', 'b'], none, false⟩
        = applyCommentMarkOpt [Tok.openB, Tok.chr 'a' [], Tok.chr 'b' [], Tok.closeB]
            (Sel.text 2 9) none "t" ⟨['a', 'b'], none, false⟩ :=
  applyMark_selectedText_path [Tok.openB, Tok.chr 'a' [], Tok.chr 'b' [], Tok.closeB]
    0 0 2 9 none "t" ['a', 'b'] none (by decide)

/-! Lemmas about the insertion-ordered id sets and the ghost-strip pass. -/

/-- Membership in insertTid. -/
theorem mem_insertTid {x t : ThreadId} {acc : List ThreadId} :
    x ∈ insertTid acc t ↔ x ∈ acc ∨ x = t := by
  unfold insertTid
  by_cases h : t ∈ acc
  · rw [if_pos h]
    constructor
    · exact Or.inl
    · rintro (h2 | rfl)
      · exact h2
      · exact h
  · rw [if_neg h]
    simp [List.mem_append]

/-- Membership after folding insertTid over a list of ids. -/
theorem mem_foldl_insertTid {x : ThreadId} :
    ∀ (ms : List ThreadId) (acc : List ThreadId),
      x ∈ ms.foldl insertTid acc ↔ x ∈ acc ∨ x ∈ ms := by
  intro ms
  induction ms with
  | nil => intro acc; simp
  | cons t ts ih =>
      intro acc
      rw [List.foldl_cons, ih, mem_insertTid]
      simp only [List.mem_cons]
      tauto

/-- Membership in the live-mark id set is carrying an annotation somewhere. -/
theorem mem_tidsWithMarks {x : ThreadId} (d : Doc) :
    x ∈ tidsWithMarks d ↔ ∃ t ∈ d, Tok.hasTid t x = true := by
  have main : ∀ (l : List Tok) (acc : List ThreadId),
      x ∈ l.foldl
          (fun acc t =>
            match t with
            | Tok.chr _ ms => ms.foldl insertTid acc
            | Tok.img (some tid) _ => insertTid acc tid
            | _ => acc) acc
        ↔ x ∈ acc ∨ ∃ t ∈ l, Tok.hasTid t x = true := by
    intro l
    induction l with
    | nil => intro acc; simp
    | cons t ts ih =>
        intro acc
        rw [List.foldl_cons, ih]
        cases t with
        | chr c ms =>
            rw [mem_foldl_insertTid]
            simp only [List.mem_cons, Tok.hasTid]
            constructor
            · rintro ((h | h) | h)
              · exact Or.inl h
              · exact Or.inr ⟨Tok.chr c ms, Or.inl rfl, by
                  simpa [List.elem_iff] using h⟩
              · rcases h with ⟨t2, ht2, hh⟩
                exact Or.inr ⟨t2, Or.inr ht2, hh⟩
            · rintro (h | ⟨t2, (rfl | ht2), hh⟩)
              · exact Or.inl (Or.inl h)
              · exact Or.inl (Or.inr (by simpa [List.elem_iff] using hh))
              · exact Or.inr ⟨t2, ht2, hh⟩
        | img a alt =>
            cases a with
            | none => simp [Tok.hasTid]
            | some tid =>
                rw [mem_insertTid]
                simp only [List.mem_cons, Tok.hasTid]
                constructor
                · rintro ((h | h) | h)
                  · exact Or.inl h
                  · exact Or.inr ⟨Tok.img (some tid) alt, Or.inl rfl, by simp [h]⟩
                  · rcases h with ⟨t2, ht2, hh⟩
                    exact Or.inr ⟨t2, Or.inr ht2, hh⟩
                · rintro (h | ⟨t2, (rfl | ht2), hh⟩)
                  · exact Or.inl (Or.inl h)
                  · exact Or.inl (Or.inr (by
                      have := of_decide_eq_true (by simpa using hh)
                      exact (Option.some.injEq _ _ ▸ this ▸ rfl)))
                  · exact Or.inr ⟨t2, ht2, hh⟩
        | openB => simp [Tok.hasTid]
        | closeB => simp [Tok.hasTid]
  have h := main d []
  simpa [tidsWithMarks] using h

/-- Membership in the valid-thread set of the maintainer means a record of
the store carries that id. -/
theorem mem_validThreadIds {x : ThreadId} (m : CMap) :
    x ∈ validThreadIds m ↔ ∃ c ∈ m, c.threadId ≠ "" ∧ c.threadId = x := by
  have main : ∀ (l : CMap) (acc : List ThreadId),
      x ∈ l.foldl
          (fun acc c => if c.threadId ≠ "" then insertTid acc c.threadId else acc) acc
        ↔ x ∈ acc ∨ ∃ c ∈ l, c.threadId ≠ "" ∧ c.threadId = x := by
    intro l
    induction l with
    | nil => intro acc; simp
    | cons c cs ih =>
        intro acc
        rw [List.foldl_cons, ih]
        by_cases hc : c.threadId ≠ ""
        · rw [if_pos hc, mem_insertTid]
          simp only [List.mem_cons]
          constructor
          · rintro ((h | h) | h)
            · exact Or.inl h
            · exact Or.inr ⟨c, Or.inl rfl, hc, h.symm⟩
            · rcases h with ⟨c2, hc2, hh⟩
              exact Or.inr ⟨c2, Or.inr hc2, hh⟩
          · rintro (h | ⟨c2, (rfl | hc2), hh⟩)
            · exact Or.inl (Or.inl h)
            · exact Or.inl (Or.inr hh.2.symm)
            · exact Or.inr ⟨c2, hc2, hh⟩
        · rw [if_neg hc]
          simp only [List.mem_cons]
          constructor
          · rintro (h | h)
            · exact Or.inl h
            · rcases h with ⟨c2, hc2, hh⟩
              exact Or.inr ⟨c2, Or.inr hc2, hh⟩
          · rintro (h | ⟨c2, (rfl | hc2), hh⟩)
            · exact Or.inl h
            · exact absurd hh.1 (by simpa using hc)
            · exact Or.inr ⟨c2, hc2, hh⟩
  have h := main m []
  simpa [validThreadIds] using h

/-- Membership in the thread-id key set of groupCommentsByThread. -/
theorem mem_threadIdsOf {x : ThreadId} (m : CMap) :
    x ∈ threadIdsOf m ↔ ∃ c ∈ m, c.threadId ≠ "" ∧ c.threadId = x := by
  have main : ∀ (l : CMap) (acc : List ThreadId),
      x ∈ l.foldl (fun acc c => insertTid acc c.threadId) acc
        ↔ x ∈ acc ∨ ∃ c ∈ l, c.threadId = x := by
    intro l
    induction l with
    | nil => intro acc; simp
    | cons c cs ih =>
        intro acc
        rw [List.foldl_cons, ih, mem_insertTid]
        simp only [List.mem_cons]
        constructor
        · rintro ((h | h) | h)
          · exact Or.inl h
          · exact Or.inr ⟨c, Or.inl rfl, h.symm⟩
          · rcases h with ⟨c2, hc2, hh⟩
            exact Or.inr ⟨c2, Or.inr hc2, hh⟩
        · rintro (h | ⟨c2, (rfl | hc2), hh⟩)
          · exact Or.inl (Or.inl h)
          · exact Or.inl (Or.inr hh.symm)
          · exact Or.inr ⟨c2, hc2, hh⟩
  have h := main (validComments m) []
  simp only [threadIdsOf]
  rw [h]
  simp only [List.not_mem_nil, false_or]
  constructor
  · rintro ⟨c, hc, hct⟩
    have hc2 := List.mem_filter.mp hc
    exact ⟨c, hc2.1, by simpa using hc2.2, hct⟩
  · rintro ⟨c, hc, hne, hct⟩
    exact ⟨c, List.mem_filter.mpr ⟨hc, by simpa using hne⟩, hct⟩

/-- After the ghost strip, no text node carries a mark outside the valid
set. -/
theorem ghostStrip_no_ghost (valid : List ThreadId) (d : Doc) (tid : ThreadId)
    (h : valid.contains tid = false) :
    hasTextMark (ghostStrip valid d) tid = false := by
  unfold hasTextMark ghostStrip
  rw [List.any_map, List.any_eq_false]
  intro t _
  cases t with
  | chr c ms =>
      simp only [Function.comp_apply, Bool.not_eq_true]
      rw [List.contains_eq_any_beq, List.any_eq_false]
      intro x hx hbeq
      have hxv := (List.mem_filter.mp hx).2
      rw [← eq_of_beq hbeq] at hxv
      rw [h] at hxv
      exact Bool.false_ne_true hxv
  | openB => simp
  | closeB => simp
  | img a alt => simp

/-- Adding a mark for one thread does not create text marks of another. -/
theorem hasTextMark_addMark_other (a b : Nat) (tid tid2 : ThreadId)
    (hne : tid2 ≠ tid) :
    ∀ (d : Doc) (i : Nat),
      (mapIdxTok
        (fun i t =>
          if a ≤ i ∧ i < b then
            match t with
            | Tok.chr c ms => Tok.chr c (addTid tid ms)
            | t2 => t2
          else t) d i).any
          (fun t => match t with
            | Tok.chr _ ms => ms.contains tid2
            | _ => false)
        = d.any (fun t => match t with
            | Tok.chr _ ms => ms.contains tid2
            | _ => false) := by
  intro d
  induction d with
  | nil => intro i; rfl
  | cons t ts ih =>
      intro i
      rw [mapIdxTok]
      rw [List.any_cons, List.any_cons, ih (i + 1)]
      congr 1
      by_cases hr : a ≤ i ∧ i < b
      · rw [if_pos hr]
        cases t with
        | chr c ms =>
            simp only
            unfold addTid
            by_cases hmem : tid ∈ ms
            · rw [if_pos hmem]
            · rw [if_neg hmem]
              rw [List.contains_eq_any_beq, List.contains_eq_any_beq, List.any_append]
              have : [tid].any (fun x => tid2 == x) = false := by
                simp [hne]
              rw [this, Bool.or_false]
        | openB => rfl
        | closeB => rfl
        | img a2 alt => rfl
      · rw [if_neg hr]

/-- The same, phrased for addMark. -/
theorem hasTextMark_addMark (d : Doc) (a b : Nat) (tid tid2 : ThreadId)
    (hne : tid2 ≠ tid) :
    hasTextMark (addMark d a b tid) tid2 = hasTextMark d tid2 :=
  hasTextMark_addMark_other a b tid tid2 hne d 0

/-- A defined firstSome comes from one of its arguments. -/
theorem firstSome_eq_some {a b : Option ThreadId} {t : ThreadId}
    (h : firstSome a b = some t) : a = some t ∨ b = some t := by
  cases a with
  | none => exact Or.inr h
  | some x => exact Or.inl h

/-- A defined probe is a member of the valid set. -/
theorem probeMark_valid (valid : List ThreadId) (oldDoc : Doc) (i : Nat)
    (x : ThreadId) (hx : probeMark valid oldDoc i = some x) :
    valid.contains x = true := by
  unfold probeMark at hx
  rcases hms : marksAtChr oldDoc i with _ | ms
  · rw [hms] at hx
    exact absurd hx (by simp)
  · rw [hms] at hx
    rcases ms with _ | ⟨y, ys⟩
    · exact absurd (show (none : Option ThreadId) = some x from hx) (by simp)
    · have hx2 : (if y ≠ "" ∧ valid.contains y = true then some y else none) = some x := hx
      by_cases hcond : y ≠ "" ∧ valid.contains y = true
      · rw [if_pos hcond] at hx2
        cases hx2
        exact hcond.2
      · rw [if_neg hcond] at hx2
        exact absurd hx2 (by simp)

/-- A defined guarded probe is a member of the valid set. -/
theorem guardedProbe_valid (valid : List ThreadId) (oldDoc : Doc) (cond : Prop)
    [Decidable cond] (i : Nat) (t : ThreadId)
    (h : (if cond then probeMark valid oldDoc i else none) = some t) :
    valid.contains t = true := by
  by_cases hc : cond
  · rw [if_pos hc] at h
    exact probeMark_valid valid oldDoc i t h
  · rw [if_neg hc] at h
    exact absurd h (by simp)

/-- The propagation step only consults the valid set for the mark it picks. -/
theorem pickMark_valid (valid : List ThreadId) (oldDoc : Doc) (oldStart oldEnd : Nat)
    (t : ThreadId) (h : pickMark valid oldDoc oldStart oldEnd = some t) :
    valid.contains t = true := by
  unfold pickMark at h
  rcases firstSome_eq_some h with h2 | h2
  · rcases firstSome_eq_some h2 with h3 | h3
    · exact guardedProbe_valid valid oldDoc _ _ t h3
    · exact guardedProbe_valid valid oldDoc _ _ t h3
  · exact guardedProbe_valid valid oldDoc _ _ t h2

/-- Claim C7 (amended): after one Transactional Mark Maintainer pass, no text
node carries a mark of a thread with no record in the store, and such a
thread is never part of an orphaned-thread batch; the commentThreadId
attribute of an image node, however, is not consulted by the ghost strip and
survives (see the counterexample). -/
theorem ghost_marks_stripped :
    ∀ (m : CMap) (isPaste : Bool) (oldD newD : Doc)
      (ranges : List (Nat × Nat × Nat × Nat)) (tid : ThreadId)
      (now : Nat) (d2 : Doc),
      (∀ c ∈ m, c.threadId ≠ tid) →
      hasTextMark (maintainCommentMarks m isPaste oldD newD ranges) tid = false
        ∧ (orphanPass now (tidsWithMarks d2) (threadsOf m) m).2.contains tid = false := by
  intro m isPaste oldD newD ranges tid now d2 hno
  have hvalid : (validThreadIds m).contains tid = false := by
    rw [List.contains_eq_any_beq, List.any_eq_false]
    intro x hx
    intro hbeq
    rcases (mem_validThreadIds m).mp hx with ⟨c, hc, _, hcx⟩
    exact hno c hc (hcx.trans (eq_of_beq hbeq).symm)
  constructor
  · unfold maintainCommentMarks
    by_cases hp : isPaste = true
    · rw [hp]
      simp only [if_true]
      exact ghostStrip_no_ghost _ _ _ hvalid
    · have hp2 : isPaste = false := by
        cases isPaste
        · rfl
        · exact absurd rfl hp
      rw [hp2]
      simp only [Bool.false_eq_true, if_false]
      have base := ghostStrip_no_ghost (validThreadIds m) newD tid hvalid
      unfold propagateMarks
      generalize hstrip : ghostStrip (validThreadIds m) newD = d0 at base
      clear hstrip
      induction ranges generalizing d0 with
      | nil => exact base
      | cons q qs ih =>
          rw [List.foldl_cons]
          apply ih
          by_cases hlt : q.2.2.1 < q.2.2.2
          · rw [if_pos hlt]
            rcases hpick : pickMark (validThreadIds m) oldD q.1 q.2.1 with _ | t
            · exact base
            · simp only
              have htv := pickMark_valid _ _ _ _ _ hpick
              have hne : tid ≠ t := by
                intro hEq
                rw [← hEq] at htv
                rw [hvalid] at htv
                exact Bool.false_ne_true htv
              rw [hasTextMark_addMark _ _ _ _ _ hne]
              exact base
          · rw [if_neg hlt]
            exact base
  · rw [List.contains_eq_any_beq, List.any_eq_false]
    intro x hx hbeq
    have hxtid : tid = x := eq_of_beq hbeq
    subst hxtid
    unfold orphanPass at hx
    set ids := ((threadsOf m).filter _).map _ with hids
    by_cases hempty : ids = []
    · rw [if_pos hempty] at hx
      exact absurd hx (List.not_mem_nil tid)
    · rw [if_neg hempty] at hx
      simp only at hx
      rcases List.mem_map.mp hx with ⟨p, hp, hptid⟩
      have hpm : p ∈ threadsOf m := (List.mem_filter.mp hp).1
      rcases List.mem_map.mp hpm with ⟨t2, ht2, hpt⟩
      rcases (mem_threadIdsOf m).mp ht2 with ⟨c, hcm, _, hct⟩
      have hp1 : p.1 = t2 := by rw [← hpt]
      exact hno c hcm (by rw [hct, ← hp1, hptid])

/-- Claim C7, counterexample: an image whose commentThreadId references a
thread with no record in the store keeps that attribute through the
maintainer pass; only text marks are stripped. -/
theorem ghost_image_attr_survives_cex :
    maintainCommentMarks [] false [Tok.img (some "g") []] [Tok.img (some "g") []] []
      = [Tok.img (some "g") []]
      ∧ validThreadIds [] = []
      ∧ Tok.noComment (Tok.img (some "g") []) = false := by
  refine ⟨by decide, by decide, by decide⟩

/-- Claim C7, witness: the amended statement applied to a one-record store
and a ghost-marked document. -/
theorem ghost_marks_stripped_witness :
    hasTextMark
        (maintainCommentMarks
          [⟨"c1", "t", none, 0, false, false, none, ['h'], none, false⟩] false
          [Tok.openB, Tok.chr 'x' ["g"], Tok.closeB]
          [Tok.openB, Tok.chr 'x' ["g"], Tok.closeB] [(1, 1, 1, 2)]) "g" = false
      ∧ (orphanPass 7 (tidsWithMarks [Tok.openB, Tok.chr 'x' ["g"], Tok.closeB])
          (threadsOf [⟨"c1", "t", none, 0, false, false, none, ['h'], none, false⟩])
          [⟨"c1", "t", none, 0, false, false, none, ['h'], none, false⟩]).2.contains "g"
        = false :=
  ghost_marks_stripped
    [⟨"c1", "t", none, 0, false, false, none, ['h'], none, false⟩] false
    [Tok.openB, Tok.chr 'x' ["g"], Tok.closeB]
    [Tok.openB, Tok.chr 'x' ["g"], Tok.closeB] [(1, 1, 1, 2)] "g" 7
    [Tok.openB, Tok.chr 'x' ["g"], Tok.closeB]
    (by decide)

/-- Claim C8: pasted content is stripped of every comment annotation, the
pasted range of the resulting document carries zero comment annotations, and
the maintainer pass on a paste transaction skips mark propagation entirely,
reducing to the ghost strip of the new document. -/
theorem paste_isolation :
    ∀ (f before after : List Tok) (m : CMap) (oldD newD : Doc)
      (ranges : List (Nat × Nat × Nat × Nat)),
      (stripCommentMarksFromFragment f).all Tok.noComment = true
        ∧ (((before ++ (stripCommentMarksFromFragment f ++ after)).drop
              before.length).take (stripCommentMarksFromFragment f).length).all
            Tok.noComment = true
        ∧ maintainCommentMarks m true oldD newD ranges
            = ghostStrip (validThreadIds m) newD := by
  intro f before after m oldD newD ranges
  have h1 : (stripCommentMarksFromFragment f).all Tok.noComment = true := by
    rw [List.all_eq_true]
    intro t ht
    rcases List.mem_map.mp ht with ⟨t0, _, rfl⟩
    cases t0 <;> simp [Tok.noComment]
  refine ⟨h1, ?_, rfl⟩
  rw [List.drop_left, List.take_left]
  exact h1

/-! Lemmas about the comment store grouping. -/

/-- Membership in a stable insertion. -/
theorem mem_insertByCreated {x c : Comment} :
    ∀ {l : List Comment}, x ∈ insertByCreated l c ↔ x ∈ l ∨ x = c := by
  intro l
  induction l with
  | nil => simp [insertByCreated]
  | cons y ys ih =>
      unfold insertByCreated
      by_cases h : y.createdAt ≤ c.createdAt
      · rw [if_pos h]
        simp only [List.mem_cons, ih]
        tauto
      · rw [if_neg h]
        simp only [List.mem_cons]
        tauto

/-- Membership in the stable sort. -/
theorem mem_sortByCreated {x : Comment} (l : List Comment) :
    x ∈ sortByCreated l ↔ x ∈ l := by
  have main : ∀ (l2 : List Comment) (acc : List Comment),
      x ∈ l2.foldl insertByCreated acc ↔ x ∈ acc ∨ x ∈ l2 := by
    intro l2
    induction l2 with
    | nil => intro acc; simp
    | cons c cs ih =>
        intro acc
        rw [List.foldl_cons, ih, mem_insertByCreated]
        simp only [List.mem_cons]
        tauto
  have h := main l []
  simp only [sortByCreated]
  rw [h]
  simp

/-- Membership in one thread's sorted comment list. -/
theorem mem_threadComments {x : Comment} (m : CMap) (tid : ThreadId) :
    x ∈ threadComments m tid ↔ x ∈ m ∧ x.threadId ≠ "" ∧ x.threadId = tid := by
  unfold threadComments
  rw [mem_sortByCreated, List.mem_filter]
  unfold validComments
  rw [List.mem_filter]
  constructor
  · rintro ⟨⟨h1, h2⟩, h3⟩
    exact ⟨h1, by simpa using h2, by simpa using h3⟩
  · rintro ⟨h1, h2, h3⟩
    exact ⟨⟨h1, by simpa using h2⟩, by simpa using h3⟩

/-- Members of threadsOf carry the grouped comment list of their id. -/
theorem mem_threadsOf {p : ThreadId × List Comment} (m : CMap)
    (h : p ∈ threadsOf m) : p.1 ∈ threadIdsOf m ∧ p.2 = threadComments m p.1 := by
  rcases List.mem_map.mp h with ⟨t2, ht2, rfl⟩
  exact ⟨ht2, rfl⟩

/-- A thread with a root comment is a key of the grouping. -/
theorem mem_threadIdsOf_of_root {m : CMap} {tid : ThreadId} {root : Comment}
    (h : rootOf (threadComments m tid) = some root) : tid ∈ threadIdsOf m := by
  have hmem := List.mem_of_find?_eq_some h
  rcases (mem_threadComments m tid).mp hmem with ⟨h1, h2, h3⟩
  exact (mem_threadIdsOf m).mpr ⟨root, h1, h2, h3⟩

/-- The grouped pair of a thread with a root comment is in the grouping. -/
theorem pair_mem_threadsOf_of_root {m : CMap} {tid : ThreadId} {root : Comment}
    (h : rootOf (threadComments m tid) = some root) :
    (tid, threadComments m tid) ∈ threadsOf m :=
  List.mem_map.mpr ⟨tid, mem_threadIdsOf_of_root h, rfl⟩

/-- Annotation presence for one thread, as any-token form of the live set. -/
theorem contains_tidsWithMarks (d : Doc) (tid : ThreadId) :
    (tidsWithMarks d).contains tid = d.any (fun t => Tok.hasTid t tid) := by
  by_cases h : d.any (fun t => Tok.hasTid t tid) = true
  · rw [h]
    rcases List.any_eq_true.mp h with ⟨t, ht, htt⟩
    exact List.elem_iff.mpr ((mem_tidsWithMarks d).mpr ⟨t, ht, htt⟩)
  · have h2 : d.any (fun t => Tok.hasTid t tid) = false := by
      cases hv : d.any (fun t => Tok.hasTid t tid)
      · rfl
      · exact absurd hv h
    rw [h2]
    cases hv : (tidsWithMarks d).contains tid
    · rfl
    · rcases (mem_tidsWithMarks d).mp (List.elem_iff.mp hv) with ⟨t, ht, htt⟩
      rw [List.any_eq_true.mpr ⟨t, ht, htt⟩] at h2
      exact absurd h2 (by simp)

/-- Adding a mark for one thread never creates annotations of another. -/
theorem any_hasTid_addMark (a b : Nat) (tid tid2 : ThreadId) (hne : tid2 ≠ tid) :
    ∀ (d : Doc) (i : Nat),
      (mapIdxTok
        (fun i t =>
          if a ≤ i ∧ i < b then
            match t with
            | Tok.chr c ms => Tok.chr c (addTid tid ms)
            | t2 => t2
          else t) d i).any (fun t => Tok.hasTid t tid2)
        = d.any (fun t => Tok.hasTid t tid2) := by
  intro d
  induction d with
  | nil => intro i; rfl
  | cons t ts ih =>
      intro i
      rw [mapIdxTok, List.any_cons, List.any_cons, ih (i + 1)]
      congr 1
      by_cases hr : a ≤ i ∧ i < b
      · rw [if_pos hr]
        cases t with
        | chr c ms =>
            simp only [Tok.hasTid]
            unfold addTid
            by_cases hmem : tid ∈ ms
            · rw [if_pos hmem]
            · rw [if_neg hmem]
              rw [List.contains_eq_any_beq, List.contains_eq_any_beq, List.any_append]
              have : [tid].any (fun x => tid2 == x) = false := by simp [hne]
              rw [this, Bool.or_false]
        | openB => rfl
        | closeB => rfl
        | img a2 alt => rfl
      · rw [if_neg hr]

/-- The live-set membership of one thread is invariant under adding a mark
of a different thread. -/
theorem contains_tidsWithMarks_addMark (d : Doc) (a b : Nat)
    (tid tid2 : ThreadId) (hne : tid2 ≠ tid) :
    (tidsWithMarks (addMark d a b tid)).contains tid2
      = (tidsWithMarks d).contains tid2 := by
  rw [contains_tidsWithMarks, contains_tidsWithMarks]
  exact any_hasTid_addMark a b tid tid2 hne d 0

/-- Claim C1: one orphan-detection pass marks every known thread with no live
annotation whose root is neither resolved nor already orphaned: all its root
records get orphaned true with orphanedAt now, no record is ever deleted (the
key sequence of the store is unchanged), records of threads with a resolved
root are untouched, and the automatic recovery pass never gives a resolved
thread a mark. -/
theorem orphan_detection_marks_roots :
    ∀ (now : Nat) (d : Doc) (m : CMap) (tid : ThreadId) (root : Comment),
      rootOf (threadComments m tid) = some root →
      (tidsWithMarks d).contains tid = false →
      root.resolved = false →
      root.orphaned = false →
      (∀ c ∈ (orphanPass now (tidsWithMarks d) (threadsOf m) m).1,
          c.threadId = tid → c.parentId = none →
          c.orphaned = true ∧ c.orphanedAt = some now)
        ∧ ((orphanPass now (tidsWithMarks d) (threadsOf m) m).1.map (fun c => c.id)
            = m.map (fun c => c.id))
        ∧ (∀ (tid2 : ThreadId) (root2 : Comment),
            rootOf (threadComments m tid2) = some root2 → root2.resolved = true →
            (∀ (i : Nat) (c : Comment), m.get? i = some c → c.threadId = tid2 →
                (orphanPass now (tidsWithMarks d) (threadsOf m) m).1.get? i = some c)
              ∧ ((tidsWithMarks (recoverMissingMarks d m)).contains tid2
                  = (tidsWithMarks d).contains tid2)) := by
  intro now d m tid root hroot hnomark hres horph
  set tids := tidsWithMarks d with htids
  set ths := threadsOf m with hths
  have hcond : (fun p : ThreadId × List Comment =>
      decide (¬ tids.contains p.1 = true
        ∧ ¬ ((rootOf p.2).elim false (fun r => r.resolved)) = true
        ∧ ¬ ((rootOf p.2).elim false (fun r => r.orphaned)) = true))
        (tid, threadComments m tid) = true := by
    rw [decide_eq_true_iff]
    refine ⟨by rw [hnomark]; simp, ?_, ?_⟩
    · rw [hroot]
      simp [Option.elim, hres]
    · rw [hroot]
      simp [Option.elim, horph]
  have hmemths : (tid, threadComments m tid) ∈ ths := pair_mem_threadsOf_of_root hroot
  unfold orphanPass
  set ids := ((ths.filter _).map (fun p => p.1)) with hids
  have htidmem : tid ∈ ids := by
    rw [hids]
    exact List.mem_map.mpr
      ⟨(tid, threadComments m tid), List.mem_filter.mpr ⟨hmemths, hcond⟩, rfl⟩
  have hnonempty : ¬ ids = [] := by
    intro hnil
    rw [hnil] at htidmem
    exact List.not_mem_nil tid htidmem
  rw [if_neg hnonempty]
  simp only
  refine ⟨?_, ?_, ?_⟩
  · intro c hc hctid hcpar
    rcases List.mem_map.mp hc with ⟨c0, hc0, rfl⟩
    by_cases hcase : ids.contains c0.threadId = true ∧ c0.parentId = none
    · rw [if_pos hcase]
      exact ⟨rfl, rfl⟩
    · rw [if_neg hcase]
      rw [if_neg hcase] at hctid hcpar
      exact absurd ⟨by rw [hctid]; exact List.elem_iff.mpr htidmem, hcpar⟩ hcase
  · rw [List.map_map]
    apply List.map_congr_left
    intro c _
    by_cases hcase : ids.contains c.threadId = true ∧ c.parentId = none
    · rw [Function.comp_apply, if_pos hcase]
    · rw [Function.comp_apply, if_neg hcase]
  · intro tid2 root2 hroot2 hres2
    have hnotin : tid2 ∉ ids := by
      intro hin
      rw [hids] at hin
      rcases List.mem_map.mp hin with ⟨p, hp, hp1⟩
      have hpths := (List.mem_filter.mp hp).1
      have hcond2 := (List.mem_filter.mp hp).2
      rcases mem_threadsOf m hpths with ⟨_, hp2⟩
      rw [decide_eq_true_iff] at hcond2
      have : p.2 = threadComments m tid2 := by rw [hp2, hp1]
      rw [this, hroot2] at hcond2
      exact hcond2.2.1 (by simp [Option.elim, hres2])
    constructor
    · intro i c hic hctid
      rw [List.get?_map, hic]
      rw [Option.map_some', if_neg]
      rintro ⟨hcont, _⟩
      rw [hctid] at hcont
      exact hnotin (List.elem_iff.mp hcont)
    · unfold recoverMissingMarks
      rw [← htids, ← hths]
      have main : ∀ (l : List (ThreadId × List Comment)),
          (∀ p ∈ l, p.1 = tid2 → p.2 = threadComments m tid2) →
          ∀ (acc : Doc),
            (tidsWithMarks acc).contains tid2 = tids.contains tid2 →
            (tidsWithMarks
              (l.foldl
                (fun acc p =>
                  if tids.contains p.1 then acc
                  else
                    match rootOf p.2 with
                    | none => acc
                    | some root3 =>
                        if root3.resolved then acc
                        else if isOnlyWhitespace root3.selectedText then acc
                        else
                          match findBestMatchPosition d root3.selectedText
                              root3.positionContext with
                          | none => acc
                          | some mt => addMark acc mt.fromPos mt.toPos p.1) acc)).contains
              tid2 = tids.contains tid2 := by
        intro l
        induction l with
        | nil => intro _ acc hacc; exact hacc
        | cons p ps ih =>
            intro hl acc hacc
            rw [List.foldl_cons]
            apply ih (fun q hq => hl q (List.mem_cons_of_mem _ hq))
            by_cases hskip : tids.contains p.1 = true
            · rw [if_pos hskip]
              exact hacc
            · rw [if_neg hskip]
              rcases hr3 : rootOf p.2 with _ | root3
              · exact hacc
              · simp only
                by_cases hres3 : root3.resolved = true
                · rw [if_pos hres3]
                  exact hacc
                · rw [if_neg hres3]
                  by_cases hws : isOnlyWhitespace root3.selectedText = true
                  · rw [if_pos hws]
                    exact hacc
                  · rw [if_neg hws]
                    rcases hmt : findBestMatchPosition d root3.selectedText
                        root3.positionContext with _ | mt
                    · exact hacc
                    · simp only
                      have hne : tid2 ≠ p.1 := by
                        intro hEq
                        have hp2 := hl p (List.mem_cons_self _ _) hEq.symm
                        rw [hp2, hroot2] at hr3
                        cases hr3
                        exact hres3 hres2
                      rw [contains_tidsWithMarks_addMark _ _ _ _ _ hne]
                      exact hacc
      apply main
      · intro p hp hp1
        rcases mem_threadsOf m hp with ⟨_, hp2⟩
        rw [hp2, hp1]
      · rfl

/-- Claim C1, witness: a store with one unresolved unmarked thread and one
resolved thread, against an empty document. -/
theorem orphan_detection_marks_roots_witness :
    (∀ c ∈ (orphanPass 42 (tidsWithMarks ([] : Doc)) (threadsOf sampleStore)
          sampleStore).1,
        c.threadId = "t" → c.parentId = none →
        c.orphaned = true ∧ c.orphanedAt = some 42)
      ∧ ((orphanPass 42 (tidsWithMarks ([] : Doc)) (threadsOf sampleStore)
            sampleStore).1.map (fun c => c.id)
          = sampleStore.map (fun c => c.id))
      ∧ (∀ (tid2 : ThreadId) (root2 : Comment),
          rootOf (threadComments sampleStore tid2) = some root2 →
          root2.resolved = true →
          (∀ (i : Nat) (c : Comment), sampleStore.get? i = some c →
              c.threadId = tid2 →
              (orphanPass 42 (tidsWithMarks ([] : Doc)) (threadsOf sampleStore)
                sampleStore).1.get? i = some c)
            ∧ ((tidsWithMarks (recoverMissingMarks ([] : Doc) sampleStore)).contains tid2
                = (tidsWithMarks ([] : Doc)).contains tid2)) :=
  orphan_detection_marks_roots 42 [] sampleStore "t" sampleRoot
    (by decide) (by decide) (by decide) (by decide)

/-! Lemmas relating text nodes (runs) to token positions. -/

/-- Every position below the run length holds a character with the run's
mark list. -/
theorem runLen_sound (ms : List ThreadId) :
    ∀ (l : List Tok) (k : Nat), k < runLen ms l →
      ∃ c, l.get? k = some (Tok.chr c ms) := by
  intro l
  induction l with
  | nil => intro k h; simp [runLen] at h
  | cons t ts ih =>
      intro k h
      cases t with
      | chr c ms2 =>
          rw [runLen] at h
          by_cases hEq : ms2 = ms
          · rw [if_pos hEq] at h
            cases k with
            | zero => exact ⟨c, by rw [hEq]; rfl⟩
            | succ k2 => exact ih k2 (by omega)
          · rw [if_neg hEq] at h
            omega
      | openB => simp [runLen] at h
      | closeB => simp [runLen] at h
      | img a alt => simp [runLen] at h

/-- The position right after the run is not a character with the run's mark
list. -/
theorem runLen_boundary (ms : List ThreadId) :
    ∀ (l : List Tok) (c : Char), l.get? (runLen ms l) ≠ some (Tok.chr c ms) := by
  intro l
  induction l with
  | nil => intro c; simp
  | cons t ts ih =>
      intro c
      cases t with
      | chr c2 ms2 =>
          rw [runLen]
          by_cases hEq : ms2 = ms
          · rw [if_pos hEq]
            exact ih c
          · rw [if_neg hEq]
            intro h
            rw [List.get?_cons_zero] at h
            cases h
            exact hEq rfl
      | openB =>
          rw [show runLen ms (Tok.openB :: ts) = 0 from rfl]
          intro h
          rw [List.get?_cons_zero] at h
          cases h
      | closeB =>
          rw [show runLen ms (Tok.closeB :: ts) = 0 from rfl]
          intro h
          rw [List.get?_cons_zero] at h
          cases h
      | img a alt =>
          rw [show runLen ms (Tok.img a alt :: ts) = 0 from rfl]
          intro h
          rw [List.get?_cons_zero] at h
          cases h

/-- A stretch of characters with the run's mark list bounds the run length
from below. -/
theorem runLen_ge (ms : List ThreadId) :
    ∀ (n : Nat) (l : List Tok),
      (∀ k, k < n → ∃ c, l.get? k = some (Tok.chr c ms)) → n ≤ runLen ms l := by
  intro n
  induction n with
  | zero => intro l _; omega
  | succ n2 ih =>
      intro l h
      rcases h 0 (by omega) with ⟨c, hc⟩
      cases l with
      | nil => simp at hc
      | cons t ts =>
          rw [List.get?_cons_zero] at hc
          cases hc
          rw [runLen, if_pos rfl]
          have h2 := ih ts (fun k hk => by
            rcases h (k + 1) (by omega) with ⟨c2, hc2⟩
            exact ⟨c2, by simpa using hc2⟩)
          omega

/-- On a list of tokens that are all characters, filterMap of the character
payloads acts elementwise. -/
theorem filterMap_chr_elementwise :
    ∀ (w : List Tok), (∀ t ∈ w, (chrChar? t).isSome) →
      (w.filterMap chrChar?).length = w.length
        ∧ ∀ j, (w.filterMap chrChar?).get? j = (w.get? j).bind chrChar? := by
  intro w
  induction w with
  | nil => intro _; exact ⟨rfl, fun j => by simp⟩
  | cons t ts ih =>
      intro h
      have ht := h t (List.mem_cons_self _ _)
      rcases hc : chrChar? t with _ | c
      · rw [hc] at ht; simp at ht
      · have htail := ih (fun t2 ht2 => h t2 (List.mem_cons_of_mem _ ht2))
        rw [List.filterMap_cons_some hc]
        refine ⟨by simpa using htail.1, fun j => ?_⟩
        cases j with
        | zero => simp [hc]
        | succ j2 => simpa using htail.2 j2

/-- An image node is in the node list exactly when its token is at its
position. -/
theorem items_image_mem (d : Doc) (p : Nat) (a : Option ThreadId) (alt : List Char) :
    Item.image p a alt ∈ items d ↔ d.get? p = some (Tok.img a alt) := by
  unfold items
  rw [List.mem_filterMap]
  constructor
  · rintro ⟨i, hi, hf⟩
    rcases hg : d.get? i with _ | t
    · rw [hg] at hf; cases hf
    · rw [hg] at hf
      cases t with
      | img a2 alt2 =>
          have hf2 : some (Item.image i a2 alt2) = some (Item.image p a alt) := hf
          simp only [Option.some.injEq, Item.image.injEq] at hf2
          rcases hf2 with ⟨rfl, rfl, rfl⟩
          exact hg
      | chr c ms =>
          have hf2 : (if isRunStart d i ms = true
              then some (Item.text ⟨i, runTextAt d i ms, ms⟩) else none)
              = some (Item.image p a alt) := hf
          by_cases hrs : isRunStart d i ms = true
          · rw [if_pos hrs] at hf2
            cases hf2
          · rw [if_neg hrs] at hf2
            cases hf2
      | openB => exact absurd (show (none : Option Item) = _ from hf) (by simp)
      | closeB => exact absurd (show (none : Option Item) = _ from hf) (by simp)
  · intro hg
    refine ⟨p, List.mem_range.mpr ?_, by rw [hg]⟩
    have := List.get?_eq_some.mp hg
    exact this.1

/-- A text node is in the node list exactly when its start holds a character
with its marks, the start begins a run, and its text is the run text. -/
theorem items_text_mem (d : Doc) (r : TextRun) :
    Item.text r ∈ items d
      ↔ (∃ c, d.get? r.start = some (Tok.chr c r.marks))
          ∧ isRunStart d r.start r.marks = true
          ∧ r.text = runTextAt d r.start r.marks := by
  unfold items
  rw [List.mem_filterMap]
  constructor
  · rintro ⟨i, hi, hf⟩
    rcases hg : d.get? i with _ | t
    · rw [hg] at hf; cases hf
    · rw [hg] at hf
      cases t with
      | img a2 alt2 =>
          have hf2 : some (Item.image i a2 alt2) = some (Item.text r) := hf
          cases hf2
      | chr c ms =>
          have hf2 : (if isRunStart d i ms = true
              then some (Item.text ⟨i, runTextAt d i ms, ms⟩) else none)
              = some (Item.text r) := hf
          by_cases hrs : isRunStart d i ms = true
          · rw [if_pos hrs] at hf2
            simp only [Option.some.injEq, Item.text.injEq] at hf2
            rw [← hf2]
            exact ⟨⟨c, hg⟩, hrs, rfl⟩
          · rw [if_neg hrs] at hf2
            cases hf2
      | openB => exact absurd (show (none : Option Item) = _ from hf) (by simp)
      | closeB => exact absurd (show (none : Option Item) = _ from hf) (by simp)
  · rintro ⟨⟨c, hg⟩, hrs, htext⟩
    refine ⟨r.start, List.mem_range.mpr (List.get?_eq_some.mp hg).1, ?_⟩
    rw [hg]
    show (if isRunStart d r.start r.marks = true
        then some (Item.text ⟨r.start, runTextAt d r.start r.marks, r.marks⟩)
        else none) = some (Item.text r)
    rw [if_pos hrs, ← htext]

/-- Window of a text node: its length is one plus the following run length,
every offset holds the matching character token, and the token right after
it is not a character with the same marks. -/
theorem run_window (d : Doc) (r : TextRun) (hmem : Item.text r ∈ items d) :
    0 < r.text.length
      ∧ (∀ j, j < r.text.length →
          ∃ c, r.text.get? j = some c
            ∧ d.get? (r.start + j) = some (Tok.chr c r.marks))
      ∧ (∀ c ms2, d.get? (r.start + r.text.length) = some (Tok.chr c ms2)
          → ms2 ≠ r.marks) := by
  rcases (items_text_mem d r).mp hmem with ⟨⟨c0, hg0⟩, _, htext⟩
  set n := runLen r.marks (d.drop (r.start + 1)) with hn
  have hwinlemma : ∀ k, k < 1 + n → ∃ c, d.get? (r.start + k) = some (Tok.chr c r.marks) := by
    intro k hk
    cases k with
    | zero => exact ⟨c0, by simpa using hg0⟩
    | succ k2 =>
        rcases runLen_sound r.marks (d.drop (r.start + 1)) k2 (by omega) with ⟨c2, hc2⟩
        rw [List.get?_drop] at hc2
        exact ⟨c2, by rw [show r.start + (k2 + 1) = r.start + 1 + k2 by omega]; exact hc2⟩
  have hlen_d : r.start + 1 + n ≤ d.length := by
    cases hzero : n with
    | zero =>
        have := (List.get?_eq_some.mp hg0).1
        omega
    | succ n2 =>
        rcases hwinlemma (n2 + 1) (by omega) with ⟨c2, hc2⟩
        have := (List.get?_eq_some.mp hc2).1
        omega
  set w := (d.drop r.start).take (1 + n) with hw
  have hwlen : w.length = 1 + n := by
    rw [hw, List.length_take, List.length_drop]
    have := (List.get?_eq_some.mp hg0).1
    omega
  have hwget : ∀ k, k < 1 + n → w.get? k = d.get? (r.start + k) := by
    intro k hk
    rw [hw, List.get?_take (by omega : k < 1 + n), List.get?_drop]
  have hallchr : ∀ t ∈ w, (chrChar? t).isSome := by
    intro t ht
    rcases List.get?_of_mem ht with ⟨k, hk⟩
    have hklt : k < 1 + n := by
      have := (List.get?_eq_some.mp hk).1
      omega
    rcases hwinlemma k hklt with ⟨c2, hc2⟩
    rw [hwget k hklt, hc2] at hk
    cases hk
    simp [chrChar?]
  have helem := filterMap_chr_elementwise w hallchr
  have htext2 : r.text = w.filterMap chrChar? := by
    rw [htext]
    unfold runTextAt
    rw [← hn, ← hw]
  have hlen : r.text.length = 1 + n := by
    rw [htext2, helem.1, hwlen]
  refine ⟨by omega, ?_, ?_⟩
  · intro j hj
    have hj2 : j < 1 + n := by omega
    rcases hwinlemma j hj2 with ⟨c2, hc2⟩
    refine ⟨c2, ?_, hc2⟩
    rw [htext2, helem.2 j, hwget j hj2, hc2]
    rfl
  · intro c ms2 hc hEq
    subst hEq
    rw [hlen] at hc
    rw [show r.start + (1 + n) = r.start + 1 + n by omega] at hc
    have hdrop : (d.drop (r.start + 1)).get? n = some (Tok.chr c r.marks) := by
      rw [List.get?_drop]
      exact hc
    exact runLen_boundary r.marks (d.drop (r.start + 1)) c (hn ▸ hdrop)

/-- Unfolding equation of runStartIdx at a successor position. -/
theorem runStartIdx_succ (d : Doc) (i : Nat) :
    runStartIdx d (i + 1)
      = match d.get? (i + 1), d.get? i with
        | some (Tok.chr _ ms), some (Tok.chr _ ms2) =>
            if ms2 = ms then runStartIdx d i else i + 1
        | _, _ => i + 1 := rfl

/-- The canonical run start of a character position is at or before it,
every position between them holds a character with the same marks, and it
starts a run. -/
theorem runStartIdx_spec (d : Doc) :
    ∀ (i : Nat) (c : Char) (ms : List ThreadId),
      d.get? i = some (Tok.chr c ms) →
      runStartIdx d i ≤ i
        ∧ (∀ k, runStartIdx d i ≤ k → k ≤ i →
            ∃ c2, d.get? k = some (Tok.chr c2 ms))
        ∧ isRunStart d (runStartIdx d i) ms = true := by
  intro i
  induction i with
  | zero =>
      intro c ms hg
      refine ⟨le_refl _, fun k h1 h2 => ?_, by simp [runStartIdx, isRunStart]⟩
      have : k = 0 := by omega
      subst this
      exact ⟨c, hg⟩
  | succ i2 ih =>
      intro c ms hg
      rcases hprev : d.get? i2 with _ | t
      · have hrs : runStartIdx d (i2 + 1) = i2 + 1 := by
          rw [runStartIdx_succ, hg, hprev]
        refine ⟨by omega, fun k h1 h2 => ?_, ?_⟩
        · have : k = i2 + 1 := by omega
          subst this
          exact ⟨c, hg⟩
        · rw [hrs]
          unfold isRunStart
          rw [if_neg (by omega : ¬ i2 + 1 = 0)]
          simp only [Nat.add_sub_cancel]
          rw [hprev]
      · cases t with
        | chr c2 ms2 =>
            by_cases hEq : ms2 = ms
            · subst hEq
              have hrs : runStartIdx d (i2 + 1) = runStartIdx d i2 := by
                rw [runStartIdx_succ, hg, hprev]
                show (if ms2 = ms2 then runStartIdx d i2 else i2 + 1) = runStartIdx d i2
                rw [if_pos rfl]
              rcases ih c2 ms2 hprev with ⟨ih1, ih2, ih3⟩
              refine ⟨by omega, fun k h1 h2 => ?_, by rw [hrs]; exact ih3⟩
              rw [hrs] at h1
              by_cases hk : k ≤ i2
              · exact ih2 k h1 hk
              · have : k = i2 + 1 := by omega
                subst this
                exact ⟨c, hg⟩
            · have hrs : runStartIdx d (i2 + 1) = i2 + 1 := by
                rw [runStartIdx_succ, hg, hprev]
                show (if ms2 = ms then runStartIdx d i2 else i2 + 1) = i2 + 1
                rw [if_neg hEq]
              refine ⟨by omega, fun k h1 h2 => ?_, ?_⟩
              · have : k = i2 + 1 := by omega
                subst this
                exact ⟨c, hg⟩
              · rw [hrs]
                unfold isRunStart
                rw [if_neg (by omega : ¬ i2 + 1 = 0)]
                simp only [Nat.add_sub_cancel]
                rw [hprev]
                simp [hEq]
        | openB =>
            have hrs : runStartIdx d (i2 + 1) = i2 + 1 := by
              rw [runStartIdx_succ, hg, hprev]
            refine ⟨by omega, fun k h1 h2 => ?_, ?_⟩
            · have : k = i2 + 1 := by omega
              subst this
              exact ⟨c, hg⟩
            · rw [hrs]
              unfold isRunStart
              rw [if_neg (by omega : ¬ i2 + 1 = 0)]
              simp only [Nat.add_sub_cancel]
              rw [hprev]
        | closeB =>
            have hrs : runStartIdx d (i2 + 1) = i2 + 1 := by
              rw [runStartIdx_succ, hg, hprev]
            refine ⟨by omega, fun k h1 h2 => ?_, ?_⟩
            · have : k = i2 + 1 := by omega
              subst this
              exact ⟨c, hg⟩
            · rw [hrs]
              unfold isRunStart
              rw [if_neg (by omega : ¬ i2 + 1 = 0)]
              simp only [Nat.add_sub_cancel]
              rw [hprev]
        | img a alt =>
            have hrs : runStartIdx d (i2 + 1) = i2 + 1 := by
              rw [runStartIdx_succ, hg, hprev]
            refine ⟨by omega, fun k h1 h2 => ?_, ?_⟩
            · have : k = i2 + 1 := by omega
              subst this
              exact ⟨c, hg⟩
            · rw [hrs]
              unfold isRunStart
              rw [if_neg (by omega : ¬ i2 + 1 = 0)]
              simp only [Nat.add_sub_cancel]
              rw [hprev]

/-- Every character position lies inside a text node of the node list with
the same mark list. -/
theorem pos_in_run (d : Doc) (i : Nat) (c : Char) (ms : List ThreadId)
    (h : d.get? i = some (Tok.chr c ms)) :
    ∃ r : TextRun, Item.text r ∈ items d ∧ r.marks = ms
      ∧ r.start ≤ i ∧ i < r.start + r.text.length := by
  rcases runStartIdx_spec d i c ms h with ⟨h1, h2, h3⟩
  rcases h2 (runStartIdx d i) (le_refl _) h1 with ⟨c0, hc0⟩
  set rs := runStartIdx d i with hrs
  refine ⟨⟨rs, runTextAt d rs ms, ms⟩, ?_, rfl, h1, ?_⟩
  · exact (items_text_mem d _).mpr ⟨⟨c0, hc0⟩, h3, rfl⟩
  · have hmem := (items_text_mem d ⟨rs, runTextAt d rs ms, ms⟩).mpr ⟨⟨c0, hc0⟩, h3, rfl⟩
    have hwin := run_window d _ hmem
    have hpos : 0 < (runTextAt d rs ms).length := hwin.1
    have hchars : ∀ j, j < (runTextAt d rs ms).length →
        ∃ c2, (runTextAt d rs ms).get? j = some c2
          ∧ d.get? (rs + j) = some (Tok.chr c2 ms) := hwin.2.1
    have hbound : ∀ c2 ms2, d.get? (rs + (runTextAt d rs ms).length)
        = some (Tok.chr c2 ms2) → ms2 ≠ ms := hwin.2.2
    have hlen : (runTextAt d rs ms).length = 1 + runLen ms (d.drop (rs + 1)) := by
      by_contra hne
      rcases Nat.lt_or_ge (runTextAt d rs ms).length (1 + runLen ms (d.drop (rs + 1)))
          with hlt | hge
      ·
        rcases runLen_sound ms (d.drop (rs + 1)) ((runTextAt d rs ms).length - 1)
            (by omega) with ⟨c3, hc3⟩
        rw [List.get?_drop] at hc3
        exact hbound c3 ms (by
          show d.get? (rs + (runTextAt d rs ms).length) = _
          rw [show rs + (runTextAt d rs ms).length
              = rs + 1 + ((runTextAt d rs ms).length - 1) by omega]
          exact hc3) rfl
      · rcases Nat.lt_or_ge (1 + runLen ms (d.drop (rs + 1))) ((runTextAt d rs ms).length)
            with hlt2 | hge2
        · rcases hchars (1 + runLen ms (d.drop (rs + 1))) hlt2 with ⟨c3, _, hc3⟩
          have hc4 : (d.drop (rs + 1)).get? (runLen ms (d.drop (rs + 1)))
              = some (Tok.chr c3 ms) := by
            rw [List.get?_drop]
            rw [show rs + 1 + runLen ms (d.drop (rs + 1))
                = rs + (1 + runLen ms (d.drop (rs + 1))) by omega]
            exact hc3
          exact runLen_boundary ms (d.drop (rs + 1)) c3 hc4
        · omega
    show i < rs + (runTextAt d rs ms).length
    rw [hlen]
    have hcount : i - rs ≤ runLen ms (d.drop (rs + 1)) := by
      apply runLen_ge
      intro k hk
      rcases h2 (rs + 1 + k) (by omega) (by omega) with ⟨c4, hc4⟩
      exact ⟨c4, by rw [List.get?_drop]; exact hc4⟩
    omega

/-- Nodes of the node list do not overlap: each ends at or before the next
begins, in document order. -/
theorem items_spaced (d : Doc) :
    List.Pairwise (fun x y => itemEnd x ≤ itemStart y) (items d) := by
  unfold items
  rw [List.pairwise_filterMap]
  have hstart : ∀ (j : Nat) (y : Item),
      (match d.get? j with
        | some (Tok.img a alt) => some (Item.image j a alt)
        | some (Tok.chr _ ms) =>
            if isRunStart d j ms then some (Item.text ⟨j, runTextAt d j ms, ms⟩)
            else none
        | _ => none) = some y → itemStart y = j := by
    intro j y hy
    rcases hg : d.get? j with _ | t
    · rw [hg] at hy; cases hy
    · rw [hg] at hy
      cases t with
      | img a alt =>
          have hy2 : some (Item.image j a alt) = some y := hy
          cases hy2
          rfl
      | chr c ms =>
          have hy2 : (if isRunStart d j ms = true
              then some (Item.text ⟨j, runTextAt d j ms, ms⟩) else none) = some y := hy
          by_cases hrs : isRunStart d j ms = true
          · rw [if_pos hrs] at hy2
            cases hy2
            rfl
          · rw [if_neg hrs] at hy2
            cases hy2
      | openB => cases (show (none : Option Item) = some y from hy)
      | closeB => cases (show (none : Option Item) = some y from hy)
  apply List.Pairwise.imp ?_ (List.pairwise_lt_range d.length)
  intro i j hij x hx y hy
  rw [Option.mem_def] at hx hy
  have hjstart := hstart j y hy
  rcases hg : d.get? i with _ | t
  · rw [hg] at hx; cases hx
  · rw [hg] at hx
    cases t with
    | img a alt =>
        have hx2 : some (Item.image i a alt) = some x := hx
        cases hx2
        show i + 1 ≤ itemStart y
        omega
    | chr c ms =>
        have hx2 : (if isRunStart d i ms = true
            then some (Item.text ⟨i, runTextAt d i ms, ms⟩) else none) = some x := hx
        by_cases hrs : isRunStart d i ms = true
        · rw [if_pos hrs] at hx2
          cases hx2
          show i + (runTextAt d i ms).length ≤ itemStart y
          rw [hjstart]
          by_contra hlt
          have hjlt : j < i + (runTextAt d i ms).length := by omega
          have hmem : Item.text ⟨i, runTextAt d i ms, ms⟩ ∈ items d :=
            (items_text_mem d _).mpr ⟨⟨c, hg⟩, hrs, rfl⟩
          have hwin := run_window d _ hmem
          have hchars : ∀ k, k < (runTextAt d i ms).length →
              ∃ c2, (runTextAt d i ms).get? k = some c2
                ∧ d.get? (i + k) = some (Tok.chr c2 ms) := hwin.2.1
          rcases hchars (j - i) (by omega) with ⟨cj, _, hcj⟩
          rw [show i + (j - i) = j by omega] at hcj
          rcases hchars (j - i - 1) (by omega) with ⟨cp, _, hcp⟩
          rw [show i + (j - i - 1) = j - 1 by omega] at hcp
          have hrsj : isRunStart d j ms = false := by
            unfold isRunStart
            rw [if_neg (by omega : ¬ j = 0), hcp]
            simp
          rw [hcj] at hy
          have hy2 : (if isRunStart d j ms = true
              then some (Item.text ⟨j, runTextAt d j ms, ms⟩) else none) = some y := hy
          rw [hrsj] at hy2
          exact absurd (show (none : Option Item) = some y from hy2) (by simp)
        · rw [if_neg hrs] at hx2
          cases hx2
    | openB => cases (show (none : Option Item) = some x from hx)
    | closeB => cases (show (none : Option Item) = some x from hx)

/-- A collected in-node offset is an in-bounds substring occurrence. -/
theorem occOffsets_sound (t s : List Char) (i : Nat) (h : i ∈ occOffsets t s) :
    i + s.length ≤ t.length ∧ ∀ j, j < s.length → t.get? (i + j) = s.get? j := by
  rcases List.mem_filter.mp h with ⟨hr, hb⟩
  have hrange := List.mem_range.mp hr
  have hbound : i + s.length ≤ t.length := by omega
  refine ⟨hbound, fun j hj => ?_⟩
  have hslice : jsSlice t i (i + s.length) = s := eq_of_beq hb
  rw [← hslice]
  unfold jsSlice
  rw [List.get?_drop, List.get?_take (by omega : i + j < i + s.length)]

/-- An in-bounds substring occurrence is a collected in-node offset. -/
theorem occOffsets_complete (t s : List Char) (i : Nat)
    (h1 : i + s.length ≤ t.length)
    (h2 : ∀ j, j < s.length → t.get? (i + j) = s.get? j) :
    i ∈ occOffsets t s := by
  apply List.mem_filter.mpr
  refine ⟨List.mem_range.mpr (by omega), ?_⟩
  apply beq_iff_eq.mpr
  apply List.ext_get?
  intro n
  unfold jsSlice
  rw [List.get?_drop]
  by_cases hn : n < s.length
  · rw [List.get?_take (by omega : i + n < i + s.length)]
    exact h2 n hn
  · have h4 : (t.take (i + s.length)).get? (i + n) = none :=
      List.get?_eq_none.mpr (by rw [List.length_take]; omega)
    have h5 : s.get? n = none := List.get?_eq_none.mpr (by omega)
    rw [h4, h5]

/-- Unfolded membership in the match fold over a node list. -/
theorem mem_matchesFold (s : List Char) :
    ∀ (its : List Item) (sp : Span),
      sp ∈ (its.foldr (fun it acc =>
          match it with
          | Item.text r => ((occOffsets r.text s).map
              (fun i => Span.mk (r.start + i) (r.start + i + s.length))) ++ acc
          | _ => acc) [])
        ↔ ∃ r : TextRun, Item.text r ∈ its
            ∧ ∃ i ∈ occOffsets r.text s,
                sp = Span.mk (r.start + i) (r.start + i + s.length) := by
  intro its
  induction its with
  | nil => intro sp; simp
  | cons it rest ih =>
      intro sp
      cases it with
      | text r =>
          rw [List.foldr_cons]
          show sp ∈ _ ++ _ ↔ _
          rw [List.mem_append, ih sp]
          constructor
          · rintro (h | ⟨r2, hr2, hi⟩)
            · rcases List.mem_map.mp h with ⟨i, hi, rfl⟩
              exact ⟨r, List.mem_cons_self _ _, i, hi, rfl⟩
            · exact ⟨r2, List.mem_cons_of_mem _ hr2, hi⟩
          · rintro ⟨r2, hr2, i, hi, rfl⟩
            rcases List.mem_cons.mp hr2 with hEq | hr3
            · cases hEq
              exact Or.inl (List.mem_map.mpr ⟨i, hi, rfl⟩)
            · exact Or.inr ⟨r2, hr3, i, hi, rfl⟩
      | image p a alt =>
          rw [List.foldr_cons]
          show sp ∈ _ ↔ _
          rw [ih sp]
          constructor
          · rintro ⟨r2, hr2, hi⟩
            exact ⟨r2, List.mem_cons_of_mem _ hr2, hi⟩
          · rintro ⟨r2, hr2, i, hi, rfl⟩
            rcases List.mem_cons.mp hr2 with hEq | hr3
            · cases hEq
            · exact ⟨r2, hr3, i, hi, rfl⟩

/-- Bridge between the collected matches and token-level occurrences: a span
is collected by findBestMatchPosition exactly when the target occurs at its
start inside one text node and it ends after the target's length. -/
theorem mem_matchesOf (d : Doc) (s : List Char) (hs : s ≠ []) (sp : Span) :
    sp ∈ matchesOf d s
      ↔ occursTokAt d sp.fromPos s ∧ sp.toPos = sp.fromPos + s.length := by
  unfold matchesOf
  rw [mem_matchesFold]
  constructor
  · rintro ⟨r, hr, i, hi, rfl⟩
    rcases occOffsets_sound r.text s i hi with ⟨hbound, hchars⟩
    have hwin := run_window d r hr
    have hwchars : ∀ j, j < r.text.length →
        ∃ c, r.text.get? j = some c ∧ d.get? (r.start + j) = some (Tok.chr c r.marks) :=
      hwin.2.1
    refine ⟨⟨hs, r.marks, fun j hj => ?_⟩, rfl⟩
    rcases hwchars (i + j) (by omega) with ⟨c2, hc2a, hc2b⟩
    have hs2 : s.get? j = some c2 := by
      rw [← hchars j hj, hc2a]
    have hg : s.get ⟨j, hj⟩ = c2 := by
      have := List.get?_eq_get hj
      rw [this] at hs2
      exact Option.some.inj hs2
    rw [hg]
    show d.get? (r.start + i + j) = some (Tok.chr c2 r.marks)
    rw [show r.start + i + j = r.start + (i + j) by omega]
    exact hc2b
  · rintro ⟨⟨_, ms, hocc⟩, hto⟩
    have h0 : d.get? sp.fromPos = some (Tok.chr (s.get ⟨0, by
        cases s
        · exact absurd rfl hs
        · simp⟩) ms) := by
      have := hocc 0 (by
        cases s
        · exact absurd rfl hs
        · simp)
      simpa using this
    rcases pos_in_run d sp.fromPos _ ms h0 with ⟨r, hr, hmarks, hle, hlt⟩
    have hwin := run_window d r hr
    have hwchars : ∀ j, j < r.text.length →
        ∃ c, r.text.get? j = some c ∧ d.get? (r.start + j) = some (Tok.chr c r.marks) :=
      hwin.2.1
    have hbound2 : ∀ c2 ms2, d.get? (r.start + r.text.length) = some (Tok.chr c2 ms2)
        → ms2 ≠ r.marks := hwin.2.2
    have hcover : sp.fromPos + s.length ≤ r.start + r.text.length := by
      by_contra hno
      have hin : r.start + r.text.length - sp.fromPos < s.length := by omega
      have := hocc (r.start + r.text.length - sp.fromPos) hin
      rw [show sp.fromPos + (r.start + r.text.length - sp.fromPos)
          = r.start + r.text.length by omega] at this
      have hmsr : ms = r.marks := by
        rcases hwchars (sp.fromPos - r.start) (by omega) with ⟨c2, _, hc2⟩
        rw [show r.start + (sp.fromPos - r.start) = sp.fromPos by omega] at hc2
        rw [h0] at hc2
        cases hc2
        rfl
      exact absurd hmsr (hbound2 _ ms this)
    refine ⟨r, hr, sp.fromPos - r.start, ?_, ?_⟩
    · apply occOffsets_complete
      · omega
      · intro j hj
        rcases hwchars (sp.fromPos - r.start + j) (by omega) with ⟨c2, hc2a, hc2b⟩
        rw [show r.start + (sp.fromPos - r.start + j) = sp.fromPos + j by omega] at hc2b
        have := hocc j hj
        rw [this] at hc2b
        have hc3 : s.get ⟨j, hj⟩ = c2 := by
          have h4 : ms = r.marks := by
            rcases hwchars (sp.fromPos - r.start) (by omega) with ⟨c5, _, hc5⟩
            rw [show r.start + (sp.fromPos - r.start) = sp.fromPos by omega] at hc5
            rw [h0] at hc5
            cases hc5
            rfl
          rw [h4] at hc2b
          cases hc2b
          rfl
        rw [hc2a, List.get?_eq_get hj, hc3]
    · have : sp.fromPos = r.start + (sp.fromPos - r.start) := by omega
      cases sp with
      | mk f t2 =>
          simp only at hto this ⊢
          rw [hto]
          congr 1 <;> omega

/-- Every collected match lies inside a text node of the node list. -/
theorem matchesFold_mem_bound (s : List Char) (hs : s ≠ []) :
    ∀ (its : List Item) (sp : Span),
      sp ∈ (its.foldr (fun it acc =>
          match it with
          | Item.text r => ((occOffsets r.text s).map
              (fun i => Span.mk (r.start + i) (r.start + i + s.length))) ++ acc
          | _ => acc) []) →
      ∃ it ∈ its, itemStart it ≤ sp.fromPos ∧ sp.fromPos < itemEnd it := by
  intro its sp h
  rcases (mem_matchesFold s its sp).mp h with ⟨r, hr, i, hi, rfl⟩
  rcases occOffsets_sound r.text s i hi with ⟨hbound, _⟩
  have hslen : 0 < s.length := by
    cases s
    · exact absurd rfl hs
    · simp
  refine ⟨Item.text r, hr, ?_, ?_⟩
  · show r.start ≤ r.start + i
    omega
  · show r.start + i < r.start + r.text.length
    omega

/-- The collected matches are strictly ascending in their start position. -/
theorem matchesOf_pairwise (d : Doc) (s : List Char) (hs : s ≠ []) :
    List.Pairwise (fun x y => x.fromPos < y.fromPos) (matchesOf d s) := by
  unfold matchesOf
  have hslen : 0 < s.length := by
    cases s
    · exact absurd rfl hs
    · simp
  have main : ∀ (its : List Item),
      List.Pairwise (fun x y => itemEnd x ≤ itemStart y) its →
      List.Pairwise (fun x y => x.fromPos < y.fromPos)
        (its.foldr (fun it acc =>
          match it with
          | Item.text r => ((occOffsets r.text s).map
              (fun i => Span.mk (r.start + i) (r.start + i + s.length))) ++ acc
          | _ => acc) []) := by
    intro its
    induction its with
    | nil => intro _; simp
    | cons it rest ih =>
        intro hp
        rcases List.pairwise_cons.mp hp with ⟨hhead, htail⟩
        cases it with
        | image p a alt => exact ih htail
        | text r =>
            rw [List.foldr_cons]
            show List.Pairwise _ (_ ++ _)
            rw [List.pairwise_append]
            refine ⟨?_, ih htail, ?_⟩
            · have hocc : List.Pairwise (· < ·) (occOffsets r.text s) :=
                List.Pairwise.filter _ (List.pairwise_lt_range _)
              exact hocc.map _ (fun a b hab => by
                show r.start + a < r.start + b
                omega)
            · intro x hx y hy
              rcases List.mem_map.mp hx with ⟨i, hi, rfl⟩
              rcases occOffsets_sound r.text s i hi with ⟨hbound, _⟩
              rcases matchesFold_mem_bound s hs rest y hy with ⟨it2, hit2, hst, _⟩
              have hsp : itemEnd (Item.text r) ≤ itemStart it2 := hhead it2 hit2
              show r.start + i < y.fromPos
              have : itemEnd (Item.text r) = r.start + r.text.length := rfl
              omega
  exact main (items d) (items_spaced d)

/-- A list of spans with strictly ascending starts whose members all equal
one member is that singleton. -/
theorem span_list_eq_singleton (l : List Span) (x : Span)
    (hmem : x ∈ l) (hall : ∀ y ∈ l, y = x)
    (hp : List.Pairwise (fun a b => a.fromPos < b.fromPos) l) : l = [x] := by
  cases l with
  | nil => exact absurd hmem (List.not_mem_nil x)
  | cons a rest =>
      have ha : a = x := hall a (List.mem_cons_self _ _)
      subst ha
      cases rest with
      | nil => rfl
      | cons b rest2 =>
          have hb : b = a := hall b (List.mem_cons_of_mem _ (List.mem_cons_self _ _))
          subst hb
          rcases List.pairwise_cons.mp hp with ⟨hhead, _⟩
          have := hhead b (List.mem_cons_self _ _)
          omega

/-- Claim C4, counterexample: the enumeration is not non-overlapping; the
indexOf loop resumes one character after the previous hit, so in "aaa" the
target "aa" is collected at two overlapping positions, while the
specification's non-overlapping scan collects only the first. -/
theorem matches_overlap_cex :
    matchesOf [Tok.openB, Tok.chr 'a' [], Tok.chr 'a' [], Tok.chr 'a' [], Tok.closeB]
        ['a', 'a'] = [⟨1, 3⟩, ⟨2, 4⟩]
      ∧ nonOverlapMatchesSpec
          [Tok.openB, Tok.chr 'a' [], Tok.chr 'a' [], Tok.chr 'a' [], Tok.closeB]
          ['a', 'a'] = [⟨1, 3⟩]
      ∧ (2 : Nat) < 3 := by
  refine ⟨by decide, by decide, by decide⟩

/-- Claim C4 (amended): findBestMatchPosition enumerates every occurrence of
the target as a contiguous run of characters inside one text node, collected
leftmost-first per node in a single document-order scan with overlapping
occurrences included (the scan resumes one character after each hit, not
past it), and it returns null exactly when there are zero occurrences. -/
theorem matches_enumeration :
    ∀ (d : Doc) (s : List Char) (ctx : Option Ctx), s ≠ [] →
      (∀ sp : Span, sp ∈ matchesOf d s
          ↔ occursTokAt d sp.fromPos s ∧ sp.toPos = sp.fromPos + s.length)
        ∧ List.Pairwise (fun x y => x.fromPos < y.fromPos) (matchesOf d s)
        ∧ (findBestMatchPosition d s ctx = none ↔ matchesOf d s = []) := by
  intro d s ctx hs
  refine ⟨fun sp => mem_matchesOf d s hs sp, matchesOf_pairwise d s hs, ?_⟩
  unfold findBestMatchPosition
  rw [if_neg hs]
  rcases hm : matchesOf d s with _ | ⟨m, ms⟩
  · simp
  · cases ms with
    | nil => simp
    | cons m2 rest =>
        cases ctx with
        | none => simp
        | some c => simp

/-- Claim C4, witness: the null-iff-no-occurrence equivalence at a concrete
document with no occurrence of the target. -/
theorem matches_enumeration_witness :
    findBestMatchPosition [Tok.openB, Tok.chr 'a' [], Tok.closeB] ['z'] none = none
      ↔ matchesOf [Tok.openB, Tok.chr 'a' [], Tok.closeB] ['z'] = [] :=
  (matches_enumeration [Tok.openB, Tok.chr 'a' [], Tok.closeB] ['z'] none
    (by decide)).2.2

/-- Claim C5: a document with exactly one occurrence of the target yields
that occurrence regardless of the supplied context, and with several
occurrences and no context the occurrence at the earliest document position
is returned. -/
theorem findBestMatch_unique_or_earliest :
    ∀ (d : Doc) (s : List Char), s ≠ [] →
      (∀ p : Nat, occursTokAt d p s → (∀ q, occursTokAt d q s → q = p) →
        ∀ ctx : Option Ctx, findBestMatchPosition d s ctx = some ⟨p, p + s.length⟩)
      ∧ ((∃ q1 q2 : Nat, occursTokAt d q1 s ∧ occursTokAt d q2 s ∧ q1 ≠ q2) →
          ∃ sp, findBestMatchPosition d s none = some sp
            ∧ occursTokAt d sp.fromPos s
            ∧ ∀ q, occursTokAt d q s → sp.fromPos ≤ q) := by
  intro d s hs
  constructor
  · intro p hp huniq ctx
    have hmem : Span.mk p (p + s.length) ∈ matchesOf d s :=
      (mem_matchesOf d s hs _).mpr ⟨hp, rfl⟩
    have hall : ∀ y ∈ matchesOf d s, y = Span.mk p (p + s.length) := by
      intro y hy
      rcases (mem_matchesOf d s hs y).mp hy with ⟨hyo, hyto⟩
      have hyp := huniq y.fromPos hyo
      cases y with
      | mk f t2 =>
          simp only at hyp hyto
          rw [hyp] at hyto ⊢
          rw [hyto]
    have hsingle : matchesOf d s = [Span.mk p (p + s.length)] :=
      span_list_eq_singleton _ _ hmem hall (matchesOf_pairwise d s hs)
    unfold findBestMatchPosition
    rw [if_neg hs, hsingle]
  · rintro ⟨q1, q2, h1, h2, hne⟩
    have hm1 : Span.mk q1 (q1 + s.length) ∈ matchesOf d s :=
      (mem_matchesOf d s hs _).mpr ⟨h1, rfl⟩
    rcases hm : matchesOf d s with _ | ⟨m0, ms⟩
    · rw [hm] at hm1
      exact absurd hm1 (List.not_mem_nil _)
    · have hhead : findBestMatchPosition d s none = some m0 := by
        unfold findBestMatchPosition
        rw [if_neg hs, hm]
        cases ms with
        | nil => rfl
        | cons m2 rest => rfl
      have hm0mem : m0 ∈ matchesOf d s := by
        rw [hm]
        exact List.mem_cons_self _ _
      have hm0occ := ((mem_matchesOf d s hs m0).mp hm0mem).1
      refine ⟨m0, hhead, hm0occ, fun q hq => ?_⟩
      have hqmem : Span.mk q (q + s.length) ∈ matchesOf d s :=
        (mem_matchesOf d s hs _).mpr ⟨hq, rfl⟩
      rw [hm] at hqmem
      rcases List.mem_cons.mp hqmem with hEq | htail
      · rw [← hEq]
      · have hp := matchesOf_pairwise d s hs
        rw [hm] at hp
        rcases List.pairwise_cons.mp hp with ⟨hhead2, _⟩
        have h7 : m0.fromPos < q := hhead2 _ htail
        show m0.fromPos ≤ q
        omega

/-- Claim C5, witness: a document with exactly one occurrence of "ab" yields
that occurrence even under an arbitrary context. -/
theorem findBestMatch_unique_or_earliest_witness :
    findBestMatchPosition [Tok.openB, Tok.chr 'a' [], Tok.chr 'b' [], Tok.closeB]
        ['a', 'b'] (some ⟨['z'], ['z'], some 7, none⟩) = some ⟨1, 3⟩ :=
  (findBestMatch_unique_or_earliest
      [Tok.openB, Tok.chr 'a' [], Tok.chr 'b' [], Tok.closeB] ['a', 'b']
      (by decide)).1 1
    ⟨by decide, [], by decide⟩
    (by
      intro q hq
      rcases hq with ⟨-, ms, hocc⟩
      have h0 := hocc 0 (by decide)
      have h1 := hocc 1 (by decide)
      have hq4 : q < 4 := by
        have hlt := (List.get?_eq_some.mp h0).1
        simp only [List.length_cons, List.length_nil] at hlt
        omega
      interval_cases q
      · simp at h0
      · rfl
      · simp at h0
      · simp at h1)
    (some ⟨['z'], ['z'], some 7, none⟩)

/-- Adding a thread id to a mark set always leaves the id present. -/
theorem mem_addTid (tid : ThreadId) (ms : List ThreadId) : tid ∈ addTid tid ms := by
  unfold addTid
  by_cases h : tid ∈ ms
  · rw [if_pos h]; exact h
  · rw [if_neg h]; exact List.mem_append_right _ (List.mem_singleton.mpr rfl)

/-- Boolean membership in a thread id list agrees with list membership. -/
theorem tid_contains_iff (l : List ThreadId) (x : ThreadId) :
    l.contains x = true ↔ x ∈ l := by
  constructor
  · intro h; exact List.elem_iff.mp h
  · intro h; exact List.elem_iff.mpr h

/-- Positional lookup through the indexed token map. -/
theorem mapIdxTok_get? (f : Nat → Tok → Tok) :
    ∀ (d : Doc) (k i : Nat),
      (mapIdxTok f d k).get? i = (d.get? i).map (fun t => f (k + i) t) := by
  intro d
  induction d with
  | nil => intro k i; simp [mapIdxTok]
  | cons t ts ih =>
      intro k i
      cases i with
      | zero => simp [mapIdxTok]
      | succ i2 =>
          have h1 : (mapIdxTok f (t :: ts) k).get? (i2 + 1)
              = (mapIdxTok f ts (k + 1)).get? i2 := rfl
          rw [h1, ih (k + 1) i2,
              show ((t :: ts).get? (i2 + 1)) = ts.get? i2 from rfl,
              show k + 1 + i2 = k + (i2 + 1) by omega]

/-- Positional lookup through addMark. -/
theorem addMark_get? (d : Doc) (a b : Nat) (tid : ThreadId) (i : Nat) :
    (addMark d a b tid).get? i
      = (d.get? i).map (fun t =>
          if a ≤ i ∧ i < b then
            match t with
            | Tok.chr c ms => Tok.chr c (addTid tid ms)
            | t2 => t2
          else t) := by
  unfold addMark
  rw [mapIdxTok_get?]
  simp only [Nat.zero_add]

/-- Dropping commutes with the indexed token map. -/
theorem mapIdxTok_drop (f : Nat → Tok → Tok) :
    ∀ (d : Doc) (k n : Nat),
      (mapIdxTok f d k).drop n = mapIdxTok f (d.drop n) (k + n) := by
  intro d
  induction d with
  | nil => intro k n; simp [mapIdxTok]
  | cons t ts ih =>
      intro k n
      cases n with
      | zero => simp [mapIdxTok]
      | succ n2 =>
          show (mapIdxTok f ts (k + 1)).drop n2 = mapIdxTok f (ts.drop n2) (k + (n2 + 1))
          rw [ih (k + 1) n2, show k + 1 + n2 = k + (n2 + 1) by omega]

/-- Taking commutes with the indexed token map. -/
theorem mapIdxTok_take (f : Nat → Tok → Tok) :
    ∀ (d : Doc) (k n : Nat),
      (mapIdxTok f d k).take n = mapIdxTok f (d.take n) k := by
  intro d
  induction d with
  | nil => intro k n; cases n <;> rfl
  | cons t ts ih =>
      intro k n
      cases n with
      | zero => rfl
      | succ n2 =>
          show f k t :: (mapIdxTok f ts (k + 1)).take n2
              = f k t :: mapIdxTok f (ts.take n2) (k + 1)
          rw [ih (k + 1) n2]

/-- A character-preserving indexed token map leaves the flattened text
unchanged. -/
theorem filterMap_chrChar_mapIdxTok (f : Nat → Tok → Tok)
    (hf : ∀ i t, chrChar? (f i t) = chrChar? t) :
    ∀ (d : Doc) (k : Nat),
      (mapIdxTok f d k).filterMap chrChar? = d.filterMap chrChar? := by
  intro d
  induction d with
  | nil => intro k; rfl
  | cons t ts ih =>
      intro k
      show ((f k t :: mapIdxTok f ts (k + 1)).filterMap chrChar?) = _
      rw [List.filterMap_cons, List.filterMap_cons, hf k t, ih (k + 1)]

/-- Adding a mark never changes the covered text of any range. -/
theorem charsBetween_addMark (d : Doc) (a b : Nat) (tid : ThreadId) (x y : Nat) :
    charsBetween (addMark d a b tid) x y = charsBetween d x y := by
  unfold charsBetween addMark
  rw [mapIdxTok_drop, mapIdxTok_take]
  apply filterMap_chrChar_mapIdxTok
  intro i t
  by_cases h : a ≤ i ∧ i < b
  · rw [if_pos h]; cases t <;> rfl
  · rw [if_neg h]

/-- Unfolding equation of the mark range scan at a text node. -/
theorem fcmrScan_cons_text (tid : ThreadId) (seen rest : List Item) (r : TextRun) :
    fcmrScan tid seen (Item.text r :: rest)
      = if runHasTid r tid then
          some ⟨leftExtend tid seen r.start,
                lastMarkedEnd tid (Item.text r :: rest) (r.start + r.text.length),
                false⟩
        else fcmrScan tid (Item.text r :: seen) rest := rfl

/-- Unfolding equation of the mark range scan at an image node. -/
theorem fcmrScan_cons_image (tid : ThreadId) (seen rest : List Item) (p : Nat)
    (a : Option ThreadId) (al : List Char) :
    fcmrScan tid seen (Item.image p a al :: rest)
      = if a == some tid then some ⟨p, p + 1, true⟩
        else fcmrScan tid (Item.image p a al :: seen) rest := rfl

/-- The scan walks past a block of nodes without the thread's annotation,
pushing them onto the seen accumulator in reverse. -/
theorem fcmrScan_skip (tid : ThreadId) :
    ∀ (l seen rest : List Item), (∀ x ∈ l, itemHasTid tid x = false) →
      fcmrScan tid seen (l ++ rest) = fcmrScan tid (l.reverse ++ seen) rest := by
  intro l
  induction l with
  | nil => intro seen rest _; rfl
  | cons x l2 ih =>
      intro seen rest h
      have hx := h x (List.mem_cons_self _ _)
      have htail : ∀ y ∈ l2, itemHasTid tid y = false :=
        fun y hy => h y (List.mem_cons_of_mem _ hy)
      cases x with
      | text r =>
          have hr : runHasTid r tid = false := hx
          rw [List.cons_append, fcmrScan_cons_text, if_neg (by simp [hr]),
              ih _ rest htail]
          simp [List.reverse_cons, List.append_assoc]
      | image p a2 al =>
          have ha : (a2 == some tid) = false := hx
          rw [List.cons_append, fcmrScan_cons_image, if_neg (by simp [ha]),
              ih _ rest htail]
          simp [List.reverse_cons, List.append_assoc]

/-- With no annotated node among the already seen nodes, the backwards walk
does not move the start. -/
theorem leftExtend_no_hit (tid : ThreadId) (seen : List Item) (start : Nat)
    (h : ∀ x ∈ seen, itemHasTid tid x = false) :
    leftExtend tid seen start = start := by
  cases seen with
  | nil => rfl
  | cons x rest =>
      cases x with
      | text r =>
          have hr : runHasTid r tid = false := h _ (List.mem_cons_self _ _)
          show (if runHasTid r tid = true then leftExtend tid rest r.start else start)
              = start
          rw [if_neg (by simp [hr])]
      | image p a2 al => rfl

/-- With no marked text node in the list, the forward end fold keeps its
default. -/
theorem lastMarkedEnd_no_hit (tid : ThreadId) :
    ∀ (l : List Item) (dflt : Nat),
      (∀ r, Item.text r ∈ l → runHasTid r tid = false) →
      lastMarkedEnd tid l dflt = dflt := by
  intro l
  induction l with
  | nil => intro dflt _; rfl
  | cons x l2 ih =>
      intro dflt h
      cases x with
      | text r =>
          have hr := h r (List.mem_cons_self _ _)
          show lastMarkedEnd tid l2
              (if runHasTid r tid = true then r.start + r.text.length else dflt) = dflt
          rw [if_neg (by simp [hr])]
          exact ih dflt (fun r3 h3 => h r3 (List.mem_cons_of_mem _ h3))
      | image p a2 al =>
          show lastMarkedEnd tid l2 dflt = dflt
          exact ih dflt (fun r3 h3 => h r3 (List.mem_cons_of_mem _ h3))

/-- The forward end fold splits over an append. -/
theorem lastMarkedEnd_append (tid : ThreadId) (l1 l2 : List Item) (dflt : Nat) :
    lastMarkedEnd tid (l1 ++ l2) dflt
      = lastMarkedEnd tid l2 (lastMarkedEnd tid l1 dflt) := by
  unfold lastMarkedEnd
  rw [List.foldl_append]

/-- The forward end fold lands on the last marked text node. -/
theorem lastMarkedEnd_last_hit (tid : ThreadId) (l1 l2 : List Item) (r : TextRun)
    (dflt : Nat) (hr : runHasTid r tid = true)
    (h2 : ∀ r3, Item.text r3 ∈ l2 → runHasTid r3 tid = false) :
    lastMarkedEnd tid (l1 ++ Item.text r :: l2) dflt = r.start + r.text.length := by
  rw [lastMarkedEnd_append]
  show lastMarkedEnd tid l2
      (if runHasTid r tid = true then r.start + r.text.length
        else lastMarkedEnd tid l1 dflt) = _
  rw [if_pos hr]
  exact lastMarkedEnd_no_hit tid l2 _ h2

/-- Every node of the node list starts strictly before it ends. -/
theorem items_start_lt_end (d : Doc) : ∀ x ∈ items d, itemStart x < itemEnd x := by
  intro x hx
  cases x with
  | text r =>
      have h1 := (run_window d r hx).1
      show r.start < r.start + r.text.length
      omega
  | image p a2 al => show p < p + 1; omega

/-- Splitting a window of the document at an intermediate position. -/
theorem drop_take_split (d : Doc) (a m b : Nat) (ham : a ≤ m) (hmb : m ≤ b) :
    (d.drop a).take (b - a) = (d.drop a).take (m - a) ++ (d.drop m).take (b - m) := by
  rw [show b - a = (m - a) + (b - m) by omega, List.take_add]
  congr 1
  rw [List.drop_drop]
  congr 2
  omega

/-- A window whose leading part holds no character token covers the same text
as the window trimmed on the left. -/
theorem charsBetween_trim_left (d : Doc) (a m b : Nat) (ham : a ≤ m) (hmb : m ≤ b)
    (h : ∀ i, a ≤ i → i < m → ((d.get? i).bind chrChar?) = none) :
    charsBetween d a b = charsBetween d m b := by
  unfold charsBetween
  rw [drop_take_split d a m b ham hmb, List.filterMap_append]
  have hnil : ((d.drop a).take (m - a)).filterMap chrChar? = [] := by
    rw [List.filterMap_eq_nil]
    intro t ht
    rcases List.get?_of_mem ht with ⟨j, hj⟩
    have hlen := (List.get?_eq_some.mp hj).1
    rw [List.length_take] at hlen
    have hjlt : j < m - a := by omega
    rw [List.get?_take hjlt, List.get?_drop] at hj
    have h2 := h (a + j) (by omega) (by omega)
    rw [hj] at h2
    simpa using h2
  rw [hnil, List.nil_append]

/-- A window whose trailing part holds no character token covers the same
text as the window trimmed on the right. -/
theorem charsBetween_trim_right (d : Doc) (a m b : Nat) (ham : a ≤ m) (hmb : m ≤ b)
    (h : ∀ i, m ≤ i → i < b → ((d.get? i).bind chrChar?) = none) :
    charsBetween d a b = charsBetween d a m := by
  unfold charsBetween
  rw [drop_take_split d a m b ham hmb, List.filterMap_append]
  have hnil : ((d.drop m).take (b - m)).filterMap chrChar? = [] := by
    rw [List.filterMap_eq_nil]
    intro t ht
    rcases List.get?_of_mem ht with ⟨j, hj⟩
    have hlen := (List.get?_eq_some.mp hj).1
    rw [List.length_take] at hlen
    have hjlt : j < b - m := by omega
    rw [List.get?_take hjlt, List.get?_drop] at hj
    have h2 := h (m + j) (by omega) (by omega)
    rw [hj] at h2
    simpa using h2
  rw [hnil, List.append_nil]

/-- Claim C2, counterexample: with thread t already marked on the character x
of an earlier block, applying the mark for t to the span holding just the
character a succeeds, but the queried mark range stretches back to the first
marked node, so the covered text xa differs from the span text a. -/
theorem applyMark_roundtrip_cex :
    applyCommentMarkMain
        [Tok.openB, Tok.chr 'x' ["t"], Tok.closeB, Tok.openB, Tok.chr 'a' [], Tok.closeB]
        (Sel.text 4 5) "t"
      = some [Tok.openB, Tok.chr 'x' ["t"], Tok.closeB, Tok.openB,
              Tok.chr 'a' ["t"], Tok.closeB]
    ∧ findCommentMarkRange
        [Tok.openB, Tok.chr 'x' ["t"], Tok.closeB, Tok.openB,
         Tok.chr 'a' ["t"], Tok.closeB] "t"
      = some ⟨1, 5, false⟩
    ∧ charsBetween
        [Tok.openB, Tok.chr 'x' ["t"], Tok.closeB, Tok.openB,
         Tok.chr 'a' ["t"], Tok.closeB] 1 5
      ≠ charsBetween
        [Tok.openB, Tok.chr 'x' ["t"], Tok.closeB, Tok.openB,
         Tok.chr 'a' [], Tok.closeB] 4 5 := by
  refine ⟨by decide, by decide, by decide⟩

/-- Claim C2 (amended): for every document, thread id carried by no token of
the document, and text selection whose covered text is not only whitespace,
applying the comment mark and then querying the mark range for the same
thread returns a text range whose covered document text is identical to the
covered text of the original span. -/
theorem applyMark_roundtrip_text (d : Doc) (a b : Nat) (tid : ThreadId)
    (hfresh : ∀ t ∈ d, t.hasTid tid = false)
    (hws : isOnlyWhitespace (charsBetween d a b) = false) :
    ∃ d2 p q, applyCommentMarkMain d (Sel.text a b) tid = some d2
      ∧ findCommentMarkRange d2 tid = some ⟨p, q, false⟩
      ∧ charsBetween d2 p q = charsBetween d a b := by
  have hne : charsBetween d a b ≠ [] := by
    intro hn
    rw [hn] at hws
    simp [isOnlyWhitespace] at hws
  have hab : a < b := by
    by_contra hge
    apply hne
    unfold charsBetween
    rw [show b - a = 0 by omega]
    rfl
  have hex : ∃ i, (a ≤ i ∧ i < b) ∧ ((d.get? i).bind chrChar?).isSome = true := by
    have h1 : ¬ ∀ t ∈ (d.drop a).take (b - a), chrChar? t = none := by
      intro hall
      exact hne (List.filterMap_eq_nil.mpr hall)
    push_neg at h1
    rcases h1 with ⟨t, ht, htc⟩
    rcases List.get?_of_mem ht with ⟨j, hj⟩
    have hjlen := (List.get?_eq_some.mp hj).1
    rw [List.length_take] at hjlen
    have hjlt : j < b - a := by omega
    rw [List.get?_take hjlt, List.get?_drop] at hj
    refine ⟨a + j, ⟨by omega, by omega⟩, ?_⟩
    rw [hj]
    exact Option.isSome_iff_ne_none.mpr htc
  set p1 := Nat.find hex with hp1def
  have hP1 : (a ≤ p1 ∧ p1 < b) ∧ ((d.get? p1).bind chrChar?).isSome = true :=
    Nat.find_spec hex
  have hmin : ∀ i, i < p1 →
      ¬((a ≤ i ∧ i < b) ∧ ((d.get? i).bind chrChar?).isSome = true) :=
    fun i hi => Nat.find_min hex hi
  set p2 := Nat.findGreatest
      (fun i => (a ≤ i ∧ i < b) ∧ ((d.get? i).bind chrChar?).isSome = true) b
    with hp2def
  have hP2 : (a ≤ p2 ∧ p2 < b) ∧ ((d.get? p2).bind chrChar?).isSome = true :=
    Nat.findGreatest_spec
      (P := fun i => (a ≤ i ∧ i < b) ∧ ((d.get? i).bind chrChar?).isSome = true)
      (le_of_lt hP1.1.2) hP1
  have hmax : ∀ i, p2 < i → i ≤ b →
      ¬((a ≤ i ∧ i < b) ∧ ((d.get? i).bind chrChar?).isSome = true) :=
    fun i hi hib =>
      Nat.findGreatest_is_greatest
        (P := fun i => (a ≤ i ∧ i < b) ∧ ((d.get? i).bind chrChar?).isSome = true)
        hi hib
  have hp12 : p1 ≤ p2 :=
    Nat.le_findGreatest
      (P := fun i => (a ≤ i ∧ i < b) ∧ ((d.get? i).bind chrChar?).isSome = true)
      (le_of_lt hP1.1.2) hP1
  have hchr : ∀ i, ((d.get? i).bind chrChar?).isSome = true →
      ∃ c ms, d.get? i = some (Tok.chr c ms) := by
    intro i hi
    rcases hg : d.get? i with _ | t
    · rw [hg] at hi; simp at hi
    · rw [hg] at hi
      cases t with
      | chr c ms => exact ⟨c, ms, rfl⟩
      | openB => simp [chrChar?] at hi
      | closeB => simp [chrChar?] at hi
      | img a2 al => simp [chrChar?] at hi
  rcases hchr p1 hP1.2 with ⟨c1, ms1, hgp1⟩
  rcases hchr p2 hP2.2 with ⟨c2, ms2, hgp2⟩
  have happ : applyCommentMarkMain d (Sel.text a b) tid = some (addMark d a b tid) := by
    have h0 : applyCommentMarkMain d (Sel.text a b) tid
        = if a = b then none
          else if isOnlyWhitespace (charsBetween d a b) = true then none
          else some (addMark d a b tid) := rfl
    rw [h0, if_neg (by omega : ¬ a = b), if_neg (by simp [hws])]
  set d2 := addMark d a b tid with hd2def
  have hget : ∀ i, d2.get? i = (d.get? i).map (fun t =>
      if a ≤ i ∧ i < b then
        match t with
        | Tok.chr c ms => Tok.chr c (addTid tid ms)
        | t2 => t2
      else t) := fun i => addMark_get? d a b tid i
  have hchr2 : ∀ i c ms', d2.get? i = some (Tok.chr c ms') →
      ∃ ms, d.get? i = some (Tok.chr c ms)
        ∧ ms' = (if a ≤ i ∧ i < b then addTid tid ms else ms) := by
    intro i c ms' h2
    rw [hget i] at h2
    rcases hg : d.get? i with _ | t
    · rw [hg] at h2; cases h2
    · rw [hg] at h2
      rw [Option.map_some'] at h2
      have h3 := Option.some.inj h2
      by_cases hc : a ≤ i ∧ i < b
      · rw [if_pos hc] at h3
        cases t with
        | chr c0 ms0 =>
            have h4 : Tok.chr c0 (addTid tid ms0) = Tok.chr c ms' := h3
            cases h4
            exact ⟨ms0, rfl, by rw [if_pos hc]⟩
        | openB =>
            have h4 : Tok.openB = Tok.chr c ms' := h3
            cases h4
        | closeB =>
            have h4 : Tok.closeB = Tok.chr c ms' := h3
            cases h4
        | img a2 al =>
            have h4 : Tok.img a2 al = Tok.chr c ms' := h3
            cases h4
      · rw [if_neg hc] at h3
        subst h3
        exact ⟨ms', rfl, by rw [if_neg hc]⟩
  have hmarkiff : ∀ i c ms', d2.get? i = some (Tok.chr c ms') →
      (tid ∈ ms' ↔ (a ≤ i ∧ i < b)) := by
    intro i c ms' h2
    rcases hchr2 i c ms' h2 with ⟨ms, hg, hms⟩
    by_cases hc : a ≤ i ∧ i < b
    · rw [if_pos hc] at hms
      subst hms
      exact ⟨fun _ => hc, fun _ => mem_addTid tid ms⟩
    · rw [if_neg hc] at hms
      subst hms
      constructor
      · intro hmem
        exfalso
        have hmemd : Tok.chr c ms' ∈ d := List.get?_mem hg
        have hft := hfresh _ hmemd
        have hcontains : ms'.contains tid = false := hft
        have htrue : ms'.contains tid = true := (tid_contains_iff _ _).mpr hmem
        rw [hcontains] at htrue
        cases htrue
      · intro hc2; exact absurd hc2 hc
  have hrunP : ∀ r : TextRun, Item.text r ∈ items d2 → runHasTid r tid = true →
      ∀ j, j < r.text.length →
        (a ≤ r.start + j ∧ r.start + j < b)
          ∧ ((d.get? (r.start + j)).bind chrChar?).isSome = true := by
    intro r hr htid j hj
    rcases (run_window d2 r hr).2.1 j hj with ⟨c, _, hgc⟩
    have hmem : tid ∈ r.marks := (tid_contains_iff _ _).mp htid
    have hin := (hmarkiff _ c r.marks hgc).mp hmem
    rcases hchr2 _ c r.marks hgc with ⟨ms, hgd, _⟩
    refine ⟨hin, ?_⟩
    rw [hgd]
    rfl
  have hgp1d2 : d2.get? p1 = some (Tok.chr c1 (addTid tid ms1)) := by
    rw [hget p1, hgp1, Option.map_some', if_pos hP1.1]
  rcases pos_in_run d2 p1 c1 (addTid tid ms1) hgp1d2 with ⟨r1, hr1mem, hr1marks, hr1le, hr1lt⟩
  have hr1tid : runHasTid r1 tid = true := by
    unfold runHasTid
    rw [hr1marks]
    exact (tid_contains_iff _ _).mpr (mem_addTid tid ms1)
  have hr1win := run_window d2 r1 hr1mem
  have hr1start : r1.start = p1 := by
    have hP1r := hrunP r1 hr1mem hr1tid 0 (by have := hr1win.1; omega)
    by_contra hne2
    have hlt : r1.start < p1 := by omega
    exact hmin r1.start hlt ⟨by simpa using hP1r.1, by simpa using hP1r.2⟩
  have hgp2d2 : d2.get? p2 = some (Tok.chr c2 (addTid tid ms2)) := by
    rw [hget p2, hgp2, Option.map_some', if_pos hP2.1]
  rcases pos_in_run d2 p2 c2 (addTid tid ms2) hgp2d2 with ⟨r2, hr2mem, hr2marks, hr2le, hr2lt⟩
  have hr2tid : runHasTid r2 tid = true := by
    unfold runHasTid
    rw [hr2marks]
    exact (tid_contains_iff _ _).mpr (mem_addTid tid ms2)
  have hr2win := run_window d2 r2 hr2mem
  have hr2end : r2.start + r2.text.length = p2 + 1 := by
    have hlast := hrunP r2 hr2mem hr2tid (r2.text.length - 1) (by have := hr2win.1; omega)
    have hle : r2.start + (r2.text.length - 1) ≤ p2 := by
      by_contra hgt
      exact hmax _ (by omega) (by have := hlast.1.2; omega) ⟨hlast.1, hlast.2⟩
    have := hr2win.1
    omega
  have himg : ∀ p al, Item.image p (some tid) al ∈ items d2 → False := by
    intro p al hmem
    have hg2 := (items_image_mem d2 p (some tid) al).mp hmem
    rw [hget p] at hg2
    rcases hg : d.get? p with _ | t
    · rw [hg] at hg2; cases hg2
    · rw [hg] at hg2
      rw [Option.map_some'] at hg2
      have h3 := Option.some.inj hg2
      cases t with
      | img a2 al2 =>
          have h4 : Tok.img a2 al2 = Tok.img (some tid) al := by
            by_cases hc : a ≤ p ∧ p < b
            · rw [if_pos hc] at h3; exact h3
            · rw [if_neg hc] at h3; exact h3
          cases h4
          have hmemd := List.get?_mem hg
          have hft := hfresh _ hmemd
          rw [show Tok.hasTid (Tok.img (some tid) al) tid
              = (some tid == some tid) from rfl] at hft
          simp at hft
      | chr c0 ms0 =>
          by_cases hc : a ≤ p ∧ p < b
          · rw [if_pos hc] at h3
            have h4 : Tok.chr c0 (addTid tid ms0) = Tok.img (some tid) al := h3
            cases h4
          · rw [if_neg hc] at h3
            have h4 : Tok.chr c0 ms0 = Tok.img (some tid) al := h3
            cases h4
      | openB =>
          by_cases hc : a ≤ p ∧ p < b
          · rw [if_pos hc] at h3
            have h4 : Tok.openB = Tok.img (some tid) al := h3
            cases h4
          · rw [if_neg hc] at h3
            have h4 : Tok.openB = Tok.img (some tid) al := h3
            cases h4
      | closeB =>
          by_cases hc : a ≤ p ∧ p < b
          · rw [if_pos hc] at h3
            have h4 : Tok.closeB = Tok.img (some tid) al := h3
            cases h4
          · rw [if_neg hc] at h3
            have h4 : Tok.closeB = Tok.img (some tid) al := h3
            cases h4
  rcases List.append_of_mem hr1mem with ⟨u, v, hsplit⟩
  have hpw := items_spaced d2
  rw [hsplit] at hpw
  have hpwparts := List.pairwise_append.mp hpw
  have hu_nohit : ∀ x ∈ u, itemHasTid tid x = false := by
    intro x hxu
    have hxmem : x ∈ items d2 := by
      rw [hsplit]; exact List.mem_append_left _ hxu
    have hxr1 : itemEnd x ≤ itemStart (Item.text r1) :=
      hpwparts.2.2 x hxu (Item.text r1) (List.mem_cons_self _ _)
    cases x with
    | image p a2 al =>
        show (a2 == some tid) = false
        cases hv : (a2 == some tid) with
        | false => rfl
        | true =>
            exfalso
            have ha2 : a2 = some tid := eq_of_beq hv
            subst ha2
            exact himg p al hxmem
    | text r =>
        show runHasTid r tid = false
        cases hv : runHasTid r tid with
        | false => rfl
        | true =>
            exfalso
            have hrP := hrunP r hxmem hv 0 (by have := (run_window d2 r hxmem).1; omega)
            have hgen : ¬ r.start < p1 := fun hlt =>
              hmin r.start hlt ⟨by simpa using hrP.1, by simpa using hrP.2⟩
            have h6 : itemStart (Item.text r) < itemEnd (Item.text r) :=
              items_start_lt_end d2 _ hxmem
            have h7 : r.start < r1.start := lt_of_lt_of_le h6 hxr1
            exact hgen (by omega)
  have hlast2 : lastMarkedEnd tid (Item.text r1 :: v) (r1.start + r1.text.length)
      = p2 + 1 := by
    have hr2in : Item.text r2 ∈ Item.text r1 :: v := by
      have hmem2 : Item.text r2 ∈ items d2 := hr2mem
      rw [hsplit] at hmem2
      rcases List.mem_append.mp hmem2 with hinu | hin
      · exfalso
        have h8 : itemHasTid tid (Item.text r2) = false := hu_nohit _ hinu
        have h9 : runHasTid r2 tid = false := h8
        rw [h9] at hr2tid
        cases hr2tid
      · exact hin
    have hpwv : List.Pairwise (fun x y => itemEnd x ≤ itemStart y) (Item.text r1 :: v) :=
      List.Pairwise.sublist (List.sublist_append_right u _) hpw
    rcases List.append_of_mem hr2in with ⟨w1, w2, hw⟩
    have hpww2 : ∀ x ∈ w2, itemEnd (Item.text r2) ≤ itemStart x := by
      have h9 : List.Pairwise (fun x y => itemEnd x ≤ itemStart y)
          (Item.text r2 :: w2) :=
        List.Pairwise.sublist (List.sublist_append_right w1 _) (hw ▸ hpwv)
      exact (List.pairwise_cons.mp h9).1
    have hw2nohit : ∀ r3, Item.text r3 ∈ w2 → runHasTid r3 tid = false := by
      intro r3 h3
      cases hv : runHasTid r3 tid with
      | false => rfl
      | true =>
          exfalso
          have h3mem : Item.text r3 ∈ items d2 := by
            rw [hsplit]
            apply List.mem_append_right
            rw [hw]
            exact List.mem_append_right _ (List.mem_cons_of_mem _ h3)
          have hrP := hrunP r3 h3mem hv 0 (by have := (run_window d2 r3 h3mem).1; omega)
          have h10 : ¬ p2 < r3.start := fun hgt =>
            hmax r3.start hgt (by have := hrP.1.2; omega)
              ⟨by simpa using hrP.1, by simpa using hrP.2⟩
          have h13 : r2.start + r2.text.length ≤ itemStart (Item.text r3) :=
            hpww2 _ h3
          have h14 : r2.start + r2.text.length ≤ r3.start := h13
          omega
    rw [hw, lastMarkedEnd_last_hit tid w1 w2 r2 _ hr2tid hw2nohit]
    exact hr2end
  refine ⟨d2, p1, p2 + 1, happ, ?_, ?_⟩
  · unfold findCommentMarkRange
    rw [hsplit, fcmrScan_skip tid u [] _ hu_nohit, fcmrScan_cons_text,
        if_pos hr1tid,
        leftExtend_no_hit tid _ _ (by
          intro x hx
          rw [List.append_nil] at hx
          exact hu_nohit x (List.mem_reverse.mp hx)),
        hlast2, hr1start]
  · rw [hd2def, charsBetween_addMark]
    have htrim1 : charsBetween d a b = charsBetween d p1 b :=
      charsBetween_trim_left d a p1 b hP1.1.1 (le_of_lt hP1.1.2) (by
        intro i hai him
        have hnP := hmin i him
        cases hcc : (d.get? i).bind chrChar? with
        | none => rfl
        | some c =>
            exfalso
            exact hnP ⟨⟨hai, by omega⟩, by rw [hcc]; rfl⟩)
    have htrim2 : charsBetween d p1 b = charsBetween d p1 (p2 + 1) :=
      charsBetween_trim_right d p1 (p2 + 1) b (by omega) (by omega) (by
        intro i hi hib
        have hnP := hmax i (by omega) (by omega)
        cases hcc : (d.get? i).bind chrChar? with
        | none => rfl
        | some c =>
            exfalso
            exact hnP ⟨⟨by omega, hib⟩, by rw [hcc]; rfl⟩)
    rw [htrim1, htrim2]

/-- Claim C2, witness: on a document with one block holding hi and a fresh
thread id, applying the mark over the two characters and querying the range
gives back a range covering exactly hi. -/
theorem applyMark_roundtrip_text_witness :
    (∀ t ∈ ([Tok.openB, Tok.chr 'h' [], Tok.chr 'i' [], Tok.closeB] : Doc),
        t.hasTid "t9" = false)
    ∧ isOnlyWhitespace
        (charsBetween [Tok.openB, Tok.chr 'h' [], Tok.chr 'i' [], Tok.closeB] 1 3)
      = false
    ∧ ∃ d2 p q,
        applyCommentMarkMain [Tok.openB, Tok.chr 'h' [], Tok.chr 'i' [], Tok.closeB]
            (Sel.text 1 3) "t9" = some d2
          ∧ findCommentMarkRange d2 "t9" = some ⟨p, q, false⟩
          ∧ charsBetween d2 p q
              = charsBetween [Tok.openB, Tok.chr 'h' [], Tok.chr 'i' [], Tok.closeB] 1 3 :=
  ⟨by decide, by decide,
    applyMark_roundtrip_text _ 1 3 "t9" (by decide) (by decide)⟩

/-! Machinery for the lifecycle idempotence claim. -/

/-- Anchor agreement is reflexive. -/
theorem sameAnchor_refl (c : Comment) : sameAnchor c c :=
  ⟨rfl, rfl, rfl, rfl, rfl, rfl, rfl, rfl⟩

/-- Anchor agreement is transitive. -/
theorem sameAnchor_trans {a b c : Comment} (h1 : sameAnchor a b)
    (h2 : sameAnchor b c) : sameAnchor a c := by
  obtain ⟨e1, e2, e3, e4, e5, e6, e7, e8⟩ := h1
  obtain ⟨f1, f2, f3, f4, f5, f6, f7, f8⟩ := h2
  exact ⟨f1.trans e1, f2.trans e2, f3.trans e3, f4.trans e4, f5.trans e5,
    f6.trans e6, f7.trans e7, f8.trans e8⟩

/-- Every store is anchor-related to itself. -/
theorem forall2_anchor_refl : ∀ l : CMap, List.Forall₂ sameAnchor l l
  | [] => List.Forall₂.nil
  | c :: l => List.Forall₂.cons (sameAnchor_refl c) (forall2_anchor_refl l)

/-- Anchor relation of stores is transitive. -/
theorem forall2_anchor_trans {a b : CMap} (h1 : List.Forall₂ sameAnchor a b) :
    ∀ {c : CMap}, List.Forall₂ sameAnchor b c → List.Forall₂ sameAnchor a c := by
  induction h1 with
  | nil => intro c h2; cases h2; exact List.Forall₂.nil
  | cons hab htail ih =>
      intro c h2
      cases h2 with
      | cons hbc htail2 => exact List.Forall₂.cons (sameAnchor_trans hab hbc) (ih htail2)

/-- A pointwise anchor-preserving map keeps the store anchor-related. -/
theorem forall2_anchor_map (l : CMap) (f : Comment → Comment)
    (h : ∀ c ∈ l, sameAnchor c (f c)) : List.Forall₂ sameAnchor l (l.map f) := by
  induction l with
  | nil => exact List.Forall₂.nil
  | cons c cs ih =>
      exact List.Forall₂.cons (h c (List.mem_cons_self _ _))
        (ih fun c2 hc2 => h c2 (List.mem_cons_of_mem _ hc2))

/-- The restoration update touches only the orphan state. -/
theorem restoreFn_fields (ids : List ThreadId) (c : Comment) :
    (restoreFn ids c).id = c.id ∧ (restoreFn ids c).threadId = c.threadId
      ∧ (restoreFn ids c).parentId = c.parentId
      ∧ (restoreFn ids c).createdAt = c.createdAt
      ∧ (restoreFn ids c).resolved = c.resolved
      ∧ (restoreFn ids c).selectedText = c.selectedText := by
  unfold restoreFn
  by_cases h : ids.contains c.threadId = true ∧ c.parentId = none
  · rw [if_pos h]; exact ⟨rfl, rfl, rfl, rfl, rfl, rfl⟩
  · rw [if_neg h]; exact ⟨rfl, rfl, rfl, rfl, rfl, rfl⟩

/-- The orphan update touches only the orphan state. -/
theorem orphanFn_fields (now : Nat) (ids : List ThreadId) (c : Comment) :
    (orphanFn now ids c).id = c.id ∧ (orphanFn now ids c).threadId = c.threadId
      ∧ (orphanFn now ids c).parentId = c.parentId
      ∧ (orphanFn now ids c).createdAt = c.createdAt
      ∧ (orphanFn now ids c).resolved = c.resolved
      ∧ (orphanFn now ids c).selectedText = c.selectedText := by
  unfold orphanFn
  by_cases h : ids.contains c.threadId = true ∧ c.parentId = none
  · rw [if_pos h]; exact ⟨rfl, rfl, rfl, rfl, rfl, rfl⟩
  · rw [if_neg h]; exact ⟨rfl, rfl, rfl, rfl, rfl, rfl⟩

/-- Restoration with an empty restored list changes nothing. -/
theorem restoreFn_nil (c : Comment) : restoreFn [] c = c := by
  unfold restoreFn
  rw [if_neg]
  rintro ⟨h1, -⟩
  simp at h1

/-- Orphaning with an empty orphan list changes nothing. -/
theorem orphanFn_nil (now : Nat) (c : Comment) : orphanFn now [] c = c := by
  unfold orphanFn
  rw [if_neg]
  rintro ⟨h1, -⟩
  simp at h1

/-- The root returned for a thread list is a member with a null parentId. -/
theorem rootOf_spec {cs : List Comment} {r : Comment} (h : rootOf cs = some r) :
    r ∈ cs ∧ r.parentId = none := by
  unfold rootOf at h
  refine ⟨List.mem_of_find?_eq_some h, ?_⟩
  have h2 := List.find?_some h
  simpa using h2

/-- Map.set with a present key rewrites the store in place. -/
theorem mapSet_present (m : CMap) (key : String) (c : Comment)
    (h : m.any (fun x => x.id == key) = true) :
    mapSet m key c = m.map (fun x => if x.id == key then c else x) := by
  unfold mapSet
  rw [if_pos h]

/-- A member's id is a present key. -/
theorem any_id_of_mem {m : CMap} {e : Comment} (h : e ∈ m) :
    m.any (fun x => x.id == e.id) = true :=
  List.any_eq_true.mpr ⟨e, h, by simp⟩

/-- The root entry search returns a member of the store for the thread with a
null parentId. -/
theorem findRootCommentEntry_spec (m : CMap) (tid : ThreadId) :
    ∀ e, findRootCommentEntry m tid = some e →
      e ∈ m ∧ e.threadId = tid ∧ e.parentId = none := by
  unfold findRootCommentEntry
  have main : ∀ (l : List Comment) (acc : Option Comment) (e : Comment),
      l.foldl (fun acc c =>
          if c.threadId == tid ∧ c.parentId = none then some c else acc) acc
        = some e →
      acc = some e ∨ (e ∈ l ∧ e.threadId = tid ∧ e.parentId = none) := by
    intro l
    induction l with
    | nil => intro acc e h; exact Or.inl h
    | cons c cs ih =>
        intro acc e h
        rw [List.foldl_cons] at h
        rcases ih _ e h with h2 | h2
        · by_cases hc : (c.threadId == tid) = true ∧ c.parentId = none
          · rw [if_pos hc] at h2
            cases h2
            exact Or.inr ⟨List.mem_cons_self _ _, eq_of_beq hc.1, hc.2⟩
          · rw [if_neg hc] at h2
            exact Or.inl h2
        · exact Or.inr ⟨List.mem_cons_of_mem _ h2.1, h2.2⟩
  intro e h
  rcases main m none e h with h2 | h2
  · cases h2
  · exact h2

/-- The root entry search commutes with a grouping-preserving record map. -/
theorem findRootCommentEntry_map (m : CMap) (tid : ThreadId) (f : Comment → Comment)
    (hpres : ∀ c ∈ m, (f c).threadId = c.threadId ∧ (f c).parentId = c.parentId) :
    findRootCommentEntry (m.map f) tid = (findRootCommentEntry m tid).map f := by
  unfold findRootCommentEntry
  have main : ∀ (l : List Comment),
      (∀ c ∈ l, (f c).threadId = c.threadId ∧ (f c).parentId = c.parentId) →
      ∀ (acc : Option Comment),
      (l.map f).foldl (fun acc c =>
          if c.threadId == tid ∧ c.parentId = none then some c else acc) (acc.map f)
        = (l.foldl (fun acc c =>
            if c.threadId == tid ∧ c.parentId = none then some c else acc) acc).map f := by
    intro l
    induction l with
    | nil => intro _ acc; rfl
    | cons c cs ih =>
        intro hp acc
        rw [List.map_cons, List.foldl_cons, List.foldl_cons]
        have hc := hp c (List.mem_cons_self _ _)
        have htail := fun c2 hc2 => hp c2 (List.mem_cons_of_mem _ hc2)
        by_cases hcond : (c.threadId == tid) = true ∧ c.parentId = none
        · rw [if_pos hcond, if_pos (by rw [hc.1, hc.2]; exact hcond)]
          exact ih htail (some c)
        · rw [if_neg hcond, if_neg (by rw [hc.1, hc.2]; exact hcond)]
          exact ih htail acc
  exact main m hpres none

/-- The refresh pass is the fold of its step. -/
theorem refreshPass_eq (d : Doc) (ts : List ThreadId) (m : CMap) :
    refreshPass d ts m = ts.foldl (refreshStep d) m := rfl

/-- Case form of the refresh step with the live text named. -/
theorem refreshStep_eq (d : Doc) (acc : CMap) (tid : ThreadId) :
    refreshStep d acc tid
      = match findCommentMarkRange d tid with
        | none => acc
        | some r =>
            match findRootCommentEntry acc tid with
            | none => acc
            | some e =>
                if e.selectedText ≠ currentTextOf d r then
                  mapSet acc e.id (refreshedRec d r e)
                else acc := by
  unfold refreshStep refreshedRec
  rcases hr : findCommentMarkRange d tid with _ | r
  · rfl
  · rcases he : findRootCommentEntry acc tid with _ | e
    · rfl
    · rcases hI : r.isImage
      · simp [hI, currentTextOf]
      · simp [hI, currentTextOf]

/-- Value of the refresh step without a live range. -/
theorem refreshStep_none (d : Doc) (acc : CMap) (tid : ThreadId)
    (hr : findCommentMarkRange d tid = none) : refreshStep d acc tid = acc := by
  rw [refreshStep_eq, hr]

/-- Value of the refresh step without a root entry. -/
theorem refreshStep_noentry (d : Doc) (acc : CMap) (tid : ThreadId) (r : MarkRange)
    (hr : findCommentMarkRange d tid = some r)
    (he : findRootCommentEntry acc tid = none) : refreshStep d acc tid = acc := by
  rw [refreshStep_eq, hr]
  show (match findRootCommentEntry acc tid with
        | none => acc
        | some e =>
            if e.selectedText ≠ currentTextOf d r then
              mapSet acc e.id (refreshedRec d r e)
            else acc) = acc
  rw [he]

/-- Value of the refresh step when the stored text is already live. -/
theorem refreshStep_same (d : Doc) (acc : CMap) (tid : ThreadId) (r : MarkRange)
    (e : Comment) (hr : findCommentMarkRange d tid = some r)
    (he : findRootCommentEntry acc tid = some e)
    (hx : e.selectedText = currentTextOf d r) : refreshStep d acc tid = acc := by
  rw [refreshStep_eq, hr]
  show (match findRootCommentEntry acc tid with
        | none => acc
        | some e2 =>
            if e2.selectedText ≠ currentTextOf d r then
              mapSet acc e2.id (refreshedRec d r e2)
            else acc) = acc
  rw [he]
  show (if e.selectedText ≠ currentTextOf d r then
          mapSet acc e.id (refreshedRec d r e)
        else acc) = acc
  rw [if_neg (fun hne => hne hx)]

/-- Value of the refresh step when the stored text drifted. -/
theorem refreshStep_update (d : Doc) (acc : CMap) (tid : ThreadId) (r : MarkRange)
    (e : Comment) (hr : findCommentMarkRange d tid = some r)
    (he : findRootCommentEntry acc tid = some e)
    (hx : ¬ e.selectedText = currentTextOf d r) :
    refreshStep d acc tid = mapSet acc e.id (refreshedRec d r e) := by
  rw [refreshStep_eq, hr]
  show (match findRootCommentEntry acc tid with
        | none => acc
        | some e2 =>
            if e2.selectedText ≠ currentTextOf d r then
              mapSet acc e2.id (refreshedRec d r e2)
            else acc) = mapSet acc e.id (refreshedRec d r e)
  rw [he]
  show (if e.selectedText ≠ currentTextOf d r then
          mapSet acc e.id (refreshedRec d r e)
        else acc) = mapSet acc e.id (refreshedRec d r e)
  rw [if_pos hx]

/-- A thread without a live range is a no-op thread for any store. -/
theorem refreshNoop_of_none (d : Doc) (n : CMap) (tid : ThreadId)
    (hr : findCommentMarkRange d tid = none) : refreshNoop d n tid := by
  unfold refreshNoop
  rw [hr]
  exact trivial

/-- A thread without a root entry is a no-op thread. -/
theorem refreshNoop_of_noentry (d : Doc) (n : CMap) (tid : ThreadId) (r : MarkRange)
    (hr : findCommentMarkRange d tid = some r)
    (he : findRootCommentEntry n tid = none) : refreshNoop d n tid := by
  unfold refreshNoop
  rw [hr]
  show (match findRootCommentEntry n tid with
        | none => True
        | some e => e.selectedText = currentTextOf d r)
  rw [he]
  exact trivial

/-- A thread whose stored text is live is a no-op thread. -/
theorem refreshNoop_of_eq (d : Doc) (n : CMap) (tid : ThreadId) (r : MarkRange)
    (e : Comment) (hr : findCommentMarkRange d tid = some r)
    (he : findRootCommentEntry n tid = some e)
    (hx : e.selectedText = currentTextOf d r) : refreshNoop d n tid := by
  unfold refreshNoop
  rw [hr]
  show (match findRootCommentEntry n tid with
        | none => True
        | some e2 => e2.selectedText = currentTextOf d r)
  rw [he]
  exact hx

/-- With a live range and a root entry, a no-op thread stores the live
text. -/
theorem refreshNoop_elim {d : Doc} {n : CMap} {tid : ThreadId} {r : MarkRange}
    {e : Comment} (h : refreshNoop d n tid)
    (hr : findCommentMarkRange d tid = some r)
    (he : findRootCommentEntry n tid = some e) :
    e.selectedText = currentTextOf d r := by
  unfold refreshNoop at h
  rw [hr] at h
  have h2 : (match findRootCommentEntry n tid with
      | none => True
      | some e2 => e2.selectedText = currentTextOf d r) := h
  rw [he] at h2
  exact h2

/-- A no-op thread leaves the refresh step inert. -/
theorem refreshStep_of_noop (d : Doc) (n : CMap) (tid : ThreadId)
    (h : refreshNoop d n tid) : refreshStep d n tid = n := by
  rcases hr : findCommentMarkRange d tid with _ | r
  · exact refreshStep_none d n tid hr
  · rcases he : findRootCommentEntry n tid with _ | e
    · exact refreshStep_noentry d n tid r hr he
    · exact refreshStep_same d n tid r e hr he (refreshNoop_elim h hr he)

/-- The restoration pass is a per-record map by the restored ids. -/
theorem restorePass_eq (tids : List ThreadId) (ths : List (ThreadId × List Comment))
    (m : CMap) :
    restorePass tids ths m = m.map (restoreFn (restoredIdsOf tids ths)) := by
  show (if restoredIdsOf tids ths = [] then m
        else m.map (fun c =>
          if (restoredIdsOf tids ths).contains c.threadId ∧ c.parentId = none then
            { c with orphaned := false, orphanedAt := none }
          else c))
      = m.map (restoreFn (restoredIdsOf tids ths))
  by_cases h : restoredIdsOf tids ths = []
  · rw [if_pos h, h]
    have h2 : ∀ c ∈ m, restoreFn [] c = c := fun c _ => restoreFn_nil c
    rw [List.map_congr_left h2]
    simp
  · rw [if_neg h]
    rfl

/-- The orphan pass is a per-record map by the orphaned ids, with the batch
being exactly those ids. -/
theorem orphanPass_eq (now : Nat) (tids : List ThreadId)
    (ths : List (ThreadId × List Comment)) (m : CMap) :
    orphanPass now tids ths m
      = (m.map (orphanFn now (orphanIdsOf tids ths)), orphanIdsOf tids ths) := by
  show (if orphanIdsOf tids ths = [] then (m, [])
        else (m.map (fun c =>
          if (orphanIdsOf tids ths).contains c.threadId ∧ c.parentId = none then
            { c with orphaned := true, orphanedAt := some now }
          else c), orphanIdsOf tids ths))
      = (m.map (orphanFn now (orphanIdsOf tids ths)), orphanIdsOf tids ths)
  by_cases h : orphanIdsOf tids ths = []
  · rw [if_pos h, h]
    have h2 : ∀ c ∈ m, orphanFn now [] c = c := fun c _ => orphanFn_nil now c
    rw [List.map_congr_left h2]
    simp
  · rw [if_neg h]
    rfl

/-- Anchor-related stores filter identically under an anchor-determined
predicate. -/
theorem forall2_anchor_filter (p : Comment → Bool)
    (hp : ∀ {c c2 : Comment}, sameAnchor c c2 → p c2 = p c) :
    ∀ {l l2 : CMap}, List.Forall₂ sameAnchor l l2 →
      List.Forall₂ sameAnchor (l.filter p) (l2.filter p) := by
  intro l l2 h
  induction h with
  | nil => exact List.Forall₂.nil
  | @cons a b l1 l3 h1 h2 ih =>
      rw [List.filter_cons, List.filter_cons, hp h1]
      by_cases hv : p a = true
      · rw [if_pos hv, if_pos hv]
        exact List.Forall₂.cons h1 ih
      · rw [if_neg hv, if_neg hv]
        exact ih

/-- Anchor-related stores have anchor-related valid comments. -/
theorem validComments_congr {m m2 : CMap} (h : List.Forall₂ sameAnchor m m2) :
    List.Forall₂ sameAnchor (validComments m) (validComments m2) := by
  unfold validComments
  refine forall2_anchor_filter _ ?_ h
  intro c c2 hcc
  rw [show c2.threadId = c.threadId from hcc.2.1]

/-- Anchor-related lists insert anchor-related records at the same place. -/
theorem insertByCreated_congr {x x2 : Comment} (hx : sameAnchor x x2) :
    ∀ {l l2 : List Comment}, List.Forall₂ sameAnchor l l2 →
      List.Forall₂ sameAnchor (insertByCreated l x) (insertByCreated l2 x2) := by
  intro l l2 h
  induction h with
  | nil => exact List.Forall₂.cons hx List.Forall₂.nil
  | @cons a b l1 l3 h1 h2 ih =>
      unfold insertByCreated
      have hca : b.createdAt = a.createdAt := h1.2.2.2.1
      have hcx : x2.createdAt = x.createdAt := hx.2.2.2.1
      by_cases hle : a.createdAt ≤ x.createdAt
      · rw [if_pos hle, if_pos (by rw [hca, hcx]; exact hle)]
        exact List.Forall₂.cons h1 ih
      · rw [if_neg hle, if_neg (by rw [hca, hcx]; exact hle)]
        exact List.Forall₂.cons hx (List.Forall₂.cons h1 h2)

/-- Anchor-related lists sort to anchor-related lists. -/
theorem sortByCreated_congr {l l2 : List Comment}
    (h : List.Forall₂ sameAnchor l l2) :
    List.Forall₂ sameAnchor (sortByCreated l) (sortByCreated l2) := by
  unfold sortByCreated
  have main : ∀ {l l2 : List Comment}, List.Forall₂ sameAnchor l l2 →
      ∀ {acc acc2 : List Comment}, List.Forall₂ sameAnchor acc acc2 →
      List.Forall₂ sameAnchor (l.foldl insertByCreated acc)
        (l2.foldl insertByCreated acc2) := by
    intro l l2 h
    induction h with
    | nil => intro acc acc2 ha; exact ha
    | cons h1 h2 ih =>
        intro acc acc2 ha
        rw [List.foldl_cons, List.foldl_cons]
        exact ih (insertByCreated_congr h1 ha)
  exact main h List.Forall₂.nil

/-- Anchor-related stores have anchor-related thread comment lists. -/
theorem threadComments_congr (tid : ThreadId) {m m2 : CMap}
    (h : List.Forall₂ sameAnchor m m2) :
    List.Forall₂ sameAnchor (threadComments m tid) (threadComments m2 tid) := by
  unfold threadComments
  apply sortByCreated_congr
  refine forall2_anchor_filter _ ?_ (validComments_congr h)
  intro c c2 hcc
  rw [show c2.threadId = c.threadId from hcc.2.1]

/-- Anchor-related stores have the same thread id key set. -/
theorem threadIdsOf_congr {m m2 : CMap} (h : List.Forall₂ sameAnchor m m2) :
    threadIdsOf m2 = threadIdsOf m := by
  unfold threadIdsOf
  have main : ∀ {l l2 : List Comment}, List.Forall₂ sameAnchor l l2 →
      ∀ acc, l2.foldl (fun acc c => insertTid acc c.threadId) acc
        = l.foldl (fun acc c => insertTid acc c.threadId) acc := by
    intro l l2 hh
    induction hh with
    | nil => intro acc; rfl
    | @cons a b l1 l3 h1 h2 ih =>
        intro acc
        rw [List.foldl_cons, List.foldl_cons, show b.threadId = a.threadId from h1.2.1]
        exact ih _
  exact main (validComments_congr h) []

/-- Anchor-related thread lists agree on having a root, and their roots are
anchor-related. -/
theorem rootOf_congr {cs cs2 : List Comment}
    (h : List.Forall₂ sameAnchor cs cs2) :
    (rootOf cs = none ∧ rootOf cs2 = none)
      ∨ ∃ r r2, rootOf cs = some r ∧ rootOf cs2 = some r2 ∧ sameAnchor r r2 := by
  induction h with
  | nil => exact Or.inl ⟨rfl, rfl⟩
  | @cons a b l1 l2 h1 h2 ih =>
      have hpa : b.parentId = a.parentId := h1.2.2.1
      by_cases hp : a.parentId = none
      · right
        refine ⟨a, b, ?_, ?_, h1⟩
        · unfold rootOf
          rw [List.find?_cons_of_pos _ (by simp [hp])]
        · unfold rootOf
          rw [List.find?_cons_of_pos _ (by simp [hpa, hp])]
      · have e1 : rootOf (a :: l1) = rootOf l1 := by
          unfold rootOf
          rw [List.find?_cons_of_neg _ (by simp [hp])]
        have e2 : rootOf (b :: l2) = rootOf l2 := by
          unfold rootOf
          rw [List.find?_cons_of_neg _ (by simp [hpa, hp])]
        rw [e1, e2]
        exact ih

/-- The anchor-related image of the valid-comment filter under a
threadId-preserving record map. -/
theorem validComments_map (m : CMap) (f : Comment → Comment)
    (hf : ∀ c, (f c).threadId = c.threadId) :
    validComments (m.map f) = (validComments m).map f := by
  unfold validComments
  rw [List.filter_map]
  congr 1
  apply List.filter_congr
  intro c _
  show decide ((f c).threadId ≠ "") = decide (c.threadId ≠ "")
  rw [hf c]

/-- Insertion by creation time commutes with a createdAt-preserving record
map. -/
theorem insertByCreated_map (f : Comment → Comment)
    (hf : ∀ c, (f c).createdAt = c.createdAt) :
    ∀ (l : List Comment) (x : Comment),
      insertByCreated (l.map f) (f x) = (insertByCreated l x).map f := by
  intro l
  induction l with
  | nil => intro x; rfl
  | cons y ys ih =>
      intro x
      show (if (f y).createdAt ≤ (f x).createdAt
            then f y :: insertByCreated (ys.map f) (f x)
            else f x :: f y :: ys.map f)
          = (insertByCreated (y :: ys) x).map f
      rw [hf y, hf x]
      by_cases hle : y.createdAt ≤ x.createdAt
      · rw [if_pos hle, ih x,
            show insertByCreated (y :: ys) x = y :: insertByCreated ys x from by
              simp only [insertByCreated]
              rw [if_pos hle]]
        rfl
      · rw [if_neg hle,
            show insertByCreated (y :: ys) x = x :: y :: ys from by
              simp only [insertByCreated]
              rw [if_neg hle]]
        rfl

/-- The stable sort commutes with a createdAt-preserving record map. -/
theorem sortByCreated_map (f : Comment → Comment)
    (hf : ∀ c, (f c).createdAt = c.createdAt) (l : List Comment) :
    sortByCreated (l.map f) = (sortByCreated l).map f := by
  unfold sortByCreated
  have main : ∀ (l acc : List Comment),
      (l.map f).foldl insertByCreated (acc.map f)
        = (l.foldl insertByCreated acc).map f := by
    intro l
    induction l with
    | nil => intro acc; rfl
    | cons y ys ih =>
        intro acc
        rw [List.map_cons, List.foldl_cons, List.foldl_cons,
            insertByCreated_map f hf acc y, ih (insertByCreated acc y)]
  exact main l []

/-- Thread comment lists commute with a grouping-preserving record map. -/
theorem threadComments_map (m : CMap) (tid : ThreadId) (f : Comment → Comment)
    (hf1 : ∀ c, (f c).threadId = c.threadId)
    (hf2 : ∀ c, (f c).createdAt = c.createdAt) :
    threadComments (m.map f) tid = (threadComments m tid).map f := by
  unfold threadComments
  rw [validComments_map m f hf1, List.filter_map]
  have hpred : ∀ c ∈ validComments m,
      ((fun c => c.threadId == tid) ∘ f) c = (fun c : Comment => c.threadId == tid) c := by
    intro c _
    show ((f c).threadId == tid) = (c.threadId == tid)
    rw [hf1 c]
  rw [List.filter_congr hpred, sortByCreated_map f hf2]

/-- The root lookup commutes with a parentId-preserving record map. -/
theorem rootOf_map (cs : List Comment) (f : Comment → Comment)
    (hf : ∀ c, (f c).parentId = c.parentId) :
    rootOf (cs.map f) = (rootOf cs).map f := by
  unfold rootOf
  rw [List.find?_map]
  have hfun : ((fun c : Comment => decide (c.parentId = none)) ∘ f)
      = (fun c : Comment => decide (c.parentId = none)) := by
    funext c
    show decide ((f c).parentId = none) = decide (c.parentId = none)
    rw [hf c]
  rw [hfun]

/-- The thread id key set is unchanged by a threadId-preserving record map. -/
theorem threadIdsOf_map (m : CMap) (f : Comment → Comment)
    (hf : ∀ c, (f c).threadId = c.threadId) :
    threadIdsOf (m.map f) = threadIdsOf m := by
  unfold threadIdsOf
  rw [validComments_map m f hf]
  have main : ∀ (l : List Comment) (acc : List ThreadId),
      (l.map f).foldl (fun acc c => insertTid acc c.threadId) acc
        = l.foldl (fun acc c => insertTid acc c.threadId) acc := by
    intro l
    induction l with
    | nil => intro acc; rfl
    | cons y ys ih =>
        intro acc
        rw [List.map_cons, List.foldl_cons, List.foldl_cons, hf y]
        exact ih _
  exact main (validComments m) []

/-- Membership in the restored id list of a store's grouping. -/
theorem mem_restoredIdsOf {tid : ThreadId} (tids : List ThreadId) (m : CMap) :
    tid ∈ restoredIdsOf tids (threadsOf m)
      ↔ tid ∈ threadIdsOf m
          ∧ ((rootOf (threadComments m tid)).elim false (fun r => r.orphaned)) = true
          ∧ tids.contains tid = true := by
  unfold restoredIdsOf
  rw [List.mem_map]
  constructor
  · rintro ⟨p, hp, rfl⟩
    rcases List.mem_filter.mp hp with ⟨hmem, hcond⟩
    rcases mem_threadsOf m hmem with ⟨h1, h2⟩
    rw [h2] at hcond
    simp only [decide_eq_true_eq] at hcond
    exact ⟨h1, hcond.1, hcond.2⟩
  · rintro ⟨h1, h2, h3⟩
    refine ⟨(tid, threadComments m tid),
      List.mem_filter.mpr ⟨List.mem_map.mpr ⟨tid, h1, rfl⟩, ?_⟩, rfl⟩
    simp only [decide_eq_true_eq]
    exact ⟨h2, h3⟩

/-- Membership in the newly orphaned id list of a store's grouping. -/
theorem mem_orphanIdsOf {tid : ThreadId} (tids : List ThreadId) (m : CMap) :
    tid ∈ orphanIdsOf tids (threadsOf m)
      ↔ tid ∈ threadIdsOf m
          ∧ tids.contains tid = false
          ∧ ((rootOf (threadComments m tid)).elim false (fun r => r.resolved)) = false
          ∧ ((rootOf (threadComments m tid)).elim false (fun r => r.orphaned)) = false := by
  unfold orphanIdsOf
  rw [List.mem_map]
  constructor
  · rintro ⟨p, hp, rfl⟩
    rcases List.mem_filter.mp hp with ⟨hmem, hcond⟩
    rcases mem_threadsOf m hmem with ⟨h1, h2⟩
    rw [h2] at hcond
    simp only [decide_eq_true_eq, Bool.not_eq_true] at hcond
    exact ⟨h1, hcond.1, hcond.2.1, hcond.2.2⟩
  · rintro ⟨h1, h2, h3, h4⟩
    refine ⟨(tid, threadComments m tid),
      List.mem_filter.mpr ⟨List.mem_map.mpr ⟨tid, h1, rfl⟩, ?_⟩, rfl⟩
    simp only [decide_eq_true_eq, Bool.not_eq_true]
    exact ⟨h2, h3, h4⟩

/-- One refresh step keeps the store anchor-related and its key list
unchanged. -/
theorem refreshStep_anchor (d : Doc) (acc : CMap) (tid : ThreadId)
    (hnd : (acc.map (fun c => c.id)).Nodup) :
    List.Forall₂ sameAnchor acc (refreshStep d acc tid)
      ∧ (refreshStep d acc tid).map (fun c => c.id) = acc.map (fun c => c.id) := by
  rcases hr : findCommentMarkRange d tid with _ | r
  · rw [refreshStep_none d acc tid hr]
    exact ⟨forall2_anchor_refl acc, rfl⟩
  · rcases he : findRootCommentEntry acc tid with _ | e
    · rw [refreshStep_noentry d acc tid r hr he]
      exact ⟨forall2_anchor_refl acc, rfl⟩
    · by_cases hx : e.selectedText = currentTextOf d r
      · rw [refreshStep_same d acc tid r e hr he hx]
        exact ⟨forall2_anchor_refl acc, rfl⟩
      · rw [refreshStep_update d acc tid r e hr he hx]
        rcases findRootCommentEntry_spec acc tid e he with ⟨hmem, htid, hpid⟩
        rw [mapSet_present acc e.id _ (any_id_of_mem hmem)]
        constructor
        · apply forall2_anchor_map
          intro c hc
          by_cases hcid : (c.id == e.id) = true
          · have hce : c = e := List.inj_on_of_nodup_map hnd hc hmem (eq_of_beq hcid)
            subst hce
            rw [if_pos hcid]
            exact ⟨rfl, rfl, rfl, rfl, rfl, rfl, rfl, rfl⟩
          · rw [if_neg hcid]
            exact sameAnchor_refl c
        · rw [List.map_map]
          apply List.map_congr_left
          intro c hc
          simp only [Function.comp_apply]
          by_cases hcid : (c.id == e.id) = true
          · rw [if_pos hcid]
            exact (eq_of_beq hcid).symm
          · rw [if_neg hcid]

/-- After its own step, a thread is a no-op thread. -/
theorem refreshStep_establishes (d : Doc) (acc : CMap) (tid : ThreadId)
    (hnd : (acc.map (fun c => c.id)).Nodup) :
    refreshNoop d (refreshStep d acc tid) tid := by
  rcases hr : findCommentMarkRange d tid with _ | r
  · exact refreshNoop_of_none _ _ _ hr
  · rcases he : findRootCommentEntry acc tid with _ | e
    · rw [refreshStep_noentry d acc tid r hr he]
      exact refreshNoop_of_noentry _ _ _ r hr he
    · by_cases hx : e.selectedText = currentTextOf d r
      · rw [refreshStep_same d acc tid r e hr he hx]
        exact refreshNoop_of_eq _ _ _ r e hr he hx
      · rw [refreshStep_update d acc tid r e hr he hx]
        rcases findRootCommentEntry_spec acc tid e he with ⟨hmem, htid, hpid⟩
        rw [mapSet_present acc e.id _ (any_id_of_mem hmem)]
        have hpres : ∀ c ∈ acc,
            ((fun x => if x.id == e.id then refreshedRec d r e else x) c).threadId
                = c.threadId
              ∧ ((fun x => if x.id == e.id then refreshedRec d r e else x) c).parentId
                = c.parentId := by
          intro c hc
          by_cases hcid : (c.id == e.id) = true
          · have hce : c = e := List.inj_on_of_nodup_map hnd hc hmem (eq_of_beq hcid)
            subst hce
            show ((if (c.id == c.id) = true then refreshedRec d r c else c).threadId = c.threadId)
              ∧ ((if (c.id == c.id) = true then refreshedRec d r c else c).parentId = c.parentId)
            rw [if_pos hcid]
            exact ⟨rfl, rfl⟩
          · show ((if (c.id == e.id) = true then refreshedRec d r e else c).threadId = c.threadId)
              ∧ ((if (c.id == e.id) = true then refreshedRec d r e else c).parentId = c.parentId)
            rw [if_neg hcid]
            exact ⟨rfl, rfl⟩
        have hmap := findRootCommentEntry_map acc tid
          (fun x => if x.id == e.id then refreshedRec d r e else x) hpres
        rw [he] at hmap
        simp only [Option.map_some'] at hmap
        have hfe : (if (e.id == e.id) = true then refreshedRec d r e else e)
            = refreshedRec d r e := if_pos (by simp)
        rw [hfe] at hmap
        exact refreshNoop_of_eq _ _ _ r (refreshedRec d r e) hr hmap rfl

/-- Any refresh step keeps an already no-op thread a no-op thread. -/
theorem refreshStep_preserves_noop (d : Doc) (acc : CMap) (tid tid2 : ThreadId)
    (hnd : (acc.map (fun c => c.id)).Nodup)
    (h : refreshNoop d acc tid) :
    refreshNoop d (refreshStep d acc tid2) tid := by
  rcases hr : findCommentMarkRange d tid with _ | r
  · exact refreshNoop_of_none _ _ _ hr
  · rcases hr2 : findCommentMarkRange d tid2 with _ | r2
    · rw [refreshStep_none d acc tid2 hr2]; exact h
    · rcases he2 : findRootCommentEntry acc tid2 with _ | e2
      · rw [refreshStep_noentry d acc tid2 r2 hr2 he2]; exact h
      · by_cases hx2 : e2.selectedText = currentTextOf d r2
        · rw [refreshStep_same d acc tid2 r2 e2 hr2 he2 hx2]; exact h
        · rw [refreshStep_update d acc tid2 r2 e2 hr2 he2 hx2]
          rcases findRootCommentEntry_spec acc tid2 e2 he2 with ⟨hmem2, htid2, hpid2⟩
          rw [mapSet_present acc e2.id _ (any_id_of_mem hmem2)]
          have hpres : ∀ c ∈ acc,
              ((fun x => if x.id == e2.id then refreshedRec d r2 e2 else x) c).threadId
                  = c.threadId
                ∧ ((fun x => if x.id == e2.id then refreshedRec d r2 e2 else x) c).parentId
                  = c.parentId := by
            intro c hc
            by_cases hcid : (c.id == e2.id) = true
            · have hce : c = e2 := List.inj_on_of_nodup_map hnd hc hmem2 (eq_of_beq hcid)
              subst hce
              show ((if (c.id == c.id) = true then refreshedRec d r2 c else c).threadId = c.threadId)
                ∧ ((if (c.id == c.id) = true then refreshedRec d r2 c else c).parentId = c.parentId)
              rw [if_pos hcid]
              exact ⟨rfl, rfl⟩
            · show ((if (c.id == e2.id) = true then refreshedRec d r2 e2 else c).threadId = c.threadId)
                ∧ ((if (c.id == e2.id) = true then refreshedRec d r2 e2 else c).parentId = c.parentId)
              rw [if_neg hcid]
              exact ⟨rfl, rfl⟩
          have hmap := findRootCommentEntry_map acc tid
            (fun x => if x.id == e2.id then refreshedRec d r2 e2 else x) hpres
          rcases he : findRootCommentEntry acc tid with _ | e
          · rw [he] at hmap
            simp only [Option.map_none'] at hmap
            exact refreshNoop_of_noentry _ _ _ r hr hmap
          · rw [he] at hmap
            simp only [Option.map_some'] at hmap
            have hx : e.selectedText = currentTextOf d r := refreshNoop_elim h hr he
            by_cases hcid : (e.id == e2.id) = true
            · exfalso
              have hee : e = e2 :=
                List.inj_on_of_nodup_map hnd (findRootCommentEntry_spec acc tid e he).1
                  hmem2 (eq_of_beq hcid)
              have htid1 : e.threadId = tid := (findRootCommentEntry_spec acc tid e he).2.1
              have htt : tid = tid2 := by
                rw [← htid1, hee, htid2]
              rw [← htt] at hr2
              rw [hr] at hr2
              have hrr : r = r2 := Option.some.inj hr2
              apply hx2
              rw [← hee, ← hrr]
              exact hx
            · rw [if_neg hcid] at hmap
              exact refreshNoop_of_eq _ _ _ r e hr hmap hx

/-- A no-op thread stays a no-op thread along the refresh fold. -/
theorem refreshNoop_fold_preserved (d : Doc) :
    ∀ (ts : List ThreadId) (acc : CMap) (tid : ThreadId),
      (acc.map (fun c => c.id)).Nodup → refreshNoop d acc tid →
      refreshNoop d (ts.foldl (refreshStep d) acc) tid := by
  intro ts
  induction ts with
  | nil => intro acc tid hnd h; exact h
  | cons t ts2 ih =>
      intro acc tid hnd h
      rw [List.foldl_cons]
      have hstep := refreshStep_anchor d acc t hnd
      exact ih _ tid (by rw [hstep.2]; exact hnd)
        (refreshStep_preserves_noop d acc tid t hnd h)

/-- The refresh fold keeps the store anchor-related and leaves every
processed thread a no-op thread. -/
theorem refreshFold (d : Doc) :
    ∀ (ts : List ThreadId) (acc : CMap),
      (acc.map (fun c => c.id)).Nodup →
      List.Forall₂ sameAnchor acc (ts.foldl (refreshStep d) acc)
        ∧ (ts.foldl (refreshStep d) acc).map (fun c => c.id)
            = acc.map (fun c => c.id)
        ∧ ∀ tid ∈ ts, refreshNoop d (ts.foldl (refreshStep d) acc) tid := by
  intro ts
  induction ts with
  | nil =>
      intro acc hnd
      refine ⟨forall2_anchor_refl acc, rfl, ?_⟩
      intro tid h
      cases h
  | cons t ts2 ih =>
      intro acc hnd
      rw [List.foldl_cons]
      have hstep := refreshStep_anchor d acc t hnd
      have hnd2 : ((refreshStep d acc t).map (fun c => c.id)).Nodup := by
        rw [hstep.2]; exact hnd
      have hmain := ih (refreshStep d acc t) hnd2
      refine ⟨forall2_anchor_trans hstep.1 hmain.1,
        by rw [hmain.2.1, hstep.2], ?_⟩
      intro tid htid
      rcases List.mem_cons.mp htid with rfl | hmem
      · exact refreshNoop_fold_preserved d ts2 (refreshStep d acc tid) tid hnd2
          (refreshStep_establishes d acc tid hnd)
      · exact hmain.2.2 tid hmem

/-- A fold of no-op threads leaves the store untouched. -/
theorem refreshFold_noop (d : Doc) :
    ∀ (ts : List ThreadId) (n : CMap),
      (∀ tid ∈ ts, refreshNoop d n tid) → ts.foldl (refreshStep d) n = n := by
  intro ts
  induction ts with
  | nil => intro n _; rfl
  | cons t ts2 ih =>
      intro n h
      rw [List.foldl_cons, refreshStep_of_noop d n t (h t (List.mem_cons_self _ _))]
      exact ih n (fun tid htid => h tid (List.mem_cons_of_mem _ htid))

/-- Claim C9, counterexample: on a store holding only a reply whose thread
has no root comment, the lifecycle pass leaves the store unchanged yet emits
the thread again on every run, so the second run's orphaned-thread batch is
not empty. -/
theorem lifecycle_idempotent_cex :
    (lifecyclePass 7 [] rootlessStore).1 = rootlessStore
      ∧ (lifecyclePass 7 [] ((lifecyclePass 7 [] rootlessStore).1)).2 = ["t"] := by
  refine ⟨by decide, by decide⟩

/-- Claim C9 (amended): on a store with pairwise distinct record ids in which
every thread has a root comment, running the Anchor Lifecycle Controller
pass (restoration, orphan detection, selected-text refresh) twice on the
same unchanged document produces no additional state change the second time:
the second run returns the first run's store unchanged and emits an empty
orphaned-thread batch. -/
theorem lifecycle_idempotent (now now2 : Nat) (d : Doc) (m : CMap)
    (hids : (m.map (fun c => c.id)).Nodup)
    (hroot : ∀ tid ∈ threadIdsOf m, (rootOf (threadComments m tid)).isSome = true) :
    lifecyclePass now2 d (lifecyclePass now d m).1 = ((lifecyclePass now d m).1, []) := by
  set tids := tidsWithMarks d with htidsdef
  set g := fun c => orphanFn now (orphanIdsOf tids (threadsOf m))
      (restoreFn (restoredIdsOf tids (threadsOf m)) c) with hgdef
  have hgfield : ∀ c : Comment, (g c).id = c.id ∧ (g c).threadId = c.threadId
      ∧ (g c).parentId = c.parentId ∧ (g c).createdAt = c.createdAt
      ∧ (g c).resolved = c.resolved := by
    intro c
    have h1 := restoreFn_fields (restoredIdsOf tids (threadsOf m)) c
    have h2 := orphanFn_fields now (orphanIdsOf tids (threadsOf m))
      (restoreFn (restoredIdsOf tids (threadsOf m)) c)
    exact ⟨h2.1.trans h1.1, h2.2.1.trans h1.2.1, h2.2.2.1.trans h1.2.2.1,
      h2.2.2.2.1.trans h1.2.2.2.1, h2.2.2.2.2.1.trans h1.2.2.2.2.1⟩
  have hm2 : (orphanPass now tids (threadsOf m) (restorePass tids (threadsOf m) m)).1
      = m.map g := by
    rw [restorePass_eq tids (threadsOf m) m,
        orphanPass_eq now tids (threadsOf m)
          (m.map (restoreFn (restoredIdsOf tids (threadsOf m))))]
    show (m.map (restoreFn (restoredIdsOf tids (threadsOf m)))).map
        (orphanFn now (orphanIdsOf tids (threadsOf m))) = m.map g
    rw [List.map_map]
    rfl
  have hids2 : ((m.map g).map (fun c => c.id)).Nodup := by
    rw [List.map_map]
    have h2 : ∀ c ∈ m, ((fun c => c.id) ∘ g) c = (fun c : Comment => c.id) c := by
      intro c _
      show (g c).id = c.id
      exact (hgfield c).1
    rw [List.map_congr_left h2]
    exact hids
  have hroot2 : ∀ tid ∈ threadIdsOf m,
      rootOf (threadComments (m.map g) tid)
        = (rootOf (threadComments m tid)).map g := by
    intro tid _
    rw [threadComments_map m tid g (fun c => (hgfield c).2.1)
          (fun c => (hgfield c).2.2.2.1),
        rootOf_map _ g (fun c => (hgfield c).2.2.1)]
  have hfact2 : ∀ tid ∈ threadIdsOf m,
      ∃ r2, rootOf (threadComments (m.map g) tid) = some r2
        ∧ (tids.contains tid = true → r2.orphaned = false)
        ∧ (tids.contains tid = false → (r2.resolved = true ∨ r2.orphaned = true)) := by
    intro tid htid
    rcases Option.isSome_iff_exists.mp (hroot tid htid) with ⟨r0, hr0⟩
    have hr0spec := rootOf_spec hr0
    have hr0tid : r0.threadId = tid := ((mem_threadComments m tid).mp hr0spec.1).2.2
    refine ⟨g r0, by rw [hroot2 tid htid, hr0]; rfl, ?_, ?_⟩
    · intro hlive
      have hnoto : (orphanIdsOf tids (threadsOf m)).contains tid = false := by
        cases hv : (orphanIdsOf tids (threadsOf m)).contains tid
        · rfl
        · exfalso
          have h5 := (mem_orphanIdsOf tids m).mp ((tid_contains_iff _ _).mp hv)
          have h6 := h5.2.1
          rw [hlive] at h6
          cases h6
      show (orphanFn now (orphanIdsOf tids (threadsOf m))
          (restoreFn (restoredIdsOf tids (threadsOf m)) r0)).orphaned = false
      have hox : orphanFn now (orphanIdsOf tids (threadsOf m))
          (restoreFn (restoredIdsOf tids (threadsOf m)) r0)
          = restoreFn (restoredIdsOf tids (threadsOf m)) r0 := by
        unfold orphanFn
        rw [if_neg]
        rintro ⟨hc1, -⟩
        rw [(restoreFn_fields (restoredIdsOf tids (threadsOf m)) r0).2.1, hr0tid,
            hnoto] at hc1
        cases hc1
      rw [hox]
      unfold restoreFn
      by_cases hcr : (restoredIdsOf tids (threadsOf m)).contains r0.threadId = true
          ∧ r0.parentId = none
      · rw [if_pos hcr]
      · rw [if_neg hcr]
        cases hv : r0.orphaned
        · rfl
        · exfalso
          apply hcr
          refine ⟨?_, hr0spec.2⟩
          rw [hr0tid]
          apply (tid_contains_iff _ _).mpr
          apply (mem_restoredIdsOf tids m).mpr
          refine ⟨htid, ?_, hlive⟩
          rw [hr0]
          exact hv
    · intro hdead
      have hnotr : (restoredIdsOf tids (threadsOf m)).contains tid = false := by
        cases hv : (restoredIdsOf tids (threadsOf m)).contains tid
        · rfl
        · exfalso
          have h5 := (mem_restoredIdsOf tids m).mp ((tid_contains_iff _ _).mp hv)
          have h6 := h5.2.2
          rw [hdead] at h6
          cases h6
      have hrx : restoreFn (restoredIdsOf tids (threadsOf m)) r0 = r0 := by
        unfold restoreFn
        rw [if_neg]
        rintro ⟨hc1, -⟩
        rw [hr0tid, hnotr] at hc1
        cases hc1
      show (orphanFn now (orphanIdsOf tids (threadsOf m))
            (restoreFn (restoredIdsOf tids (threadsOf m)) r0)).resolved = true
          ∨ (orphanFn now (orphanIdsOf tids (threadsOf m))
            (restoreFn (restoredIdsOf tids (threadsOf m)) r0)).orphaned = true
      rw [hrx]
      by_cases hres : r0.resolved = true
      · left
        rw [(orphanFn_fields now (orphanIdsOf tids (threadsOf m)) r0).2.2.2.2.1]
        exact hres
      · by_cases horph : r0.orphaned = true
        · right
          have hno : (orphanIdsOf tids (threadsOf m)).contains r0.threadId = false := by
            cases hv : (orphanIdsOf tids (threadsOf m)).contains r0.threadId
            · rfl
            · exfalso
              rw [hr0tid] at hv
              have h5 := (mem_orphanIdsOf tids m).mp ((tid_contains_iff _ _).mp hv)
              have h6 := h5.2.2.2
              rw [hr0] at h6
              have h7 : r0.orphaned = false := h6
              rw [h7] at horph
              cases horph
          unfold orphanFn
          rw [if_neg (by rintro ⟨hc1, -⟩; rw [hno] at hc1; cases hc1)]
          exact horph
        · right
          have hyes : (orphanIdsOf tids (threadsOf m)).contains r0.threadId = true := by
            rw [hr0tid]
            apply (tid_contains_iff _ _).mpr
            apply (mem_orphanIdsOf tids m).mpr
            refine ⟨htid, hdead, ?_, ?_⟩
            · rw [hr0]
              show r0.resolved = false
              cases hv : r0.resolved
              · rfl
              · exact absurd hv hres
            · rw [hr0]
              show r0.orphaned = false
              cases hv : r0.orphaned
              · rfl
              · exact absurd hv horph
          unfold orphanFn
          rw [if_pos ⟨hyes, hr0spec.2⟩]
  have hm3eq : (lifecyclePass now d m).1 = tids.foldl (refreshStep d) (m.map g) := by
    show refreshPass d tids
        (orphanPass now tids (threadsOf m) (restorePass tids (threadsOf m) m)).1
      = tids.foldl (refreshStep d) (m.map g)
    rw [hm2, refreshPass_eq]
  have hF := refreshFold d tids (m.map g) hids2
  set m3 := tids.foldl (refreshStep d) (m.map g) with hm3def
  have hTI3 : threadIdsOf m3 = threadIdsOf m := by
    rw [threadIdsOf_congr hF.1, threadIdsOf_map m g (fun c => (hgfield c).2.1)]
  have hfact3 : ∀ tid ∈ threadIdsOf m,
      ∃ r3, rootOf (threadComments m3 tid) = some r3
        ∧ (tids.contains tid = true → r3.orphaned = false)
        ∧ (tids.contains tid = false → (r3.resolved = true ∨ r3.orphaned = true)) := by
    intro tid htid
    rcases hfact2 tid htid with ⟨r2, hr2, hA, hB⟩
    rcases rootOf_congr (threadComments_congr tid hF.1) with ⟨hn1, hn2⟩ | ⟨ra, rb, h1, h2, h3⟩
    · rw [hr2] at hn1
      cases hn1
    · rw [hr2] at h1
      have hra : r2 = ra := Option.some.inj h1
      subst hra
      refine ⟨rb, h2, ?_, ?_⟩
      · intro hlive
        rw [show rb.orphaned = r2.orphaned from h3.2.2.2.2.2.1]
        exact hA hlive
      · intro hdead
        rcases hB hdead with h4 | h4
        · left
          rw [show rb.resolved = r2.resolved from h3.2.2.2.2.1]
          exact h4
        · right
          rw [show rb.orphaned = r2.orphaned from h3.2.2.2.2.2.1]
          exact h4
  have hrids3 : restoredIdsOf tids (threadsOf m3) = [] := by
    cases hv : restoredIdsOf tids (threadsOf m3) with
    | nil => rfl
    | cons t rest =>
        exfalso
        have hmem : t ∈ restoredIdsOf tids (threadsOf m3) := by
          rw [hv]
          exact List.mem_cons_self _ _
        have h5 := (mem_restoredIdsOf tids m3).mp hmem
        have htidm : t ∈ threadIdsOf m := by rw [← hTI3]; exact h5.1
        rcases hfact3 t htidm with ⟨r3, hr3, hA, hB⟩
        have h6 := h5.2.1
        rw [hr3] at h6
        have h7 : r3.orphaned = true := h6
        rw [hA h5.2.2] at h7
        cases h7
  have hoids3 : orphanIdsOf tids (threadsOf m3) = [] := by
    cases hv : orphanIdsOf tids (threadsOf m3) with
    | nil => rfl
    | cons t rest =>
        exfalso
        have hmem : t ∈ orphanIdsOf tids (threadsOf m3) := by
          rw [hv]
          exact List.mem_cons_self _ _
        have h5 := (mem_orphanIdsOf tids m3).mp hmem
        have htidm : t ∈ threadIdsOf m := by rw [← hTI3]; exact h5.1
        rcases hfact3 t htidm with ⟨r3, hr3, hA, hB⟩
        rcases hB h5.2.1 with h6 | h6
        · have h7 := h5.2.2.1
          rw [hr3] at h7
          have h8 : r3.resolved = false := h7
          rw [h6] at h8
          cases h8
        · have h7 := h5.2.2.2
          rw [hr3] at h7
          have h8 : r3.orphaned = false := h7
          rw [h6] at h8
          cases h8
  have hres3 : restorePass tids (threadsOf m3) m3 = m3 := by
    rw [restorePass_eq, hrids3]
    have h2 : ∀ c ∈ m3, restoreFn [] c = c := fun c _ => restoreFn_nil c
    rw [List.map_congr_left h2]
    simp
  have horph3 : orphanPass now2 tids (threadsOf m3) m3 = (m3, []) := by
    rw [orphanPass_eq, hoids3]
    have h2 : ∀ c ∈ m3, orphanFn now2 [] c = c := fun c _ => orphanFn_nil now2 c
    rw [List.map_congr_left h2]
    simp
  have hrefresh3 : refreshPass d tids m3 = m3 := by
    rw [refreshPass_eq]
    exact refreshFold_noop d tids m3 hF.2.2
  rw [hm3eq]
  show (refreshPass d tids
      (orphanPass now2 tids (threadsOf m3) (restorePass tids (threadsOf m3) m3)).1,
      (orphanPass now2 tids (threadsOf m3) (restorePass tids (threadsOf m3) m3)).2)
    = (m3, [])
  rw [hres3, horph3]
  show (refreshPass d tids m3, ([] : List ThreadId)) = (m3, [])
  rw [hrefresh3]

/-- Claim C9, witness: a store with one unmarked rooted thread on the empty
document is orphaned by the first run and untouched, with an empty batch, by
the second. -/
theorem lifecycle_idempotent_witness :
    ((rootedStore.map (fun c => c.id)).Nodup)
    ∧ (∀ tid ∈ threadIdsOf rootedStore,
        (rootOf (threadComments rootedStore tid)).isSome = true)
    ∧ lifecyclePass 8 [] (lifecyclePass 7 [] rootedStore).1
        = ((lifecyclePass 7 [] rootedStore).1, []) :=
  ⟨by decide, by decide, lifecycle_idempotent 7 8 [] rootedStore (by decide) (by decide)⟩

end DaLive
